import Mathlib

set_option maxRecDepth 100000

/-!
# Verification of the DPM scanline-skipping DP matcher

This file gives a shallow embedding of the DPM matcher (`DPM.h`, `DPMS.h`,
`DPMF.h`, `ThreadPool.h`, `main.cpp`) and proves properties of it.

Modelling conventions:
* C++ `int` is modelled as `ℤ`; C++ `double` is modelled as `ℚ` (the program
  performs only additions, multiplications, divisions, comparisons and a few
  library calls on doubles; rounding of doubles is abstracted away, and the
  transcendental library functions `sqrt` and `exp` are passed in as oracle
  parameters where they occur).
* The per-worker DP table `std::vector<Node>` is modelled as a total function
  `ℤ → Node` indexed by the same linear index `iX + iY * X` the C++ code uses,
  so index collisions of the linear addressing are preserved faithfully.
* `for` loops over integer ranges become `intFold`; the backtrace `while` loop
  becomes a fuel-indexed recursion (`backtraceWrites`); any terminating run of
  the C++ loop takes at most `(ex - sx) + (ey - sy) + 1` iterations, so
  callers pass fuel exceeding that bound.
* A virtual-dispatch cost function (`CalcCost` plus the three path-bias
  functions, already applied to the scanline and skip of the call) is passed
  to `Matching` as a function `ℤ → ℤ → ℚ × ℚ × ℚ` giving the vertical,
  horizontal and diagonal path costs of each cell.
-/

/-- Direction tag stored in a DP-table cell (`DPM::Node::PathDir`). -/
inductive PathDir where
  | horizontal
  | vertical
  | diagonal
  | none
deriving DecidableEq

/-- `Node::MAX_COST = 1.7976931348623158e+308` (largest double), as a rational. -/
def MAX_COST : ℚ := 17976931348623158 * 10 ^ 292

/-- A DP-table cell (`DPM::Node`), with the C++ member initialisers as defaults. -/
structure Node where
  cost : ℚ := MAX_COST
  verticalPathCost : ℚ := MAX_COST
  horizontalPathCost : ℚ := MAX_COST
  diagonalPathCost : ℚ := MAX_COST
  selectedPathDir : PathDir := PathDir.none
deriving DecidableEq

/-- A freshly constructed node. -/
def Node.fresh : Node := {}

/-- The worker-private DP table `nodes[id]`, addressed by linear index. -/
def Table := ℤ → Node

/-- A freshly allocated table (every node default-initialised). -/
def freshTable : Table := fun _ => Node.fresh

/-- Point update of a table (`node[i] = n`). -/
def upd (t : Table) (i : ℤ) (n : Node) : Table :=
  fun j => if j = i then n else t j

/-- `for (i = a; i <= b; i++) st = f st i`. -/
def intFold {σ : Type _} (a b : ℤ) (f : σ → ℤ → σ) (s : σ) : σ :=
  List.foldl (fun st (k : ℕ) => f st (a + (k : ℤ))) s (List.range (b + 1 - a).toNat)

/-- Engine-wide geometry: the DP-table width and the two band half-widths. -/
structure Params where
  X : ℤ
  leftRange : ℤ
  rightRange : ℤ

/-- Per-cell path costs `(vertical, horizontal, diagonal)` for one `Matching`
call: the virtual `CalcCost`/`verticalCost`/`horizontalCost`/`diagonalCost`
of the variant, with the call's scanline and skip already applied. -/
abbrev Costs := ℤ → ℤ → ℚ × ℚ × ℚ

/-- The endpoint clamp of `DPM::Matching` (lines 204-205):
`std::min(sx+rightRange, std::max(sx-leftRange, sy))`. -/
def clampBand (P : Params) (sx sy : ℤ) : ℤ :=
  min (sx + P.rightRange) (max (sx - P.leftRange) sy)

/-- Node initialisation for one cell of the band (`DPM::Matching` lines 214-226). -/
def initCell (P : Params) (c : Costs) (iY : ℤ) (t : Table) (iX : ℤ) : Table :=
  let i := iX + iY * P.X
  upd t i { t i with
    verticalPathCost := (c iX iY).1
    horizontalPathCost := (c iX iY).2.1
    diagonalPathCost := (c iX iY).2.2 }

/-- One row of the node-initialisation loop (`DPM::Matching` lines 209-227). -/
def initRow (P : Params) (c : Costs) (sx ex : ℤ) (t : Table) (iY : ℤ) : Table :=
  intFold (max sx (iY - P.rightRange)) (min ex (iY + P.leftRange)) (initCell P c iY) t

/-- The node-initialisation loop of `DPM::Matching`. -/
def initNodes (P : Params) (c : Costs) (sx ex sy ey : ℤ) (t : Table) : Table :=
  intFold sy ey (initRow P c sx ex) t

/-- The bottom-edge seed loop (`DPM::Matching` lines 234-238): note that it
runs `iX` from `sx+1` up to the absolute `leftRange` and addresses `node[iX]`,
i.e. row 0 of the table, exactly as the source does. -/
def seedBottom (P : Params) (sx : ℤ) (t : Table) : Table :=
  intFold (sx + 1) P.leftRange (fun t iX =>
    upd t iX { t iX with
      cost := (t iX).horizontalPathCost + (t (iX - 1)).cost
      selectedPathDir := PathDir.horizontal }) t

/-- The left-edge seed loop (`DPM::Matching` lines 241-245). -/
def seedLeft (P : Params) (sx sy : ℤ) (t : Table) : Table :=
  intFold (sy + 1) P.rightRange (fun t iY =>
    upd t (sx + iY * P.X) { t (sx + iY * P.X) with
      cost := (t (sx + iY * P.X)).verticalPathCost + (t (sx + (iY - 1) * P.X)).cost
      selectedPathDir := PathDir.vertical }) t

/-- Relaxation of one interior cell (`DPM::Matching` lines 253-283).  The final
`else` branch models the `throw "NaN"` arm; it is unreachable over `ℚ`, where
the minimum of three values always equals one of them. -/
def relaxCell (P : Params) (iY : ℤ) (t : Table) (iX : ℤ) : Table :=
  let ni := iX + iY * P.X
  let nv := iX + (iY - 1) * P.X
  let nh := (iX - 1) + iY * P.X
  let nd := (iX - 1) + (iY - 1) * P.X
  let vCost := (t ni).verticalPathCost + (t nv).cost
  let hCost := (t ni).horizontalPathCost + (t nh).cost
  let dCost := (t ni).diagonalPathCost + (t nd).cost
  let m := min (min vCost hCost) dCost
  let dir :=
    if m = dCost then PathDir.diagonal
    else if m = vCost then PathDir.vertical
    else if m = hCost then PathDir.horizontal
    else PathDir.none
  upd t ni { t ni with cost := m, selectedPathDir := dir }

/-- One row of the shortest-path relaxation (`DPM::Matching` lines 248-284). -/
def relaxRow (P : Params) (sx ex : ℤ) (t : Table) (iY : ℤ) : Table :=
  intFold (max (sx + 1) (iY - P.rightRange)) (min ex (iY + P.leftRange)) (relaxCell P iY) t

/-- The full relaxation loop of `DPM::Matching`. -/
def relax (P : Params) (sx ex sy ey : ℤ) (t : Table) : Table :=
  intFold (sy + 1) ey (relaxRow P sx ex) t

/-- The backtrace loop of `DPM::Matching` (lines 293-310), as the chronological
list of writes `matchPattern[iX] = iY` it performs.  The `PathDir.none` arm is
the fallthrough of the C++ `case Node::NONE` into `default:`, which decrements
`iY` and/or `iX` under the guards written in the source.  `fuel` bounds the
number of iterations of the `while` loop. -/
def backtraceWrites (P : Params) (t : Table) (sx sy : ℤ) : ℕ → ℤ → ℤ → List (ℤ × ℤ)
  | 0, _, _ => []
  | fuel + 1, iX, iY =>
    if sx < iX ∨ sy < iY then
      (iX, iY) ::
        (match (t (iX + iY * P.X)).selectedPathDir with
          | PathDir.vertical => backtraceWrites P t sx sy fuel iX (iY - 1)
          | PathDir.horizontal => backtraceWrites P t sx sy fuel (iX - 1) iY
          | PathDir.diagonal => backtraceWrites P t sx sy fuel (iX - 1) (iY - 1)
          | PathDir.none =>
            let iY2 := if iX ≤ sx ∧ sy < iY then iY - 1 else iY
            let iX2 := if iY2 ≤ sy ∧ sx < iX then iX - 1 else iX
            backtraceWrites P t sx sy fuel iX2 iY2)
    else []

/-- Replay a list of `matchPattern[iX] = iY` writes, in order, on a pattern. -/
def applyWrites (w : List (ℤ × ℤ)) (mp : ℤ → ℤ) : ℤ → ℤ :=
  w.foldl (fun mp p => fun j => if j = p.1 then p.2 else mp j) mp

/-- The DP table produced by one `DPM::Matching` call (everything before the
backtrace): endpoint clamping, node initialisation, source cell, the two edge
seeds, and the relaxation, in source order. -/
def MatchingTable (P : Params) (c : Costs) (sx sy ex ey : ℤ) (t : Table) : Table :=
  let sy := clampBand P sx sy
  let ey := clampBand P ex ey
  let t := initNodes P c sx ex sy ey t
  let t := upd t (sx + sy * P.X) { t (sx + sy * P.X) with cost := 0 }
  let t := seedBottom P sx t
  let t := seedLeft P sx sy t
  relax P sx ex sy ey t

/-- The writes the backtrace of one `DPM::Matching` call performs on
`matchPatterns[column]`, in chronological order. -/
def MatchingWrites (P : Params) (c : Costs) (sx sy ex ey : ℤ) (fuel : ℕ) (t : Table) :
    List (ℤ × ℤ) :=
  backtraceWrites P (MatchingTable P c sx sy ex ey t) sx (clampBand P sx sy) fuel
    ex (clampBand P ex ey)

/-- One `DPM::Matching` call: returns the worker's table and the updated
`matchPatterns[column]`. -/
def Matching (P : Params) (c : Costs) (sx sy ex ey : ℤ) (fuel : ℕ) (t : Table)
    (mp : ℤ → ℤ) : Table × (ℤ → ℤ) :=
  (MatchingTable P c sx sy ex ey t,
   applyWrites (MatchingWrites P c sx sy ex ey fuel t) mp)

/-! ## Basic loop lemmas -/

theorem intFold_of_lt {σ : Type _} {a b : ℤ} (h : b < a) (f : σ → ℤ → σ) (s : σ) :
    intFold a b f s = s := by
  unfold intFold
  have : (b + 1 - a).toNat = 0 := by omega
  rw [this]
  rfl

theorem intFold_last {σ : Type _} {a b : ℤ} (h : a ≤ b) (f : σ → ℤ → σ) (s : σ) :
    intFold a b f s = f (intFold a (b - 1) f s) b := by
  unfold intFold
  have h1 : (b + 1 - a).toNat = (b - 1 + 1 - a).toNat + 1 := by omega
  rw [h1, List.range_succ, List.foldl_append]
  simp only [List.foldl_cons, List.foldl_nil]
  congr 1
  omega

theorem intFold_head {σ : Type _} {a b : ℤ} (h : a ≤ b) (f : σ → ℤ → σ) (s : σ) :
    intFold a b f s = intFold (a + 1) b f (f s a) := by
  unfold intFold
  have h1 : (b + 1 - a).toNat = (b + 1 - (a + 1)).toNat + 1 := by omega
  rw [h1, List.range_succ_eq_map, List.foldl_cons, List.foldl_map]
  have h2 : f s (a + ((0 : ℕ) : ℤ)) = f s a := by norm_num
  rw [h2]
  congr 1
  funext st k
  congr 1
  push_cast
  ring

theorem intFold_invariant_aux {σ : Type _} {motive : σ → Prop} (a : ℤ) (f : σ → ℤ → σ)
    (s : σ) (base : motive s) :
    ∀ (n : ℕ) (b : ℤ), b + 1 = a + (n : ℤ) →
      (∀ st i, a ≤ i → i ≤ b → motive st → motive (f st i)) →
      motive (intFold a b f s) := by
  intro n
  induction n with
  | zero =>
    intro b hb _
    rw [intFold_of_lt (by omega)]
    exact base
  | succ k ih =>
    intro b hb step
    rcases Nat.eq_zero_or_pos k with hk | hk
    · subst hk
      rw [intFold_last (by omega), intFold_of_lt (by omega)]
      exact step s b (by omega) le_rfl base
    · rw [intFold_last (by omega)]
      exact step _ b (by omega) le_rfl
        (ih (b - 1) (by omega)
          (fun st i hi hib hst => step st i hi (by omega) hst))

theorem intFold_invariant {σ : Type _} {motive : σ → Prop} (a b : ℤ) (f : σ → ℤ → σ) (s : σ)
    (base : motive s) (step : ∀ st i, a ≤ i → i ≤ b → motive st → motive (f st i)) :
    motive (intFold a b f s) := by
  rcases le_or_lt a b with hab | hab
  · exact intFold_invariant_aux a f s base (b + 1 - a).toNat b (by omega) step
  · rw [intFold_of_lt hab]; exact base

theorem upd_self (t : Table) (i : ℤ) (n : Node) : upd t i n i = n := by
  simp [upd]

theorem upd_other (t : Table) (i j : ℤ) (n : Node) (h : j ≠ i) : upd t i n j = t j := by
  simp [upd, h]

/-- Linear cell indices are injective on canonical coordinates. -/
theorem cellIndex_inj {X x y x' y' : ℤ} (hx0 : 0 ≤ x) (hxX : x < X) (hx0' : 0 ≤ x')
    (hxX' : x' < X) (h : x + y * X = x' + y' * X) : x = x' ∧ y = y' := by
  have hmod : (x + y * X) % X = (x' + y' * X) % X := by rw [h]
  rw [Int.add_mul_emod_self, Int.add_mul_emod_self] at hmod
  rw [Int.emod_eq_of_lt hx0 hxX, Int.emod_eq_of_lt hx0' hxX'] at hmod
  refine ⟨hmod, ?_⟩
  have hX : (0 : ℤ) < X := lt_of_le_of_lt hx0 hxX
  have h2 : y * X = y' * X := by omega
  exact mul_right_cancel₀ (by omega) h2

/-! ## Structure of the backtrace write list -/

/-- Unfolding one iteration of the backtrace: when the loop guard holds, the
head write is the current position and the tail continues from a position that
is componentwise no larger. -/
theorem backtraceWrites_succ_elim (P : Params) (t : Table) (sx sy : ℤ) (f : ℕ)
    (iX iY : ℤ) (hg : sx < iX ∨ sy < iY) :
    ∃ iX' iY', iX' ≤ iX ∧ iY' ≤ iY ∧
      backtraceWrites P t sx sy (f + 1) iX iY =
        (iX, iY) :: backtraceWrites P t sx sy f iX' iY' := by
  rw [backtraceWrites, if_pos hg]
  rcases hdir : (t (iX + iY * P.X)).selectedPathDir
  · exact ⟨iX - 1, iY, by omega, le_rfl, rfl⟩
  · exact ⟨iX, iY - 1, le_rfl, by omega, rfl⟩
  · exact ⟨iX - 1, iY - 1, by omega, by omega, rfl⟩
  · refine ⟨if (if iX ≤ sx ∧ sy < iY then iY - 1 else iY) ≤ sy ∧ sx < iX then iX - 1 else iX,
      if iX ≤ sx ∧ sy < iY then iY - 1 else iY, ?_, ?_, rfl⟩
    · split_ifs <;> omega
    · split_ifs <;> omega

/-- When the loop guard fails the backtrace produces no writes. -/
theorem backtraceWrites_guard_false (P : Params) (t : Table) (sx sy : ℤ) (f : ℕ)
    (iX iY : ℤ) (hg : ¬(sx < iX ∨ sy < iY)) :
    backtraceWrites P t sx sy f iX iY = [] := by
  cases f with
  | zero => rfl
  | succ f => rw [backtraceWrites, if_neg hg]

/-- Every write of the backtrace lies componentwise at or below its start. -/
theorem backtraceWrites_le (P : Params) (t : Table) (sx sy : ℤ) :
    ∀ (fuel : ℕ) (iX iY : ℤ), ∀ p ∈ backtraceWrites P t sx sy fuel iX iY,
      p.1 ≤ iX ∧ p.2 ≤ iY := by
  intro fuel
  induction fuel with
  | zero => intro iX iY p hp; simp [backtraceWrites] at hp
  | succ f ih =>
    intro iX iY p hp
    by_cases hg : sx < iX ∨ sy < iY
    · obtain ⟨iX', iY', hX, hY, heq⟩ := backtraceWrites_succ_elim P t sx sy f iX iY hg
      rw [heq] at hp
      rcases List.mem_cons.mp hp with h | h
      · subst h; exact ⟨le_rfl, le_rfl⟩
      · obtain ⟨h1, h2⟩ := ih iX' iY' p h
        exact ⟨le_trans h1 hX, le_trans h2 hY⟩
    · rw [backtraceWrites_guard_false P t sx sy _ iX iY hg] at hp
      simp at hp

/-- The backtrace writes are chronologically antitone in both coordinates. -/
theorem backtraceWrites_pairwise (P : Params) (t : Table) (sx sy : ℤ) :
    ∀ (fuel : ℕ) (iX iY : ℤ),
      List.Pairwise (fun p q => q.1 ≤ p.1 ∧ q.2 ≤ p.2)
        (backtraceWrites P t sx sy fuel iX iY) := by
  intro fuel
  induction fuel with
  | zero => intro iX iY; exact List.Pairwise.nil
  | succ f ih =>
    intro iX iY
    by_cases hg : sx < iX ∨ sy < iY
    · obtain ⟨iX', iY', hX, hY, heq⟩ := backtraceWrites_succ_elim P t sx sy f iX iY hg
      rw [heq, List.pairwise_cons]
      refine ⟨fun q hq => ?_, ih iX' iY'⟩
      obtain ⟨h1, h2⟩ := backtraceWrites_le P t sx sy f iX' iY' q hq
      exact ⟨le_trans h1 hX, le_trans h2 hY⟩
    · rw [backtraceWrites_guard_false P t sx sy _ iX iY hg]
      exact List.Pairwise.nil

/-! ## Replaying writes -/

theorem applyWrites_nil (mp : ℤ → ℤ) : applyWrites [] mp = mp := rfl

theorem applyWrites_cons (q : ℤ × ℤ) (w : List (ℤ × ℤ)) (mp : ℤ → ℤ) :
    applyWrites (q :: w) mp = applyWrites w (fun j => if j = q.1 then q.2 else mp j) := rfl

theorem applyWrites_frame (w : List (ℤ × ℤ)) (mp : ℤ → ℤ) (x : ℤ)
    (hx : x ∉ w.map Prod.fst) : applyWrites w mp x = mp x := by
  induction w generalizing mp with
  | nil => rfl
  | cons q w ih =>
    simp only [List.map_cons, List.mem_cons] at hx
    push_neg at hx
    rw [applyWrites_cons, ih _ hx.2]
    exact if_neg hx.1

theorem applyWrites_mem (w : List (ℤ × ℤ)) (mp : ℤ → ℤ) (x : ℤ)
    (hx : x ∈ w.map Prod.fst) : ∃ p ∈ w, p.1 = x ∧ applyWrites w mp x = p.2 := by
  induction w generalizing mp with
  | nil => simp at hx
  | cons q w ih =>
    rw [applyWrites_cons]
    by_cases hxw : x ∈ w.map Prod.fst
    · obtain ⟨p, hpw, hp1, hp2⟩ := ih (fun j => if j = q.1 then q.2 else mp j) hxw
      exact ⟨p, List.mem_cons_of_mem q hpw, hp1, hp2⟩
    · simp only [List.map_cons, List.mem_cons] at hx
      have hxq : x = q.1 := by tauto
      refine ⟨q, List.mem_cons_self q w, hxq.symm, ?_⟩
      rw [applyWrites_frame w _ x hxw]
      exact if_pos hxq

/-- Replaying an antitone write list yields values that are monotone in the
written index. -/
theorem applyWrites_mono (w : List (ℤ × ℤ))
    (hw : List.Pairwise (fun p q => q.1 ≤ p.1 ∧ q.2 ≤ p.2) w)
    (mp : ℤ → ℤ) (x1 x2 : ℤ) (h1 : x1 ∈ w.map Prod.fst) (h2 : x2 ∈ w.map Prod.fst)
    (h12 : x1 ≤ x2) : applyWrites w mp x1 ≤ applyWrites w mp x2 := by
  induction w generalizing mp with
  | nil => simp at h1
  | cons q w ih =>
    rw [List.pairwise_cons] at hw
    obtain ⟨hq, hw'⟩ := hw
    rw [applyWrites_cons]
    by_cases hx1 : x1 ∈ w.map Prod.fst <;> by_cases hx2 : x2 ∈ w.map Prod.fst
    · exact ih hw' (fun j => if j = q.1 then q.2 else mp j) hx1 hx2
    · -- x2 was written only by the head, so x2 = q.1 and its value is q.2,
      -- while x1's value comes from a later (componentwise smaller) write.
      simp only [List.map_cons, List.mem_cons] at h2
      have hx2q : x2 = q.1 := by tauto
      obtain ⟨p, hpw, hp1, hp2⟩ :=
        applyWrites_mem w (fun j => if j = q.1 then q.2 else mp j) x1 hx1
      rw [hp2, applyWrites_frame w _ x2 hx2, if_pos hx2q]
      exact (hq p hpw).2
    · -- x1 = q.1 and x2 is written later, so x2 ≤ q.1 = x1 forces x2 = x1,
      -- contradicting that x1 is not written later.
      simp only [List.map_cons, List.mem_cons] at h1
      have hx1q : x1 = q.1 := by tauto
      obtain ⟨p, hpw, hp1, -⟩ :=
        applyWrites_mem w (fun j => if j = q.1 then q.2 else mp j) x2 hx2
      have : x2 ≤ x1 := by rw [hx1q, ← hp1]; exact (hq p hpw).1
      have hx12 : x1 = x2 := le_antisymm h12 this
      exact absurd (hx12 ▸ hx2) hx1
    · simp only [List.map_cons, List.mem_cons] at h1 h2
      have hx1q : x1 = q.1 := by tauto
      have hx2q : x2 = q.1 := by tauto
      rw [hx1q, hx2q]

/--
**C4.** For every scanline and every pair of indices `x1 ≤ x2` whose entries
were both written by the same `DPM::Matching` call (equivalently, by its
backtrace), the resulting match pattern satisfies
`matchPattern[x1] ≤ matchPattern[x2]`; in particular adjacent entries written
by one call are non-decreasing.  This holds for every cost function, every
initial DP-table content and every fuel, because the backtrace takes only
vertical, horizontal, diagonal and fallback steps, all of which are
componentwise non-increasing.
-/
theorem matchPattern_monotone (P : Params) (c : Costs) (sx sy ex ey : ℤ) (fuel : ℕ)
    (t : Table) (mp : ℤ → ℤ) (x1 x2 : ℤ)
    (h1 : x1 ∈ (MatchingWrites P c sx sy ex ey fuel t).map Prod.fst)
    (h2 : x2 ∈ (MatchingWrites P c sx sy ex ey fuel t).map Prod.fst)
    (h12 : x1 ≤ x2) :
    (Matching P c sx sy ex ey fuel t mp).2 x1 ≤ (Matching P c sx sy ex ey fuel t mp).2 x2 := by
  have hpw := backtraceWrites_pairwise P (MatchingTable P c sx sy ex ey t) sx
    (clampBand P sx sy) fuel ex (clampBand P ex ey)
  exact applyWrites_mono _ hpw mp x1 x2 h1 h2 h12

/-- The all-zero cost function (these are the actual stereo path costs on a
uniformly black image: `norm = 0`, so `CalcCost = 0` and the diagonal bias
`weight*cost*cost = 0`). -/
def zeroCosts : Costs := fun _ _ => (0, 0, 0)

/-- Geometry of the 2x2 stereo run: `X = Y = 2`, `leftRange = maxDisparity = 1`,
`rightRange = 0`. -/
def P22 : Params := ⟨2, 1, 0⟩

/-- Witness for C4 at a concrete input. -/
theorem matchPattern_monotone_witness :
    (1 : ℤ) ∈ (MatchingWrites P22 zeroCosts 0 0 1 1 6 freshTable).map Prod.fst ∧
    (Matching P22 zeroCosts 0 0 1 1 6 freshTable (fun _ => -1)).2 1 ≤
      (Matching P22 zeroCosts 0 0 1 1 6 freshTable (fun _ => -1)).2 1 :=
  ⟨by decide, matchPattern_monotone P22 zeroCosts 0 0 1 1 6 freshTable (fun _ => -1) 1 1
    (by decide) (by decide) le_rfl⟩

/-! ## The scanline scheduler (`DPM::DP` / `DPM::SkipDP`) -/

/-- The index sequence of a C++ loop `for (i = start; i < H; i += step)`,
with explicit fuel (`H` iterations always suffice once `step ≥ 1`). -/
def loopCols : ℕ → ℕ → ℕ → ℕ → List ℕ
  | 0, _, _, _ => []
  | fuel + 1, i, step, H => if i < H then i :: loopCols fuel (i + step) step H else []

/-- The scanlines dispatched by the recursive refinement passes `DPM::SkipDP`
(lines 142-187): `SkipDP(skip)` dispatches `i = skip, 3*skip, 5*skip, ...`
below `nScanlines` and recurses on `skip / 2`, stopping at `skip = 0`. -/
def skipCols (H : ℕ) : ℕ → List ℕ
  | 0 => []
  | s + 1 => loopCols H (s + 1) (2 * (s + 1)) H ++ skipCols H ((s + 1) / 2)
decreasing_by exact Nat.div_lt_self (by omega) (by omega)

/-- All scanlines dispatched by `DPM::DP(skip)` (lines 83-93): the coarse pass
`i = 0, skip, 2*skip, ...` followed by `SkipDP(skip / 2)`. -/
def dpCols (H skip : ℕ) : List ℕ :=
  loopCols H 0 skip H ++ skipCols H (skip / 2)

theorem skipCols_pos (H s : ℕ) (hs : 0 < s) :
    skipCols H s = loopCols H s (2 * s) H ++ skipCols H (s / 2) := by
  obtain ⟨t, rfl⟩ : ∃ t, s = t + 1 := ⟨s - 1, by omega⟩
  rw [skipCols]

theorem mem_loopCols (step : ℕ) (hstep : 1 ≤ step) :
    ∀ (k fuel i H : ℕ), H ≤ i + fuel → i + k * step < H →
      i + k * step ∈ loopCols fuel i step H := by
  intro k
  induction k with
  | zero =>
    intro fuel i H hfuel hlt
    cases fuel with
    | zero => omega
    | succ f =>
      rw [loopCols, if_pos (by omega : i < H)]
      simp
  | succ k ih =>
    intro fuel i H hfuel hlt
    cases fuel with
    | zero => omega
    | succ f =>
      rw [loopCols, if_pos (by omega : i < H)]
      refine List.mem_cons_of_mem _ ?_
      have h2 : i + (k + 1) * step = (i + step) + k * step := by ring
      rw [h2] at hlt ⊢
      exact ih f (i + step) H (by omega) hlt

theorem mem_skipCols (H : ℕ) : ∀ (m v k : ℕ), v ≤ m → 2 ^ v * (2 * k + 1) < H →
    2 ^ v * (2 * k + 1) ∈ skipCols H (2 ^ m) := by
  intro m
  induction m with
  | zero =>
    intro v k hv hlt
    have hv0 : v = 0 := by omega
    subst hv0
    rw [pow_zero, one_mul] at hlt ⊢
    rw [skipCols_pos H 1 one_pos]
    apply List.mem_append_left
    have h1 : 2 * k + 1 = 1 + k * (2 * 1) := by ring
    rw [h1] at hlt ⊢
    exact mem_loopCols (2 * 1) (by omega) k H 1 H (by omega) hlt
  | succ m ih =>
    intro v k hv hlt
    have hq : 0 < 2 ^ (m + 1) := pow_pos (by omega) _
    rw [skipCols_pos H (2 ^ (m + 1)) hq]
    have hdiv : 2 ^ (m + 1) / 2 = 2 ^ m := by
      rw [pow_succ, Nat.mul_div_cancel _ (by omega)]
    rcases Nat.lt_or_ge v (m + 1) with hvm | hvm
    · apply List.mem_append_right
      rw [hdiv]
      exact ih v k (by omega) hlt
    · have hveq : v = m + 1 := le_antisymm hv hvm
      subst hveq
      apply List.mem_append_left
      have h1 : 2 ^ (m + 1) * (2 * k + 1) = 2 ^ (m + 1) + k * (2 * 2 ^ (m + 1)) := by ring
      rw [h1] at hlt ⊢
      exact mem_loopCols (2 * 2 ^ (m + 1)) (by omega) k H (2 ^ (m + 1)) H (by omega) hlt

/--
**C1 (amended).** When the initial skip is a power of two, `DPM::DP(skip)`
together with the recursive `SkipDP` refinement passes dispatches every
scanline index `c ∈ [0, H)` to some pass: the coarse pass handles the
multiples of `skip`, and the pass of stride `2^v` handles the scanlines whose
2-adic valuation is `v < n`.  (For skips that are not powers of two this
fails; see the counterexample.)
-/
theorem dp_covers_all_scanlines (n H c : ℕ) (hc : c < H) : c ∈ dpCols H (2 ^ n) := by
  unfold dpCols
  by_cases hdvd : 2 ^ n ∣ c
  · obtain ⟨k, rfl⟩ := hdvd
    apply List.mem_append_left
    have hq : 0 < 2 ^ n := pow_pos (by omega) _
    have h1 : 2 ^ n * k = 0 + k * 2 ^ n := by ring
    rw [h1] at hc ⊢
    exact mem_loopCols (2 ^ n) (by omega) k H 0 H (by omega) hc
  · have hc0 : c ≠ 0 := by rintro rfl; exact hdvd (dvd_zero _)
    obtain ⟨v, m, hm, rfl⟩ := Nat.exists_eq_pow_mul_and_not_dvd hc0 2 (by norm_num)
    obtain ⟨k, rfl⟩ : ∃ k, m = 2 * k + 1 := ⟨m / 2, by omega⟩
    have hvn : v < n := by
      by_contra hvn
      push_neg at hvn
      refine hdvd ⟨2 ^ (v - n) * (2 * k + 1), ?_⟩
      rw [← mul_assoc, ← pow_add]
      congr 2
      omega
    apply List.mem_append_right
    have hdiv : 2 ^ n / 2 = 2 ^ (n - 1) := by
      cases n with
      | zero => omega
      | succ n0 =>
        rw [pow_succ, Nat.mul_div_cancel _ (by omega)]
        congr 1
    rw [hdiv]
    exact mem_skipCols H (n - 1) v k (by omega) hc

/-- Witness for C1 at a concrete input: with `H = 8` and `skip = 4 = 2^2`,
scanline 5 is dispatched. -/
theorem dp_covers_all_scanlines_witness : 5 < 8 ∧ 5 ∈ dpCols 8 (2 ^ 2) :=
  ⟨by decide, dp_covers_all_scanlines 2 8 5 (by decide)⟩

/--
**C1, counterexample to the claim as stated.**  The claim quantifies over
every `skip > 0`, but for `skip = 3` and image height `H = 3` the scanline
`c = 2` is dispatched by no pass: the coarse pass handles `{0}` and
`SkipDP(1)` handles the odd scanlines `{1}`, so `2` is never solved.
-/
theorem dp_skip3_misses_scanline2 : 2 < 3 ∧ (0 : ℕ) < 3 ∧ 2 ∉ dpCols 3 3 := by
  refine ⟨by omega, by omega, ?_⟩
  rw [dpCols, show (3 : ℕ) / 2 = 1 by omega, skipCols_pos 3 1 one_pos,
    show (1 : ℕ) / 2 = 0 by omega, skipCols]
  decide

/-! ## Images -/

/-- An RGB pixel with byte channels (`mi::Image` pixels), as integers. -/
structure Pixel where
  r : ℤ
  g : ℤ
  b : ℤ
deriving DecidableEq

/-- A raster, addressed as `pixel x y`, mirroring `image.pixel[x][y]`. -/
def Image := ℤ → ℤ → Pixel

/-- Point update of an image pixel. -/
def updPix (e : Image) (x y : ℤ) (p : Pixel) : Image :=
  fun a b => if a = x ∧ b = y then p else e a b

/-! ## The fusion variant (`DPMF.h`) -/

/-- The base-class path biases (`DPM.h` lines 329-331): the identity on the
cost.  `DPMF` overrides the vertical and horizontal ones but inherits this
diagonal one. -/
def DPM.verticalCost (x y column : ℤ) (cost : ℚ) : ℚ := cost

def DPM.horizontalCost (x y column : ℤ) (cost : ℚ) : ℚ := cost

def DPM.diagonalCost (x y column : ℤ) (cost : ℚ) : ℚ := cost

/-- `DPMF::verticalCost` (DPMF.h lines 128-132): `double bias = (x-y)/X` is a
C++ `int` division (truncation toward zero, `Int.tdiv`) converted to `double`. -/
def DPMF.verticalCost (X x y column : ℤ) (cost : ℚ) : ℚ :=
  let bias : ℚ := ((x - y).tdiv X : ℤ)
  cost + bias * bias

/-- `DPMF::horizontalCost` (DPMF.h lines 134-138). -/
def DPMF.horizontalCost (X x y column : ℤ) (cost : ℚ) : ℚ :=
  let bias : ℚ := ((x - y).tdiv X : ℤ)
  cost + bias * bias

/-- `DPMF::CalcCost` (DPMF.h lines 61-119).  `expf` is the `std::exp` oracle,
`mps` the shared `matchPatterns` store, `len` the member `length = X * Y` set
by the `DPM` constructor, `H` the member `nScanlines`.  The quantities
`matchNext`, `next`, `distNext` and `simNext` are computed, as in the source,
but do not contribute to the returned cost. -/
def DPMF.CalcCost (expf : ℚ → ℚ) (input refer : Image) (mps : ℤ → ℤ → ℤ)
    (len H : ℤ) (sigC sigG : ℚ) (x y column skip : ℤ) : ℚ :=
  let i : ℤ := 1
  let sig := 2 * sigC * sigC
  let sig2 := 2 * sigG * sigG
  let cA : ℚ :=
    if x - i < 0 then (((input x column).r - (input (x + i) column).r : ℤ) : ℚ) / 255
    else (((input x column).r - (input (x - i) column).r : ℤ) : ℚ) / 255
  let cB : ℚ :=
    if y - i < 0 then (((refer y column).r - (refer (y + i) column).r : ℤ) : ℚ) / 255
    else (((refer y column).r - (refer (y - i) column).r : ℤ) : ℚ) / 255
  let gluey : ℚ :=
    if 0 ≤ column - skip ∧ column + skip < H then
      let matchPrev := mps (column - skip)
      let matchNext := mps (column + skip)
      let prev : ℚ := ((refer y (column - skip)).r : ℤ)
      let current : ℚ := ((refer y (column + 0)).r : ℤ)
      let next : ℚ := ((refer y (column + skip)).r : ℤ)
      let distPrev : ℚ := 1 * ((matchPrev y - y : ℤ) : ℚ) / (len : ℚ)
      let distNext : ℚ := 1 * ((matchNext y - y : ℤ) : ℚ) / (len : ℚ)
      let simPrev : ℚ := 1 - |prev - current| / 255
      let simNext : ℚ := 1 - |next - current| / 255
      |distPrev * simPrev| / 1
    else 0
  let g := gluey
  let f := |cA - cB|
  (1 - expf (-(f * f) / sig)) + (1 - expf (-(g * g) / sig2))

/-- The local gradient-disagreement term `f = |cA - cB|` of the fusion cost,
factored out of `DPMF::CalcCost` (DPMF.h lines 71-76 and 115). -/
def DPMF.fTerm (input refer : Image) (x y column : ℤ) : ℚ :=
  let i : ℤ := 1
  let cA : ℚ :=
    if x - i < 0 then (((input x column).r - (input (x + i) column).r : ℤ) : ℚ) / 255
    else (((input x column).r - (input (x - i) column).r : ℤ) : ℚ) / 255
  let cB : ℚ :=
    if y - i < 0 then (((refer y column).r - (refer (y + i) column).r : ℤ) : ℚ) / 255
    else (((refer y column).r - (refer (y - i) column).r : ℤ) : ℚ) / 255
  |cA - cB|

/-- The glue term exactly as the specification words it: when `c - s ≥ 0` and
`c + s < H`, `g = |distPrev * simPrev|` with
`distPrev = (MatchPattern[c-s][y] - y) / (X*Y)` and
`simPrev = 1 - |refer[y, c-s].r - refer[y, c].r| / 255`; otherwise `g = 0`. -/
def specGlue (refer : Image) (mps : ℤ → ℤ → ℤ) (X Y H c s y : ℤ) : ℚ :=
  if 0 ≤ c - s ∧ c + s < H then
    |(((mps (c - s) y - y : ℤ) : ℚ) / ((X * Y : ℤ) : ℚ)) *
      (1 - |((refer y (c - s)).r : ℚ) - ((refer y c).r : ℚ)| / 255)|
  else 0

/-- `DPMF::CalcCost` equals the two-exponential combination whose glue factor
is `specGlue`. -/
theorem fusionCalcCost_eq_spec (expf : ℚ → ℚ) (input refer : Image)
    (mps : ℤ → ℤ → ℤ) (X Y H : ℤ) (sigC sigG : ℚ) (x y column skip : ℤ) :
    DPMF.CalcCost expf input refer mps (X * Y) H sigC sigG x y column skip =
      (1 - expf (-(DPMF.fTerm input refer x y column * DPMF.fTerm input refer x y column) /
        (2 * sigC * sigC))) +
      (1 - expf (-(specGlue refer mps X Y H column skip y *
          specGlue refer mps X Y H column skip y) / (2 * sigG * sigG))) := by
  unfold DPMF.CalcCost DPMF.fTerm specGlue
  simp only [add_zero, one_mul, div_one]

/--
**C8.** For every cell `(x, y)`, scanline `c` and skip `s ≠ 0`, the fusion
cost's glue factor equals `|distPrev * simPrev|` with
`distPrev = (MatchPattern[c-s][y] - y) / (X*Y)` and
`simPrev = 1 - |refer[y,c-s].r - refer[y,c].r| / 255` whenever `c - s ≥ 0` and
`c + s < H`, and equals `0` otherwise (first conjunct, via `specGlue`); and
the next-scanline quantities are not used in the returned cost: the result is
invariant under arbitrary changes to `MatchPattern[c+s]` and to the reference
raster's column `c+s` (second conjunct).
-/
theorem fusionGlue_correct (expf : ℚ → ℚ) (input refer refer2 : Image)
    (mps mps2 : ℤ → ℤ → ℤ) (X Y H : ℤ) (sigC sigG : ℚ) (x y column skip : ℤ)
    (hs : skip ≠ 0)
    (hmp : ∀ col, col ≠ column + skip → mps2 col = mps col)
    (href : ∀ a b, b ≠ column + skip → refer2 a b = refer a b) :
    DPMF.CalcCost expf input refer mps (X * Y) H sigC sigG x y column skip =
      (1 - expf (-(DPMF.fTerm input refer x y column * DPMF.fTerm input refer x y column) /
        (2 * sigC * sigC))) +
      (1 - expf (-(specGlue refer mps X Y H column skip y *
          specGlue refer mps X Y H column skip y) / (2 * sigG * sigG))) ∧
    DPMF.CalcCost expf input refer2 mps2 (X * Y) H sigC sigG x y column skip =
      DPMF.CalcCost expf input refer mps (X * Y) H sigC sigG x y column skip := by
  have hcol : ∀ a, refer2 a column = refer a column :=
    fun a => href a column (by omega)
  have hcolp : ∀ a, refer2 a (column - skip) = refer a (column - skip) :=
    fun a => href a (column - skip) (by omega)
  have hprev : mps2 (column - skip) = mps (column - skip) := hmp _ (by omega)
  have hf : DPMF.fTerm input refer2 x y column = DPMF.fTerm input refer x y column := by
    unfold DPMF.fTerm
    simp only [hcol]
  have hglue : specGlue refer2 mps2 X Y H column skip y =
      specGlue refer mps X Y H column skip y := by
    unfold specGlue
    simp only [hprev, hcol, hcolp]
  refine ⟨fusionCalcCost_eq_spec expf input refer mps X Y H sigC sigG x y column skip, ?_⟩
  rw [fusionCalcCost_eq_spec, fusionCalcCost_eq_spec, hf, hglue]

/-- The all-black raster. -/
def blackImg : Image := fun _ _ => ⟨0, 0, 0⟩

/-- A match-pattern store whose every entry is 0. -/
def zeroMps : ℤ → ℤ → ℤ := fun _ _ => 0

/-- `zeroMps` with scanline 2 overwritten by garbage. -/
def pokedMps : ℤ → ℤ → ℤ := fun c _ => if c = 2 then 99 else 0

/-- Witness for C8 at a concrete input. -/
theorem fusionGlue_correct_witness :
    (1 : ℤ) ≠ 0 ∧
    (DPMF.CalcCost (fun q => q) blackImg blackImg zeroMps (2 * 2) 3 1 1 0 0 1 1 =
      (1 - (-(DPMF.fTerm blackImg blackImg 0 0 1 * DPMF.fTerm blackImg blackImg 0 0 1) /
        (2 * 1 * 1))) +
      (1 - (-(specGlue blackImg zeroMps 2 2 3 1 1 0 *
          specGlue blackImg zeroMps 2 2 3 1 1 0) / (2 * 1 * 1))) ∧
    DPMF.CalcCost (fun q => q) blackImg blackImg pokedMps (2 * 2) 3 1 1 0 0 1 1 =
      DPMF.CalcCost (fun q => q) blackImg blackImg zeroMps (2 * 2) 3 1 1 0 0 1 1) :=
  ⟨by decide,
   fusionGlue_correct (fun q => q) blackImg blackImg blackImg zeroMps pokedMps 2 2 3 1 1 0 0 1 1
    (by decide)
    (by intro col hc; funext t; simp only [pokedMps, zeroMps, if_neg (by omega : ¬col = 2)])
    (fun _ _ _ => rfl)⟩

/--
**C9.** For every cell `(x, y)` with `|x - y| < X`, the fusion variant's
vertical and horizontal path biases add `((x-y)/X)^2 = 0` (the bias is an
integer division, so it vanishes on the whole strip `|x - y| < X`), and the
diagonal bias — inherited from the `DPM` base class — is the identity on the
base cost.
-/
theorem fusionBias_zero_inside (X x y column : ℤ) (cost : ℚ) (h : |x - y| < X) :
    DPMF.verticalCost X x y column cost = cost ∧
    DPMF.horizontalCost X x y column cost = cost ∧
    DPM.diagonalCost x y column cost = cost := by
  have hdiv : (x - y).tdiv X = 0 := by
    rcases le_or_lt 0 (x - y) with hxy | hxy
    · exact Int.tdiv_eq_zero_of_lt hxy (by rwa [abs_of_nonneg hxy] at h)
    · have h2 : (-(x - y)).tdiv X = 0 :=
        Int.tdiv_eq_zero_of_lt (by omega) (by rw [abs_of_neg hxy] at h; omega)
      rw [Int.neg_tdiv] at h2
      omega
  refine ⟨?_, ?_, rfl⟩
  · unfold DPMF.verticalCost
    rw [hdiv]
    norm_num
  · unfold DPMF.horizontalCost
    rw [hdiv]
    norm_num

/-- Witness for C9 at a concrete input. -/
theorem fusionBias_zero_inside_witness :
    |(3 : ℤ) - 1| < 10 ∧
    (DPMF.verticalCost 10 3 1 0 (7 : ℚ) = 7 ∧ DPMF.horizontalCost 10 3 1 0 (7 : ℚ) = 7 ∧
      DPM.diagonalCost 3 1 0 (7 : ℚ) = 7) :=
  ⟨by decide, fusionBias_zero_inside 10 3 1 0 7 (by decide)⟩

/-! ## The stereo variant: Sobel edge extraction (`DPMS.h`) -/

/-- The aggregate squared-gradient magnitude `k` of the 3x3 Sobel operator at
`(iX, iY)` (`DPMS::Sobel`, lines 134-158), including the `/ 9` (C++ `int`
division, `Int.tdiv`; the dividend is a sum of squares, so this agrees with
Euclidean division). -/
def sobelK (input : Image) (iX iY : ℤ) : ℤ :=
  let pxr := ((input (iX + 1) (iY - 1)).r - (input (iX - 1) (iY - 1)).r)
           + ((input (iX + 1) (iY + 1)).r - (input (iX - 1) (iY + 1)).r)
           + 2 * ((input (iX + 1) iY).r - (input (iX - 1) iY).r)
  let pyr := ((input (iX - 1) (iY + 1)).r - (input (iX - 1) (iY - 1)).r)
           + ((input (iX + 1) (iY + 1)).r - (input (iX + 1) (iY - 1)).r)
           + 2 * ((input iX (iY + 1)).r - (input iX (iY - 1)).r)
  let pxg := ((input (iX + 1) (iY - 1)).g - (input (iX - 1) (iY - 1)).g)
           + ((input (iX + 1) (iY + 1)).g - (input (iX - 1) (iY + 1)).g)
           + 2 * ((input (iX + 1) iY).g - (input (iX - 1) iY).g)
  let pyg := ((input (iX - 1) (iY + 1)).g - (input (iX - 1) (iY - 1)).g)
           + ((input (iX + 1) (iY + 1)).g - (input (iX + 1) (iY - 1)).g)
           + 2 * ((input iX (iY + 1)).g - (input iX (iY - 1)).g)
  let pxb := ((input (iX + 1) (iY - 1)).b - (input (iX - 1) (iY - 1)).b)
           + ((input (iX + 1) (iY + 1)).b - (input (iX - 1) (iY + 1)).b)
           + 2 * ((input (iX + 1) iY).b - (input (iX - 1) iY).b)
  let pyb := ((input (iX - 1) (iY + 1)).b - (input (iX - 1) (iY - 1)).b)
           + ((input (iX + 1) (iY + 1)).b - (input (iX + 1) (iY - 1)).b)
           + 2 * ((input iX (iY + 1)).b - (input iX (iY - 1)).b)
  (pxr * pxr + pyr * pyr + pxg * pxg + pyg * pyg + pxb * pxb + pyb * pyb).tdiv 9

/-- The edge-map pixel written by `DPMS::Sobel` at one interior pixel
(lines 160-161): the red channel stores `(unsigned char)std::min(sqrt(k), 255.0)`
and the green channel compares that stored red byte against the threshold.
For the reachable range of `k` (at most `6 * (4*255)^2 / 9`) the double `sqrt`
of an integer is exactly rounded and the byte cast truncates, so the stored
byte is `min ⌊√k⌋ 255 = min (Nat.sqrt k) 255`. -/
def sobelPix (input : Image) (threshold iX iY : ℤ) (old : Pixel) : Pixel :=
  let red : ℤ := min ((Nat.sqrt (sobelK input iX iY).toNat : ℤ)) 255
  { old with r := red, g := if red > threshold then 1 else 0 }

/-- One iteration of the inner Sobel loop: write the edge pixel at `(iX, iY)`. -/
def sobelRowStep (input : Image) (threshold iY : ℤ) (e : Image) (iX : ℤ) : Image :=
  updPix e iX iY (sobelPix input threshold iX iY (e iX iY))

/-- `DPMS::Sobel(start, length)` (lines 123-164): after clamping `start` to 1
and `length` so that `start + length ≤ h - 1` (`h = H - 1`), run the operator
over rows `[start, start + length)` and columns `[1, w - 2)` (`w = W - 1`). -/
def Sobel (input : Image) (W H threshold : ℤ) (start0 length0 : ℤ) (edge : Image) : Image :=
  let w := W - 1
  let h := H - 1
  let start := if start0 = 0 then 1 else start0
  let length := if start + length0 > h - 1 then h - 1 - start else length0
  intFold start (start + length - 1) (fun e iY =>
    intFold 1 (w - 2) (sobelRowStep input threshold iY) e) edge

theorem updPix_self (e : Image) (x y : ℤ) (p : Pixel) : updPix e x y p x y = p := by
  simp [updPix]

theorem updPix_other (e : Image) (x y a b : ℤ) (p : Pixel) (h : ¬(a = x ∧ b = y)) :
    updPix e x y p a b = e a b := by
  simp only [updPix, if_neg h]

/-- Characterisation of one row of the Sobel loop: each cell of the row is
written once, from the input raster and its own pre-pass pixel only. -/
theorem sobelRow_char (input : Image) (threshold iY a : ℤ) :
    ∀ (n : ℕ) (b : ℤ), b + 1 ≤ a + n → ∀ (e : Image) (x y : ℤ),
      intFold a b (sobelRowStep input threshold iY) e x y =
        if a ≤ x ∧ x ≤ b ∧ y = iY then sobelPix input threshold x y (e x y) else e x y := by
  intro n
  induction n with
  | zero =>
    intro b hb e x y
    rw [intFold_of_lt (by omega), if_neg (by omega)]
  | succ k ih =>
    intro b hb e x y
    rcases lt_or_le b a with hba | hba
    · rw [intFold_of_lt hba, if_neg (by omega)]
    · rw [intFold_last hba, sobelRowStep]
      by_cases hxy : x = b ∧ y = iY
      · obtain ⟨rfl, rfl⟩ := hxy
        rw [updPix_self, if_pos ⟨hba, le_rfl, rfl⟩]
        congr 1
        rw [ih (x - 1) (by omega), if_neg (by omega)]
      · rw [updPix_other _ _ _ _ _ _ hxy, ih (b - 1) (by omega)]
        by_cases hin : a ≤ x ∧ x ≤ b - 1 ∧ y = iY
        · rw [if_pos hin, if_pos ⟨hin.1, by omega, hin.2.2⟩]
        · have hout : ¬(a ≤ x ∧ x ≤ b ∧ y = iY) := by
            intro hcon
            have hxb : x ≠ b := fun h => hxy ⟨h, hcon.2.2⟩
            exact hin ⟨hcon.1, by omega, hcon.2.2⟩
          rw [if_neg hin, if_neg hout]

/-- Characterisation of the whole Sobel slab loop over rows `[a, b]`. -/
theorem sobelSlab_char (input : Image) (threshold w a : ℤ) :
    ∀ (n : ℕ) (b : ℤ), b + 1 ≤ a + n → ∀ (e : Image) (x y : ℤ),
      intFold a b (fun e iY => intFold 1 (w - 2) (sobelRowStep input threshold iY) e) e x y =
        if 1 ≤ x ∧ x ≤ w - 2 ∧ a ≤ y ∧ y ≤ b then sobelPix input threshold x y (e x y)
        else e x y := by
  intro n
  induction n with
  | zero =>
    intro b hb e x y
    rw [intFold_of_lt (by omega), if_neg (by omega)]
  | succ k ih =>
    intro b hb e x y
    rcases lt_or_le b a with hba | hba
    · rw [intFold_of_lt hba, if_neg (by omega)]
    · rw [intFold_last hba]
      rw [sobelRow_char input threshold b 1 (w - 2 + 1 - 1).toNat (w - 2) (by omega)]
      by_cases hrow : 1 ≤ x ∧ x ≤ w - 2 ∧ y = b
      · rw [if_pos hrow, if_pos ⟨hrow.1, hrow.2.1, by omega, by omega⟩]
        congr 1
        rw [ih (b - 1) (by omega), if_neg (by omega)]
      · rw [if_neg hrow, ih (b - 1) (by omega)]
        by_cases hin : 1 ≤ x ∧ x ≤ w - 2 ∧ a ≤ y ∧ y ≤ b - 1
        · rw [if_pos hin, if_pos ⟨hin.1, hin.2.1, hin.2.2.1, by omega⟩]
        · have hout : ¬(1 ≤ x ∧ x ≤ w - 2 ∧ a ≤ y ∧ y ≤ b) := by
            intro hcon
            have hyb : y ≠ b := fun h => hrow ⟨hcon.1, hcon.2.1, h⟩
            exact hin ⟨hcon.1, hcon.2.1, hcon.2.2.1, by omega⟩
          rw [if_neg hin, if_neg hout]

/-- The green channel as the specification words it: 1 iff the Sobel magnitude
`√k` exceeds the threshold, 0 otherwise.  For an integer threshold `t ≥ 0`
this is `1` exactly when `t * t < k`. -/
def specSobelGreen (k t : ℤ) : ℤ := if t * t < k then 1 else 0

/-- Helper: an interior pixel processed by the Sobel pass is written exactly
once, by `sobelPix` from the input raster and its own pre-pass value. -/
theorem sobel_interior_eq (input : Image) (W H threshold start0 length0 : ℤ)
    (edge : Image) (x y start1 length1 : ℤ)
    (hstart : start1 = if start0 = 0 then 1 else start0)
    (hlength : length1 = if start1 + length0 > H - 2 then H - 2 - start1 else length0)
    (hx1 : 1 ≤ x) (hx2 : x ≤ W - 3)
    (hy1 : start1 ≤ y) (hy2 : y ≤ start1 + length1 - 1) :
    Sobel input W H threshold start0 length0 edge x y =
      sobelPix input threshold x y (edge x y) := by
  have hchar := sobelSlab_char input threshold (W - 1) start1
    (start1 + length1 - 1 + 1 - start1).toNat (start1 + length1 - 1) (by omega) edge x y
  unfold Sobel
  rw [show H - 1 - 1 = H - 2 from by ring, ← hstart, ← hlength, hchar,
    if_pos ⟨hx1, by omega, hy1, hy2⟩]

/--
**C7 (amended).** For every interior pixel `(x, y)` processed by the Sobel
pass, the edge map stores the byte `min ⌊√k⌋ 255` in the red channel, where
`k = (Σ px² + py²) / 9` over the three channels, and stores in the green
channel the comparison of that *stored red byte* with the threshold:
`green = 1` iff `min ⌊√k⌋ 255 > threshold`.  (The claim's comparison of the
real magnitude `√k` against the threshold differs on pixels where `√k` is
fractional just above the threshold; see the counterexample.)
-/
theorem sobel_pixel_values (input : Image) (W H threshold start0 length0 : ℤ)
    (edge : Image) (x y start1 length1 : ℤ)
    (hstart : start1 = if start0 = 0 then 1 else start0)
    (hlength : length1 = if start1 + length0 > H - 2 then H - 2 - start1 else length0)
    (hx1 : 1 ≤ x) (hx2 : x ≤ W - 3)
    (hy1 : start1 ≤ y) (hy2 : y ≤ start1 + length1 - 1) :
    (Sobel input W H threshold start0 length0 edge x y).r =
      min ((Nat.sqrt (sobelK input x y).toNat : ℤ)) 255 ∧
    (Sobel input W H threshold start0 length0 edge x y).g =
      (if min ((Nat.sqrt (sobelK input x y).toNat : ℤ)) 255 > threshold then 1 else 0) := by
  rw [sobel_interior_eq input W H threshold start0 length0 edge x y start1 length1
    hstart hlength hx1 hx2 hy1 hy2]
  unfold sobelPix
  exact ⟨rfl, rfl⟩

/-- Witness for C7 (amended) at a concrete input: the all-black 4x4 image with
threshold 0; the interior pixel (1,1) gets red 0 and green 0. -/
theorem sobel_pixel_values_witness :
    ((1 : ℤ) = if (0 : ℤ) = 0 then 1 else 0) ∧
    ((1 : ℤ) = if (1 : ℤ) + 4 > 4 - 2 then 4 - 2 - 1 else 4) ∧
    (1 : ℤ) ≤ 1 ∧ (1 : ℤ) ≤ 4 - 3 ∧ (1 : ℤ) ≤ 1 ∧ (1 : ℤ) ≤ 1 + 1 - 1 ∧
    ((Sobel blackImg 4 4 0 0 4 blackImg 1 1).r =
      min ((Nat.sqrt (sobelK blackImg 1 1).toNat : ℤ)) 255 ∧
     (Sobel blackImg 4 4 0 0 4 blackImg 1 1).g =
      (if min ((Nat.sqrt (sobelK blackImg 1 1).toNat : ℤ)) 255 > 0 then 1 else 0)) :=
  ⟨by decide, by decide, by decide, by decide, by decide, by decide,
   sobel_pixel_values blackImg 4 4 0 0 4 blackImg 1 1 1 1 (by decide) (by decide)
     (by decide) (by decide) (by decide) (by decide)⟩

/-- A 4x4 image that is black except for one pixel chosen so that the Sobel
magnitude at (1,1) is `√12802 ≈ 113.14`. -/
def cexImg : Image := fun x y => if x = 2 ∧ y = 0 then ⟨75, 228, 0⟩ else ⟨0, 0, 0⟩

/--
**C7, counterexample to the claim as stated.**  At the interior pixel (1,1) of
`cexImg` with threshold 113, the aggregate magnitude is `k = 12802 > 113²`, so
the claim's green channel (`1` iff `√k > threshold`) is 1; but the code
compares the truncated stored byte `(unsigned char)min(√k, 255) = 113` with
the threshold and stores 0.
-/
theorem sobel_green_mismatch :
    sobelK cexImg 1 1 = 12802 ∧
    specSobelGreen (sobelK cexImg 1 1) 113 = 1 ∧
    (Sobel cexImg 4 4 113 0 4 cexImg 1 1).g = 0 := by
  have hk : sobelK cexImg 1 1 = 12802 := by decide
  have hsqrt : Nat.sqrt 12802 = 113 := (Nat.eq_sqrt.mpr (by omega)).symm
  refine ⟨hk, by rw [hk]; decide, ?_⟩
  rw [sobel_interior_eq cexImg 4 4 113 0 4 cexImg 1 1 1 1 (by decide) (by decide)
    (by decide) (by decide) (by decide) (by decide)]
  show (if min ((Nat.sqrt (sobelK cexImg 1 1).toNat : ℤ)) 255 > 113 then (1 : ℤ)
    else 0) = 0
  rw [hk]
  rw [show ((12802 : ℤ)).toNat = 12802 from rfl, hsqrt]
  decide

/-! ## C6: reuse of the DP table across `Matching` calls -/

/-- A table reached after reuse, with a small accumulated cost left in the
out-of-band cell `(0, 1)` (linear index 2 for `X = 2`). -/
def pokedTable : Table := fun i => if i = 2 then { Node.fresh with cost := -100 } else Node.fresh

/--
**C6, counterexample to the claim as stated.**  The claim says every value
consumed by the seed loops, the relaxation and the backtrace was first written
during the same call — in particular no cell outside the band of the current
call is read before being written.  If that held, the match pattern produced
by a call could not depend on the initial contents of out-of-band cells.  But
for the full-table call on a 2x2 table (band cells `(0,0), (1,0), (1,1)`,
indices 0, 1, 3), changing only the out-of-band cell `(0,1)` (index 2)
changes the result: the relaxation of cell `(1,1)` reads the accumulated cost
of `(0,1)`, which the call never wrote.
-/
theorem matching_reads_outside_band :
    (∀ x y : ℤ, 0 ≤ x → x ≤ 1 → 0 ≤ y → y ≤ 1 → -1 ≤ y - x → y - x ≤ 0 →
      pokedTable (x + y * 2) = freshTable (x + y * 2)) ∧
    (Matching P22 zeroCosts 0 0 1 1 6 pokedTable (fun _ => -1)).2 0 ≠
      (Matching P22 zeroCosts 0 0 1 1 6 freshTable (fun _ => -1)).2 0 := by
  constructor
  · intro x y hx0 hx1 hy0 hy1 hb1 hb2
    have hne : ¬(x + y * 2 = 2) := by omega
    simp only [pokedTable, if_neg hne]
    rfl
  · have h1 : (Matching P22 zeroCosts 0 0 1 1 6 pokedTable (fun _ => -1)).2 0 = 1 := by
      with_unfolding_all rfl
    have h2 : (Matching P22 zeroCosts 0 0 1 1 6 freshTable (fun _ => -1)).2 0 = -1 := by
      with_unfolding_all rfl
    rw [h1, h2]
    decide

/--
**C6 (amended).** Cells outside the band of the current call *are* read
before being written (see the counterexample above), but no `Matching`
call ever *writes* a cell outside the band strip
`-leftRange ≤ y - x ≤ rightRange`: the final table agrees with the initial
one on every cell outside the strip.  Hence on a worker's reused table the
out-of-strip cells still hold their construction-time contents
(`cost = MAX_COST`, direction `none`), and the out-of-band reads performed by
the relaxation and the seed loops always observe those untouched values, so
no explicit reset is required.
-/
theorem matching_preserves_outside_strip (P : Params) (c : Costs) (sx sy ex ey : ℤ)
    (t : Table) (x y : ℤ)
    (hsx : 0 ≤ sx) (hex : sx ≤ ex) (hexX : ex < P.X) (hsy : 0 ≤ sy)
    (hlr0 : 0 ≤ P.leftRange) (hlrX : P.leftRange < P.X) (hrr : 0 ≤ P.rightRange)
    (hx0 : 0 ≤ x) (hxX : x < P.X) (hy0 : 0 ≤ y)
    (hout : ¬(-P.leftRange ≤ y - x ∧ y - x ≤ P.rightRange)) :
    MatchingTable P c sx sy ex ey t (x + y * P.X) = t (x + y * P.X) := by
  have hsy' : sx - P.leftRange ≤ clampBand P sx sy ∧ clampBand P sx sy ≤ sx + P.rightRange ∧
      0 ≤ clampBand P sx sy := by
    unfold clampBand
    omega
  have hne : ∀ x' y' : ℤ, 0 ≤ x' → x' < P.X → 0 ≤ y' →
      -P.leftRange ≤ y' - x' → y' - x' ≤ P.rightRange → ¬(x + y * P.X = x' + y' * P.X) := by
    intro x' y' h1 h2 h3 h4 h5 heq
    obtain ⟨hx', hy'⟩ := cellIndex_inj hx0 hxX h1 h2 heq
    exact hout ⟨by omega, by omega⟩
  show relax P sx ex (clampBand P sx sy) (clampBand P ex ey)
      (seedLeft P sx (clampBand P sx sy)
        (seedBottom P sx
          (upd (initNodes P c sx ex (clampBand P sx sy) (clampBand P ex ey) t)
            (sx + clampBand P sx sy * P.X)
            { initNodes P c sx ex (clampBand P sx sy) (clampBand P ex ey) t
                (sx + clampBand P sx sy * P.X) with cost := 0 })))
      (x + y * P.X) = t (x + y * P.X)
  have h1 : initNodes P c sx ex (clampBand P sx sy) (clampBand P ex ey) t (x + y * P.X) =
      t (x + y * P.X) := by
    unfold initNodes
    refine @intFold_invariant Table (fun tb => tb (x + y * P.X) = t (x + y * P.X)) _ _ _ _ rfl ?_
    intro tb iY hY1 hY2 htb
    unfold initRow
    refine @intFold_invariant Table (fun tb => tb (x + y * P.X) = t (x + y * P.X)) _ _ _ _ htb ?_
    intro tb2 iX hX1 hX2 htb2
    unfold initCell
    rw [upd_other _ _ _ _ (hne iX iY (by omega) (by omega) (by omega) (by omega) (by omega)),
      htb2]
  have h2 : upd (initNodes P c sx ex (clampBand P sx sy) (clampBand P ex ey) t)
      (sx + clampBand P sx sy * P.X)
      { initNodes P c sx ex (clampBand P sx sy) (clampBand P ex ey) t
          (sx + clampBand P sx sy * P.X) with cost := 0 } (x + y * P.X) = t (x + y * P.X) := by
    rw [upd_other _ _ _ _ (hne sx (clampBand P sx sy) hsx (by omega) (by omega) (by omega)
      (by omega)), h1]
  have h3 : seedBottom P sx
      (upd (initNodes P c sx ex (clampBand P sx sy) (clampBand P ex ey) t)
        (sx + clampBand P sx sy * P.X)
        { initNodes P c sx ex (clampBand P sx sy) (clampBand P ex ey) t
            (sx + clampBand P sx sy * P.X) with cost := 0 }) (x + y * P.X) = t (x + y * P.X) := by
    unfold seedBottom
    refine @intFold_invariant Table (fun tb => tb (x + y * P.X) = t (x + y * P.X)) _ _ _ _ h2 ?_
    intro tb iX hX1 hX2 htb
    have hne2 : ¬(x + y * P.X = iX) := by
      have := hne iX 0 (by omega) (by omega) (by omega) (by omega) (by omega)
      intro hcon
      exact this (by omega)
    rw [upd_other _ _ _ _ hne2, htb]
  have h4 : seedLeft P sx (clampBand P sx sy)
      (seedBottom P sx
        (upd (initNodes P c sx ex (clampBand P sx sy) (clampBand P ex ey) t)
          (sx + clampBand P sx sy * P.X)
          { initNodes P c sx ex (clampBand P sx sy) (clampBand P ex ey) t
              (sx + clampBand P sx sy * P.X) with cost := 0 })) (x + y * P.X) =
      t (x + y * P.X) := by
    unfold seedLeft
    refine @intFold_invariant Table (fun tb => tb (x + y * P.X) = t (x + y * P.X)) _ _ _ _ h3 ?_
    intro tb iY hY1 hY2 htb
    rw [upd_other _ _ _ _ (hne sx iY hsx (by omega) (by omega) (by omega) (by omega)), htb]
  unfold relax
  refine @intFold_invariant Table (fun tb => tb (x + y * P.X) = t (x + y * P.X)) _ _ _ _ h4 ?_
  intro tb iY hY1 hY2 htb
  unfold relaxRow
  refine @intFold_invariant Table (fun tb => tb (x + y * P.X) = t (x + y * P.X)) _ _ _ _ htb ?_
  intro tb2 iX hX1 hX2 htb2
  unfold relaxCell
  rw [upd_other _ _ _ _ (hne iX iY (by omega) (by omega) (by omega) (by omega) (by omega)),
    htb2]

/-- Witness for C6 (amended) at a concrete input: the out-of-strip cell
`(0, 1)` of the 2x2 geometry is untouched by the full-table call. -/
theorem matching_preserves_outside_strip_witness :
    MatchingTable P22 zeroCosts 0 0 1 1 freshTable (0 + 1 * 2) = freshTable (0 + 1 * 2) :=
  matching_preserves_outside_strip P22 zeroCosts 0 0 1 1 freshTable 0 1
    (by decide) (by decide) (by decide) (by decide) (by decide) (by decide) (by decide)
    (by decide) (by decide) (by decide) (by decide)

/-! ## C10: the backtrace's write range -/

/-- Geometry `X = 4`, `leftRange = rightRange = 1`. -/
def P41 : Params := ⟨4, 1, 1⟩

/-- A worker table as left by earlier `Matching` calls on other scanlines:
cells keep accumulated costs and directions from those calls.  Cell `(2,2)`
(index 10) kept cost 0 and direction horizontal, `(2,3)` (index 14) cost 7,
`(3,1)` (index 7) cost 9, `(1,2)` (index 9) direction diagonal. -/
def staleTable : Table := fun i =>
  if i = 10 then { Node.fresh with cost := 0, selectedPathDir := PathDir.horizontal }
  else if i = 14 then { Node.fresh with cost := 7 }
  else if i = 7 then { Node.fresh with cost := 9 }
  else if i = 9 then { Node.fresh with selectedPathDir := PathDir.diagonal }
  else Node.fresh

/-- Nonnegative path costs for the segment call of the counterexample. -/
def c10 : Costs := fun x y =>
  if x = 3 ∧ y = 2 then (5, 5, 1)
  else if x = 3 ∧ y = 3 then (5, 0, 0)
  else (0, 0, 0)

/--
**C10, counterexample to the claim as stated.**  A segment call
`Matching(sx = 2, 0, ex = 3, 3)` on a reused (not reset) table can modify an
entry of `MatchPattern[column]` with index outside `[sx, ex]`: the backtrace
starts at `(3,3)`, steps diagonally to `(2,2)`, follows the *stale* horizontal
direction left over at `(2,2)` from an earlier call to `(1,2)` — and writes
`matchPattern[1] = 2` although `1 < sx = 2`.
-/
theorem matching_writes_below_sx :
    MatchingWrites P41 c10 2 0 3 3 8 staleTable = [(3, 3), (2, 2), (1, 2)] ∧
    (1 : ℤ) < 2 ∧
    (Matching P41 c10 2 0 3 3 8 staleTable (fun _ => -1)).2 1 = 2 := by
  refine ⟨?_, by decide, ?_⟩
  · with_unfolding_all rfl
  · with_unfolding_all rfl

/-- Every write the backtrace performs satisfies the loop guard. -/
theorem backtraceWrites_guard (P : Params) (t : Table) (sx sy : ℤ) :
    ∀ (fuel : ℕ) (iX iY : ℤ), ∀ p ∈ backtraceWrites P t sx sy fuel iX iY,
      sx < p.1 ∨ sy < p.2 := by
  intro fuel
  induction fuel with
  | zero => intro iX iY p hp; simp [backtraceWrites] at hp
  | succ f ih =>
    intro iX iY p hp
    by_cases hg : sx < iX ∨ sy < iY
    · obtain ⟨iX', iY', _, _, heq⟩ := backtraceWrites_succ_elim P t sx sy f iX iY hg
      rw [heq] at hp
      rcases List.mem_cons.mp hp with h | h
      · subst h; exact hg
      · exact ih iX' iY' p h
    · rw [backtraceWrites_guard_false P t sx sy _ iX iY hg] at hp
      simp at hp

/-- If the directions on column `sx` are all vertical-or-none and those on row
`sy` are all horizontal-or-none, the backtrace never moves left of `sx` nor
below `sy`. -/
theorem backtraceWrites_ge (P : Params) (t : Table) (sx sy ex : ℤ)
    (hexX : ex < P.X)
    (hA : ∀ iY : ℤ, (t (sx + iY * P.X)).selectedPathDir = PathDir.vertical ∨
      (t (sx + iY * P.X)).selectedPathDir = PathDir.none)
    (hB : ∀ iX : ℤ, sx ≤ iX → iX < P.X →
      (t (iX + sy * P.X)).selectedPathDir = PathDir.horizontal ∨
      (t (iX + sy * P.X)).selectedPathDir = PathDir.none) :
    ∀ (fuel : ℕ) (iX iY : ℤ), sx ≤ iX → iX ≤ ex → sy ≤ iY →
      ∀ p ∈ backtraceWrites P t sx sy fuel iX iY, sx ≤ p.1 ∧ sy ≤ p.2 := by
  intro fuel
  induction fuel with
  | zero => intro iX iY _ _ _ p hp; simp [backtraceWrites] at hp
  | succ f ih =>
    intro iX iY h1 h2 h3 p hp
    by_cases hg : sx < iX ∨ sy < iY
    · rw [backtraceWrites, if_pos hg] at hp
      cases hdir : (t (iX + iY * P.X)).selectedPathDir with
      | horizontal =>
        rw [hdir] at hp
        rcases List.mem_cons.mp hp with h | h
        · subst h; exact ⟨h1, h3⟩
        · have hxsx : sx < iX := by
            rcases eq_or_lt_of_le h1 with heq | hlt
            · exfalso
              rcases hA iY with hv | hv <;> rw [heq, hdir] at hv <;> exact PathDir.noConfusion hv
            · exact hlt
          exact ih (iX - 1) iY (by omega) (by omega) h3 p h
      | vertical =>
        rw [hdir] at hp
        rcases List.mem_cons.mp hp with h | h
        · subst h; exact ⟨h1, h3⟩
        · have hysy : sy < iY := by
            rcases eq_or_lt_of_le h3 with heq | hlt
            · exfalso
              rcases hB iX h1 (by omega) with hh | hh <;> rw [heq, hdir] at hh <;>
                exact PathDir.noConfusion hh
            · exact hlt
          exact ih iX (iY - 1) h1 h2 (by omega) p h
      | diagonal =>
        rw [hdir] at hp
        rcases List.mem_cons.mp hp with h | h
        · subst h; exact ⟨h1, h3⟩
        · have hxsx : sx < iX := by
            rcases eq_or_lt_of_le h1 with heq | hlt
            · exfalso
              rcases hA iY with hv | hv <;> rw [heq, hdir] at hv <;> exact PathDir.noConfusion hv
            · exact hlt
          have hysy : sy < iY := by
            rcases eq_or_lt_of_le h3 with heq | hlt
            · exfalso
              rcases hB iX h1 (by omega) with hh | hh <;> rw [heq, hdir] at hh <;>
                exact PathDir.noConfusion hh
            · exact hlt
          exact ih (iX - 1) (iY - 1) (by omega) (by omega) (by omega) p h
      | none =>
        rw [hdir] at hp
        rcases List.mem_cons.mp hp with h | h
        · subst h; exact ⟨h1, h3⟩
        · refine ih _ _ ?_ ?_ ?_ p h
          · split_ifs <;> omega
          · split_ifs <;> omega
          · split_ifs <;> omega
    · rw [backtraceWrites_guard_false P t sx sy _ iX iY hg] at hp
      simp at hp

/-- An integer strictly between `-X` and `X` that is a multiple of `X > 0`
is zero (with zero multiplier). -/
theorem eq_zero_of_small_mult {X d k : ℤ} (hX : 0 < X) (hlo : -X < d) (hhi : d < X)
    (h : d = k * X) : d = 0 ∧ k = 0 := by
  rcases lt_trichotomy k 0 with hk | hk | hk
  · exfalso
    nlinarith [mul_le_mul_of_nonneg_right (by omega : k ≤ -1) (by omega : (0:ℤ) ≤ X)]
  · subst hk; simp at h; omega
  · exfalso
    nlinarith [mul_le_mul_of_nonneg_right (by omega : (1:ℤ) ≤ k) (by omega : (0:ℤ) ≤ X)]

theorem initCell_dir (P : Params) (c : Costs) (iY : ℤ) (tb : Table) (iX j : ℤ) :
    ((initCell P c iY tb iX) j).selectedPathDir = (tb j).selectedPathDir := by
  unfold initCell
  by_cases h : j = iX + iY * P.X
  · rw [h, upd_self]
  · rw [upd_other _ _ _ _ h]

/-- On a fresh table, after the pre-backtrace phases of `Matching`, every cell
of column `sx` has direction vertical or none (only the left-edge seed writes
there) and every cell of the clamped starting row has direction horizontal or
none (only the bottom-edge seed can write there, and only when that row is
row 0). -/
theorem matchingTable_fresh_edge_dirs (P : Params) (c : Costs) (sx sy ex ey : ℤ)
    (hsx : 0 ≤ sx) (hsxex : sx ≤ ex) (hexX : ex < P.X) (hsy : 0 ≤ sy)
    (hlr0 : 0 ≤ P.leftRange) (hlrX : P.leftRange < P.X) (hrr : 0 ≤ P.rightRange) :
    (∀ iY : ℤ,
      (MatchingTable P c sx sy ex ey freshTable (sx + iY * P.X)).selectedPathDir =
          PathDir.vertical ∨
      (MatchingTable P c sx sy ex ey freshTable (sx + iY * P.X)).selectedPathDir =
          PathDir.none) ∧
    (∀ iX : ℤ, sx ≤ iX → iX < P.X →
      (MatchingTable P c sx sy ex ey freshTable
          (iX + clampBand P sx sy * P.X)).selectedPathDir = PathDir.horizontal ∨
      (MatchingTable P c sx sy ex ey freshTable
          (iX + clampBand P sx sy * P.X)).selectedPathDir = PathDir.none) := by
  have hX : 0 < P.X := by omega
  have hsy0 : 0 ≤ clampBand P sx sy := by unfold clampBand; omega
  set sy' := clampBand P sx sy with hsy'
  show (fun tb : Table =>
    (∀ iY : ℤ, (tb (sx + iY * P.X)).selectedPathDir = PathDir.vertical ∨
      (tb (sx + iY * P.X)).selectedPathDir = PathDir.none) ∧
    (∀ iX : ℤ, sx ≤ iX → iX < P.X →
      (tb (iX + sy' * P.X)).selectedPathDir = PathDir.horizontal ∨
      (tb (iX + sy' * P.X)).selectedPathDir = PathDir.none))
    (MatchingTable P c sx sy ex ey freshTable)
  show (fun tb : Table => _)
    (relax P sx ex sy' (clampBand P ex ey)
      (seedLeft P sx sy'
        (seedBottom P sx
          (upd (initNodes P c sx ex sy' (clampBand P ex ey) freshTable)
            (sx + sy' * P.X)
            { initNodes P c sx ex sy' (clampBand P ex ey) freshTable
                (sx + sy' * P.X) with cost := 0 }))))
  have h0 : (fun tb : Table =>
    (∀ iY : ℤ, (tb (sx + iY * P.X)).selectedPathDir = PathDir.vertical ∨
      (tb (sx + iY * P.X)).selectedPathDir = PathDir.none) ∧
    (∀ iX : ℤ, sx ≤ iX → iX < P.X →
      (tb (iX + sy' * P.X)).selectedPathDir = PathDir.horizontal ∨
      (tb (iX + sy' * P.X)).selectedPathDir = PathDir.none)) freshTable := by
    exact ⟨fun _ => Or.inr rfl, fun _ _ _ => Or.inr rfl⟩
  -- the motive as a definition-free predicate
  set M : Table → Prop := fun tb =>
    (∀ iY : ℤ, (tb (sx + iY * P.X)).selectedPathDir = PathDir.vertical ∨
      (tb (sx + iY * P.X)).selectedPathDir = PathDir.none) ∧
    (∀ iX : ℤ, sx ≤ iX → iX < P.X →
      (tb (iX + sy' * P.X)).selectedPathDir = PathDir.horizontal ∨
      (tb (iX + sy' * P.X)).selectedPathDir = PathDir.none) with hM
  have h1 : M (initNodes P c sx ex sy' (clampBand P ex ey) freshTable) := by
    unfold initNodes
    refine @intFold_invariant Table M _ _ _ _ h0 ?_
    intro tb iY _ _ htb
    unfold initRow
    refine @intFold_invariant Table M _ _ _ _ htb ?_
    intro tb2 iX _ _ htb2
    rw [hM]
    constructor
    · intro jY
      rw [initCell_dir]
      exact htb2.1 jY
    · intro jX hj1 hj2
      rw [initCell_dir]
      exact htb2.2 jX hj1 hj2
  have h2 : M (upd (initNodes P c sx ex sy' (clampBand P ex ey) freshTable)
      (sx + sy' * P.X)
      { initNodes P c sx ex sy' (clampBand P ex ey) freshTable
          (sx + sy' * P.X) with cost := 0 }) := by
    rw [hM]
    constructor
    · intro jY
      by_cases hj : sx + jY * P.X = sx + sy' * P.X
      · rw [hj, upd_self]
        exact h1.1 sy'
      · rw [upd_other _ _ _ _ hj]
        exact h1.1 jY
    · intro jX hj1 hj2
      by_cases hj : jX + sy' * P.X = sx + sy' * P.X
      · rw [hj, upd_self]
        have := h1.2 sx le_rfl (by omega)
        exact this
      · rw [upd_other _ _ _ _ hj]
        exact h1.2 jX hj1 hj2
  have h3 : M (seedBottom P sx
      (upd (initNodes P c sx ex sy' (clampBand P ex ey) freshTable)
        (sx + sy' * P.X)
        { initNodes P c sx ex sy' (clampBand P ex ey) freshTable
            (sx + sy' * P.X) with cost := 0 })) := by
    unfold seedBottom
    refine @intFold_invariant Table M _ _ _ _ h2 ?_
    intro tb iX hX1 hX2 htb
    rw [hM]
    constructor
    · intro jY
      have hj : ¬(sx + jY * P.X = iX) := by
        intro hcon
        have hd : iX - sx = jY * P.X := by omega
        obtain ⟨hz, -⟩ := eq_zero_of_small_mult hX (by omega) (by omega) hd
        omega
      rw [upd_other _ _ _ _ hj]
      exact htb.1 jY
    · intro jX hj1 hj2
      by_cases hj : jX + sy' * P.X = iX
      · rw [hj, upd_self]
        exact Or.inl rfl
      · rw [upd_other _ _ _ _ hj]
        exact htb.2 jX hj1 hj2
  have h4 : M (seedLeft P sx sy'
      (seedBottom P sx
        (upd (initNodes P c sx ex sy' (clampBand P ex ey) freshTable)
          (sx + sy' * P.X)
          { initNodes P c sx ex sy' (clampBand P ex ey) freshTable
              (sx + sy' * P.X) with cost := 0 }))) := by
    unfold seedLeft
    refine @intFold_invariant Table M _ _ _ _ h3 ?_
    intro tb iY hY1 hY2 htb
    rw [hM]
    constructor
    · intro jY
      by_cases hj : sx + jY * P.X = sx + iY * P.X
      · rw [hj, upd_self]
        exact Or.inl rfl
      · rw [upd_other _ _ _ _ hj]
        exact htb.1 jY
    · intro jX hj1 hj2
      have hj : ¬(jX + sy' * P.X = sx + iY * P.X) := by
        intro hcon
        have hd : jX - sx = (iY - sy') * P.X := by linear_combination hcon
        obtain ⟨-, hz⟩ := eq_zero_of_small_mult hX (by omega) (by omega) hd
        omega
      rw [upd_other _ _ _ _ hj]
      exact htb.2 jX hj1 hj2
  unfold relax
  refine @intFold_invariant Table M _ _ _ _ h4 ?_
  intro tb iY hY1 hY2 htb
  unfold relaxRow
  refine @intFold_invariant Table M _ _ _ _ htb ?_
  intro tb2 iX hX1 hX2 htb2
  unfold relaxCell
  rw [hM]
  constructor
  · intro jY
    have hj : ¬(sx + jY * P.X = iX + iY * P.X) := by
      intro hcon
      have hd : iX - sx = (jY - iY) * P.X := by linear_combination -hcon
      obtain ⟨hz, -⟩ := eq_zero_of_small_mult hX (by omega) (by omega) hd
      omega
    rw [upd_other _ _ _ _ hj]
    exact htb2.1 jY
  · intro jX hj1 hj2
    have hj : ¬(jX + sy' * P.X = iX + iY * P.X) := by
      intro hcon
      have hd : jX - iX = (iY - sy') * P.X := by linear_combination hcon
      obtain ⟨-, hz⟩ := eq_zero_of_small_mult hX (by omega) (by omega) hd
      omega
    rw [upd_other _ _ _ _ hj]
    exact htb2.2 jX hj1 hj2

/--
**C10 (amended).** On a *fresh* DP table, a call `Matching(sx, sy, ex, ey, …)`
modifies only entries of `MatchPattern[column]` with index in `[sx, ex]`, and
every value written at an index lies in `[clamp(sy), clamp(ey)]` (first
conjunct); and — on any table — the entry at `sx` is never assigned the
clamped source ordinate `clamp(sy)`: it is either left unchanged (as happens
when the minimal path's final step into the source cell is diagonal, e.g. a
full-table call leaving `MatchPattern[column][0] = -1`) or receives a value
strictly greater than `clamp(sy)` (second conjunct, stated and proved for
every table `t`, fresh or reused, since the loop guard `iX>sx || iY>sy`
forbids the write `matchPattern[sx] = clamp(sy)`).  On a *reused* table the
first conjunct can fail: see the counterexample, where a stale direction
steers the backtrace left of `sx`.
-/
theorem matching_writes_in_range (P : Params) (c : Costs) (sx sy ex ey : ℤ) (fuel : ℕ)
    (mp : ℤ → ℤ)
    (hsx : 0 ≤ sx) (hsxex : sx ≤ ex) (hexX : ex < P.X) (hsy : 0 ≤ sy) (hsyey : sy ≤ ey)
    (hlr0 : 0 ≤ P.leftRange) (hlrX : P.leftRange < P.X) (hrr : 0 ≤ P.rightRange) :
    (∀ p ∈ MatchingWrites P c sx sy ex ey fuel freshTable,
       sx ≤ p.1 ∧ p.1 ≤ ex ∧ clampBand P sx sy ≤ p.2 ∧ p.2 ≤ clampBand P ex ey) ∧
    (∀ t : Table, (Matching P c sx sy ex ey fuel t mp).2 sx = mp sx ∨
      clampBand P sx sy < (Matching P c sx sy ex ey fuel t mp).2 sx) := by
  have hclamp : clampBand P sx sy ≤ clampBand P ex ey := by
    unfold clampBand; omega
  obtain ⟨hA, hB⟩ := matchingTable_fresh_edge_dirs P c sx sy ex ey hsx hsxex hexX hsy
    hlr0 hlrX hrr
  constructor
  · intro p hp
    have hge := backtraceWrites_ge P (MatchingTable P c sx sy ex ey freshTable) sx
      (clampBand P sx sy) ex hexX hA hB fuel ex (clampBand P ex ey) hsxex le_rfl hclamp p hp
    have hle := backtraceWrites_le P (MatchingTable P c sx sy ex ey freshTable) sx
      (clampBand P sx sy) fuel ex (clampBand P ex ey) p hp
    exact ⟨hge.1, hle.1, hge.2, hle.2⟩
  · intro t
    by_cases hmem : sx ∈ (MatchingWrites P c sx sy ex ey fuel t).map Prod.fst
    · obtain ⟨p, hpw, hp1, hp2⟩ :=
        applyWrites_mem (MatchingWrites P c sx sy ex ey fuel t) mp sx hmem
      rcases backtraceWrites_guard P (MatchingTable P c sx sy ex ey t) sx
          (clampBand P sx sy) fuel ex (clampBand P ex ey) p hpw with hgt | hgt
      · omega
      · right
        show clampBand P sx sy <
          applyWrites (MatchingWrites P c sx sy ex ey fuel t) mp sx
        rw [hp2]
        exact hgt
    · left
      show applyWrites (MatchingWrites P c sx sy ex ey fuel t) mp sx = mp sx
      exact applyWrites_frame _ mp sx hmem

/-- Witness for C10 (amended) at a concrete input: the 2x2 full-table call
writes only `(1, 1)` ⊆ `[0, 1] x [0, 1]`, and leaves entry 0 at its initial
value `-1`. -/
theorem matching_writes_in_range_witness :
    (∀ p ∈ MatchingWrites P22 zeroCosts 0 0 1 1 6 freshTable,
       0 ≤ p.1 ∧ p.1 ≤ 1 ∧ clampBand P22 0 0 ≤ p.2 ∧ p.2 ≤ clampBand P22 1 1) ∧
    ((Matching P22 zeroCosts 0 0 1 1 6 pokedTable (fun _ => -1)).2 0 = -1 ∨
      clampBand P22 0 0 < (Matching P22 zeroCosts 0 0 1 1 6 pokedTable (fun _ => -1)).2 0) :=
  ⟨(matching_writes_in_range P22 zeroCosts 0 0 1 1 6 (fun _ => -1)
      (by decide) (by decide) (by decide) (by decide) (by decide) (by decide) (by decide)
      (by decide)).1,
   (matching_writes_in_range P22 zeroCosts 0 0 1 1 6 (fun _ => -1)
      (by decide) (by decide) (by decide) (by decide) (by decide) (by decide) (by decide)
      (by decide)).2 pokedTable⟩

/-! ## C3: the band invariant of a full-table call

The relaxation candidates of `relaxCell`, factored out for reasoning. -/

/-- The vertical candidate `node[ni].verticalPathCost + node[nv].cost`. -/
def vCand (P : Params) (iY : ℤ) (tb : Table) (iX : ℤ) : ℚ :=
  (tb (iX + iY * P.X)).verticalPathCost + (tb (iX + (iY - 1) * P.X)).cost

/-- The horizontal candidate `node[ni].horizontalPathCost + node[nh].cost`. -/
def hCand (P : Params) (iY : ℤ) (tb : Table) (iX : ℤ) : ℚ :=
  (tb (iX + iY * P.X)).horizontalPathCost + (tb ((iX - 1) + iY * P.X)).cost

/-- The diagonal candidate `node[ni].diagonalPathCost + node[nd].cost`. -/
def dCand (P : Params) (iY : ℤ) (tb : Table) (iX : ℤ) : ℚ :=
  (tb (iX + iY * P.X)).diagonalPathCost + (tb ((iX - 1) + (iY - 1) * P.X)).cost

/-- The minimum `std::min({vCost, hCost, dCost})`. -/
def mVal (P : Params) (iY : ℤ) (tb : Table) (iX : ℤ) : ℚ :=
  min (min (vCand P iY tb iX) (hCand P iY tb iX)) (dCand P iY tb iX)

/-- The recorded direction (diagonal-first tie break, lines 271-282). -/
def mDir (P : Params) (iY : ℤ) (tb : Table) (iX : ℤ) : PathDir :=
  if mVal P iY tb iX = dCand P iY tb iX then PathDir.diagonal
  else if mVal P iY tb iX = vCand P iY tb iX then PathDir.vertical
  else if mVal P iY tb iX = hCand P iY tb iX then PathDir.horizontal
  else PathDir.none

theorem relaxCell_eq (P : Params) (iY : ℤ) (tb : Table) (iX : ℤ) :
    relaxCell P iY tb iX = upd tb (iX + iY * P.X)
      { tb (iX + iY * P.X) with
        cost := mVal P iY tb iX
        selectedPathDir := mDir P iY tb iX } := rfl

/-- Over `ℚ` the minimum of the three candidates always equals one of them,
so the recorded direction is never `none` (the `throw "NaN"` arm is dead). -/
theorem mDir_spec (P : Params) (iY : ℤ) (tb : Table) (iX : ℤ) :
    (mDir P iY tb iX = PathDir.diagonal ∧ mVal P iY tb iX = dCand P iY tb iX) ∨
    (mDir P iY tb iX = PathDir.vertical ∧ mVal P iY tb iX = vCand P iY tb iX) ∨
    (mDir P iY tb iX = PathDir.horizontal ∧ mVal P iY tb iX = hCand P iY tb iX) := by
  unfold mDir
  split_ifs with h1 h2 h3
  · exact Or.inl ⟨rfl, h1⟩
  · exact Or.inr (Or.inl ⟨rfl, h2⟩)
  · exact Or.inr (Or.inr ⟨rfl, h3⟩)
  · exfalso
    rcases min_cases (min (vCand P iY tb iX) (hCand P iY tb iX)) (dCand P iY tb iX) with
      ⟨hm, -⟩ | ⟨hm, -⟩
    · rcases min_cases (vCand P iY tb iX) (hCand P iY tb iX) with ⟨hm2, -⟩ | ⟨hm2, -⟩
      · exact h2 (by rw [mVal, hm, hm2])
      · exact h3 (by rw [mVal, hm, hm2])
    · exact h1 (by rw [mVal, hm])

/-- The admissible region of a full-table call: the rectangle clipped to the
band strip. -/
def Rgn (P : Params) (ex ey x y : ℤ) : Prop :=
  0 ≤ x ∧ x ≤ ex ∧ 0 ≤ y ∧ y ≤ ey ∧ -P.leftRange ≤ y - x ∧ y - x ≤ P.rightRange

/-- The recorded direction points to a predecessor inside the region. -/
def DirPredOK (P : Params) (ex ey x y : ℤ) (d : PathDir) : Prop :=
  (d = PathDir.vertical ∧ Rgn P ex ey x (y - 1)) ∨
  (d = PathDir.horizontal ∧ Rgn P ex ey (x - 1) y) ∨
  (d = PathDir.diagonal ∧ Rgn P ex ey (x - 1) (y - 1))

/-- Progress predicate: the cells already finalised when rows `≤ r` have been
relaxed and, in row `r + 1`, cells up to column `k`; the two edge seeds and
the source are finalised from the start. -/
def Done (P : Params) (ex ey r k x y : ℤ) : Prop :=
  Rgn P ex ey x y ∧ ¬(x = 0 ∧ y = 0) ∧
    (y = 0 ∨ x = 0 ∨ y ≤ r ∨ (y = r + 1 ∧ x ≤ k))

/-- The invariant of the relaxation of a full-table call on a fresh table:
path costs hold the cost-function values on the region, the source cell holds
accumulated cost 0, finalised cells hold a nonnegative accumulated cost
bounded by `(x + y) * B` and a direction whose predecessor is in the region,
and cells not yet finalised still hold `MAX_COST`. -/
def DState (P : Params) (c : Costs) (B : ℚ) (ex ey r k : ℤ) (tb : Table) : Prop :=
  ∀ x y : ℤ, 0 ≤ x → x < P.X → 0 ≤ y →
    (Rgn P ex ey x y →
      (tb (x + y * P.X)).verticalPathCost = (c x y).1 ∧
      (tb (x + y * P.X)).horizontalPathCost = (c x y).2.1 ∧
      (tb (x + y * P.X)).diagonalPathCost = (c x y).2.2) ∧
    ((x = 0 ∧ y = 0) → (tb (x + y * P.X)).cost = 0) ∧
    (Done P ex ey r k x y →
      0 ≤ (tb (x + y * P.X)).cost ∧
      (tb (x + y * P.X)).cost ≤ ((x + y : ℤ) : ℚ) * B ∧
      DirPredOK P ex ey x y (tb (x + y * P.X)).selectedPathDir) ∧
    (¬Done P ex ey r k x y → ¬(x = 0 ∧ y = 0) → x ≤ ex → y ≤ ey →
      (tb (x + y * P.X)).cost = MAX_COST)

/-- Transfer a `DState` along an equivalence of the progress predicates. -/
theorem DState_transfer (P : Params) (c : Costs) (B : ℚ) (ex ey r k r2 k2 : ℤ)
    (tb : Table) (hD : DState P c B ex ey r k tb)
    (hiff : ∀ x y : ℤ, 0 ≤ x → x < P.X → 0 ≤ y →
      (Done P ex ey r2 k2 x y ↔ Done P ex ey r k x y)) :
    DState P c B ex ey r2 k2 tb := by
  intro x y hx0 hxX hy0
  obtain ⟨hpc, hsrc, hdone, hndone⟩ := hD x y hx0 hxX hy0
  refine ⟨hpc, hsrc, ?_, ?_⟩
  · intro hd
    exact hdone ((hiff x y hx0 hxX hy0).mp hd)
  · intro hnd hne hxe hye
    exact hndone (fun hd => hnd ((hiff x y hx0 hxX hy0).mpr hd)) hne hxe hye

/-- Characterisation of one row of the node-initialisation loop: on canonical
coordinates it sets the three path costs of the cells `a ≤ x ≤ b` of row `iY`
and leaves everything else alone. -/
theorem initFold_char (P : Params) (c : Costs) (iY : ℤ) (hiY : 0 ≤ iY) :
    ∀ (n : ℕ) (a b : ℤ), b + 1 ≤ a + (n : ℤ) → 0 ≤ a → b < P.X →
    ∀ (t : Table) (x y : ℤ), 0 ≤ x → x < P.X → 0 ≤ y →
      intFold a b (initCell P c iY) t (x + y * P.X) =
        if a ≤ x ∧ x ≤ b ∧ y = iY then
          { t (x + y * P.X) with
            verticalPathCost := (c x y).1
            horizontalPathCost := (c x y).2.1
            diagonalPathCost := (c x y).2.2 }
        else t (x + y * P.X) := by
  intro n
  induction n with
  | zero =>
    intro a b hn ha hb t x y hx0 hxX hy0
    rw [intFold_of_lt (by omega), if_neg (by omega)]
  | succ m ih =>
    intro a b hn ha hb t x y hx0 hxX hy0
    rcases lt_or_le b a with hba | hab
    · rw [intFold_of_lt hba, if_neg (by omega)]
    · rw [intFold_last hab]
      show upd _ (b + iY * P.X) _ (x + y * P.X) = _
      by_cases hxy : x = b ∧ y = iY
      · obtain ⟨rfl, rfl⟩ := hxy
        rw [if_pos (by omega)]
        rw [upd_self]
        have hmid := ih a (x - 1) (by omega) ha (by omega) t x y hx0 hxX hy0
        rw [if_neg (by omega)] at hmid
        rw [hmid]
      · have hne : x + y * P.X ≠ b + iY * P.X := by
          intro hcon
          exact hxy (cellIndex_inj hx0 hxX (by omega) hb hcon)
        rw [upd_other _ _ _ _ hne]
        have hmid := ih a (b - 1) (by omega) ha (by omega) t x y hx0 hxX hy0
        rw [hmid]
        by_cases hc : a ≤ x ∧ x ≤ b - 1 ∧ y = iY
        · rw [if_pos hc, if_pos (by omega)]
        · rw [if_neg hc, if_neg (by omega)]

/-- Characterisation of the full node-initialisation loop of a call with
`sx = 0`: rows `ya ≤ y ≤ yb`, columns `max(0, y - rightRange) ≤ x ≤
min(ex, y + leftRange)`. -/
theorem initNodes_char (P : Params) (c : Costs) (ex : ℤ) (hex : ex < P.X) :
    ∀ (n : ℕ) (ya yb : ℤ), yb + 1 ≤ ya + (n : ℤ) → 0 ≤ ya →
    ∀ (t : Table) (x y : ℤ), 0 ≤ x → x < P.X → 0 ≤ y →
      intFold ya yb (initRow P c 0 ex) t (x + y * P.X) =
        if ya ≤ y ∧ y ≤ yb ∧ max 0 (y - P.rightRange) ≤ x ∧
            x ≤ min ex (y + P.leftRange) then
          { t (x + y * P.X) with
            verticalPathCost := (c x y).1
            horizontalPathCost := (c x y).2.1
            diagonalPathCost := (c x y).2.2 }
        else t (x + y * P.X) := by
  intro n
  induction n with
  | zero =>
    intro ya yb hn hya t x y hx0 hxX hy0
    rw [intFold_of_lt (by omega), if_neg (by omega)]
  | succ m ih =>
    intro ya yb hn hya t x y hx0 hxX hy0
    rcases lt_or_le yb ya with hba | hab
    · rw [intFold_of_lt hba, if_neg (by omega)]
    · rw [intFold_last hab]
      show intFold (max 0 (yb - P.rightRange)) (min ex (yb + P.leftRange))
        (initCell P c yb) (intFold ya (yb - 1) (initRow P c 0 ex) t) (x + y * P.X) = _
      have hrow := initFold_char P c yb (by omega)
        (min ex (yb + P.leftRange) + 1 - max 0 (yb - P.rightRange)).toNat
        (max 0 (yb - P.rightRange)) (min ex (yb + P.leftRange)) (by omega)
        (by omega) (by omega)
        (intFold ya (yb - 1) (initRow P c 0 ex) t) x y hx0 hxX hy0
      rw [hrow]
      have hmid := ih ya (yb - 1) (by omega) hya t x y hx0 hxX hy0
      by_cases hyb : y = yb
      · subst hyb
        rw [if_neg (by omega)] at hmid
        by_cases hc : max 0 (y - P.rightRange) ≤ x ∧ x ≤ min ex (y + P.leftRange)
        · rw [if_pos (by omega), hmid, if_pos (by omega)]
        · rw [if_neg (by omega), hmid, if_neg (by omega)]
      · rw [if_neg (by omega), hmid]
        by_cases hc : ya ≤ y ∧ y ≤ yb - 1 ∧ max 0 (y - P.rightRange) ≤ x ∧
            x ≤ min ex (y + P.leftRange)
        · rw [if_pos hc, if_pos (by omega)]
        · rw [if_neg hc, if_neg (by omega)]

theorem MAX_COST_pos : 0 < MAX_COST := by rw [MAX_COST]; positivity

/-- State of a full-table call (`sx = sy = 0`, clamped end row `E`) after node
initialisation and the source-cell write: path costs hold the cost function on
the region, the source cell has accumulated cost `0`, every other cell still
has `MAX_COST`, and every direction is still `none`. -/
theorem preSeed_facts (P : Params) (c : Costs) (ex E : ℤ)
    (hex0 : 0 ≤ ex) (hexX : ex < P.X) (hE0 : 0 ≤ E) (t2 : Table)
    (ht2 : t2 = upd (initNodes P c 0 ex 0 E freshTable) (0 + 0 * P.X)
      { initNodes P c 0 ex 0 E freshTable (0 + 0 * P.X) with cost := 0 }) :
    ∀ x y : ℤ, 0 ≤ x → x < P.X → 0 ≤ y →
      (Rgn P ex E x y →
        (t2 (x + y * P.X)).verticalPathCost = (c x y).1 ∧
        (t2 (x + y * P.X)).horizontalPathCost = (c x y).2.1 ∧
        (t2 (x + y * P.X)).diagonalPathCost = (c x y).2.2) ∧
      (t2 (x + y * P.X)).cost = (if x = 0 ∧ y = 0 then 0 else MAX_COST) ∧
      (t2 (x + y * P.X)).selectedPathDir = PathDir.none := by
  subst ht2
  intro x y hx0 hxX hy0
  have hinit : ∀ a b : ℤ, 0 ≤ a → a < P.X → 0 ≤ b →
      initNodes P c 0 ex 0 E freshTable (a + b * P.X) =
        if 0 ≤ b ∧ b ≤ E ∧ max 0 (b - P.rightRange) ≤ a ∧
            a ≤ min ex (b + P.leftRange) then
          { freshTable (a + b * P.X) with
            verticalPathCost := (c a b).1
            horizontalPathCost := (c a b).2.1
            diagonalPathCost := (c a b).2.2 }
        else freshTable (a + b * P.X) := by
    intro a b ha0 haX hb0
    exact initNodes_char P c ex hexX (E + 1).toNat 0 E (by omega) le_rfl
      freshTable a b ha0 haX hb0
  by_cases hxy : x = 0 ∧ y = 0
  · obtain ⟨rfl, rfl⟩ := hxy
    rw [upd_self]
    refine ⟨fun hR => ?_, ?_, ?_⟩
    · obtain ⟨h1, h2, h3, h4, h5, h6⟩ := hR
      show (initNodes P c 0 ex 0 E freshTable ((0 : ℤ) + (0 : ℤ) * P.X)).verticalPathCost
        = _ ∧ _
      rw [hinit 0 0 le_rfl (by omega) le_rfl, if_pos (by omega)]
      exact ⟨rfl, rfl, rfl⟩
    · rw [if_pos ⟨rfl, rfl⟩]
    · show (initNodes P c 0 ex 0 E freshTable ((0 : ℤ) + (0 : ℤ) * P.X)).selectedPathDir
        = PathDir.none
      rw [hinit 0 0 le_rfl (by omega) le_rfl]
      split <;> rfl
  · have hne : x + y * P.X ≠ 0 + 0 * P.X := by
      intro hcon
      exact hxy (cellIndex_inj hx0 hxX le_rfl (by omega) hcon)
    rw [upd_other _ _ _ _ hne]
    rw [hinit x y hx0 hxX hy0]
    refine ⟨fun hR => ?_, ?_, ?_⟩
    · obtain ⟨h1, h2, h3, h4, h5, h6⟩ := hR
      rw [if_pos (by omega)]
      exact ⟨rfl, rfl, rfl⟩
    · rw [if_neg hxy]
      split <;> rfl
    · split <;> rfl

/-- The body of the bottom-edge seed loop (`DPM::Matching` lines 234-238),
named so the fold can be peeled without beta redexes. -/
def seedBStep (t : Table) (iX : ℤ) : Table :=
  upd t iX { t iX with
    cost := (t iX).horizontalPathCost + (t (iX - 1)).cost
    selectedPathDir := PathDir.horizontal }

theorem seedBottom_zero_eq (P : Params) (t : Table) :
    seedBottom P 0 t = intFold 1 P.leftRange seedBStep t := by
  unfold seedBottom seedBStep
  norm_num

/-- The body of the left-edge seed loop of a call with `sx = 0`
(`DPM::Matching` lines 241-245). -/
def seedLStep (P : Params) (t : Table) (iY : ℤ) : Table :=
  upd t (0 + iY * P.X) { t (0 + iY * P.X) with
    cost := (t (0 + iY * P.X)).verticalPathCost + (t (0 + (iY - 1) * P.X)).cost
    selectedPathDir := PathDir.vertical }

theorem seedLeft_zero_eq (P : Params) (t : Table) :
    seedLeft P 0 0 t = intFold 1 P.rightRange (seedLStep P) t := by
  unfold seedLeft seedLStep
  norm_num

/-- Effect of the bottom-edge seed loop, run up to column `k`, on the
pre-seed state of a full-table call. -/
theorem seedBottom_facts (P : Params) (c : Costs) (B : ℚ) (ex E : ℤ)
    (hex0 : 0 ≤ ex) (hexX : ex < P.X) (hE0 : 0 ≤ E)
    (hlR0 : 0 ≤ P.leftRange) (hlRX : P.leftRange < P.X) (hrR0 : 0 ≤ P.rightRange)
    (hcB : ∀ a b : ℤ, 0 ≤ (c a b).1 ∧ (c a b).1 ≤ B ∧ 0 ≤ (c a b).2.1 ∧
      (c a b).2.1 ≤ B ∧ 0 ≤ (c a b).2.2 ∧ (c a b).2.2 ≤ B)
    (t : Table)
    (hpre : ∀ x y : ℤ, 0 ≤ x → x < P.X → 0 ≤ y →
      (Rgn P ex E x y →
        (t (x + y * P.X)).verticalPathCost = (c x y).1 ∧
        (t (x + y * P.X)).horizontalPathCost = (c x y).2.1 ∧
        (t (x + y * P.X)).diagonalPathCost = (c x y).2.2) ∧
      (t (x + y * P.X)).cost = (if x = 0 ∧ y = 0 then 0 else MAX_COST) ∧
      (t (x + y * P.X)).selectedPathDir = PathDir.none) :
    ∀ (n : ℕ) (k : ℤ), k + 1 ≤ 1 + (n : ℤ) → k ≤ P.leftRange →
    ∀ x y : ℤ, 0 ≤ x → x < P.X → 0 ≤ y →
      (Rgn P ex E x y →
        (intFold 1 k seedBStep t (x + y * P.X)).verticalPathCost = (c x y).1 ∧
        (intFold 1 k seedBStep t (x + y * P.X)).horizontalPathCost = (c x y).2.1 ∧
        (intFold 1 k seedBStep t (x + y * P.X)).diagonalPathCost = (c x y).2.2) ∧
      ((x = 0 ∧ y = 0) → (intFold 1 k seedBStep t (x + y * P.X)).cost = 0) ∧
      (y = 0 → 1 ≤ x → x ≤ k → x ≤ ex →
        0 ≤ (intFold 1 k seedBStep t (x + y * P.X)).cost ∧
        (intFold 1 k seedBStep t (x + y * P.X)).cost ≤ (x : ℚ) * B ∧
        (intFold 1 k seedBStep t (x + y * P.X)).selectedPathDir = PathDir.horizontal) ∧
      (¬(y = 0 ∧ 1 ≤ x ∧ x ≤ k) → ¬(x = 0 ∧ y = 0) →
        (intFold 1 k seedBStep t (x + y * P.X)).cost = MAX_COST ∧
        (intFold 1 k seedBStep t (x + y * P.X)).selectedPathDir = PathDir.none) := by
  intro n
  induction n with
  | zero =>
    intro k hk hklR x y hx0 hxX hy0
    rw [intFold_of_lt (by omega)]
    obtain ⟨hpc, hcost, hdir⟩ := hpre x y hx0 hxX hy0
    refine ⟨hpc, ?_, ?_, ?_⟩
    · intro h00; rw [hcost, if_pos h00]
    · intro _ _ hxk _; omega
    · intro _ h00
      rw [hcost, if_neg h00]
      exact ⟨rfl, hdir⟩
  | succ m ih =>
    intro k hk hklR x y hx0 hxX hy0
    rcases lt_or_le k 1 with hk1 | hk1
    · rw [intFold_of_lt (by omega)]
      obtain ⟨hpc, hcost, hdir⟩ := hpre x y hx0 hxX hy0
      refine ⟨hpc, ?_, ?_, ?_⟩
      · intro h00; rw [hcost, if_pos h00]
      · intro _ _ hxk _; omega
      · intro _ h00
        rw [hcost, if_neg h00]
        exact ⟨rfl, hdir⟩
    · rw [intFold_last hk1]
      rw [show seedBStep (intFold 1 (k - 1) seedBStep t) k =
        upd (intFold 1 (k - 1) seedBStep t) k
          { intFold 1 (k - 1) seedBStep t k with
            cost := (intFold 1 (k - 1) seedBStep t k).horizontalPathCost +
              (intFold 1 (k - 1) seedBStep t (k - 1)).cost
            selectedPathDir := PathDir.horizontal } from rfl]
      have IH := ih (k - 1) (by omega) (by omega)
      by_cases hxy : x = k ∧ y = 0
      · obtain ⟨rfl, rfl⟩ := hxy
        rw [show x + (0 : ℤ) * P.X = x from by ring]
        rw [upd_self]
        have IHx := IH x 0 hx0 hxX le_rfl
        rw [show x + (0 : ℤ) * P.X = x from by ring] at IHx
        obtain ⟨hpc, hcost0, htrio, helse⟩ := IHx
        refine ⟨?_, ?_, ?_, ?_⟩
        · intro hR
          obtain ⟨hv, hh, hd⟩ := hpc hR
          exact ⟨hv, hh, hd⟩
        · intro h00; omega
        · intro _ _ _ hxex
          have hRx : Rgn P ex E x 0 := by
            unfold Rgn; omega
          obtain ⟨-, hh, -⟩ := hpc hRx
          have hprev : 0 ≤ (intFold 1 (x - 1) seedBStep t (x - 1)).cost ∧
              (intFold 1 (x - 1) seedBStep t (x - 1)).cost ≤ ((x : ℚ) - 1) * B := by
            have IHp := IH (x - 1) 0 (by omega) (by omega) le_rfl
            rw [show x - 1 + (0 : ℤ) * P.X = x - 1 from by ring] at IHp
            obtain ⟨-, hcost0', htrio', -⟩ := IHp
            rcases lt_or_le (x - 1) 1 with hx1 | hx1
            · have h1 : x - 1 = 0 := by omega
              rw [hcost0' ⟨h1, rfl⟩]
              have hxq : (x : ℚ) = 1 := by
                have : x = 1 := by omega
                rw [this]; norm_num
              rw [hxq]
              norm_num
            · obtain ⟨hlo, hhi, -⟩ := htrio' rfl (by omega) (by omega) (by omega)
              refine ⟨hlo, le_trans hhi ?_⟩
              push_cast
              linarith
          obtain ⟨hc1, hc2, hc3, hc4, hc5, hc6⟩ := hcB x 0
          refine ⟨?_, ?_, rfl⟩
          · show 0 ≤ (intFold 1 (x - 1) seedBStep t x).horizontalPathCost +
              (intFold 1 (x - 1) seedBStep t (x - 1)).cost
            rw [hh]
            linarith [hprev.1]
          · show (intFold 1 (x - 1) seedBStep t x).horizontalPathCost +
              (intFold 1 (x - 1) seedBStep t (x - 1)).cost ≤ (x : ℚ) * B
            rw [hh]
            have h2 := hprev.2
            nlinarith
        · intro hno _
          exact absurd ⟨rfl, by omega, le_rfl⟩ hno
      · have hne : x + y * P.X ≠ k := by
          intro hcon
          have hcon' : x + y * P.X = k + (0 : ℤ) * P.X := by rw [hcon]; ring
          exact hxy (cellIndex_inj hx0 hxX (by omega) (by omega) hcon')
        rw [upd_other _ _ _ _ hne]
        obtain ⟨hpc, hcost0, htrio, helse⟩ := IH x y hx0 hxX hy0
        refine ⟨hpc, hcost0, ?_, ?_⟩
        · intro hy hx1 hxk hxex
          exact htrio hy hx1 (by omega) hxex
        · intro hno h00
          exact helse (by omega) h00

/-- Effect of the left-edge seed loop, run up to row `k`, on the state left
by the bottom-edge seed of a full-table call. -/
theorem seedLeft_facts (P : Params) (c : Costs) (B : ℚ) (ex E : ℤ)
    (hex0 : 0 ≤ ex) (hexX : ex < P.X) (hlR0 : 0 ≤ P.leftRange)
    (hcB : ∀ a b : ℤ, 0 ≤ (c a b).1 ∧ (c a b).1 ≤ B ∧ 0 ≤ (c a b).2.1 ∧
      (c a b).2.1 ≤ B ∧ 0 ≤ (c a b).2.2 ∧ (c a b).2.2 ≤ B)
    (t : Table)
    (hq : ∀ x y : ℤ, 0 ≤ x → x < P.X → 0 ≤ y →
      (Rgn P ex E x y →
        (t (x + y * P.X)).verticalPathCost = (c x y).1 ∧
        (t (x + y * P.X)).horizontalPathCost = (c x y).2.1 ∧
        (t (x + y * P.X)).diagonalPathCost = (c x y).2.2) ∧
      ((x = 0 ∧ y = 0) → (t (x + y * P.X)).cost = 0) ∧
      (y = 0 → 1 ≤ x → x ≤ P.leftRange → x ≤ ex →
        0 ≤ (t (x + y * P.X)).cost ∧
        (t (x + y * P.X)).cost ≤ (x : ℚ) * B ∧
        (t (x + y * P.X)).selectedPathDir = PathDir.horizontal) ∧
      (¬(y = 0 ∧ 1 ≤ x ∧ x ≤ P.leftRange) → ¬(x = 0 ∧ y = 0) →
        (t (x + y * P.X)).cost = MAX_COST ∧
        (t (x + y * P.X)).selectedPathDir = PathDir.none)) :
    ∀ (n : ℕ) (k : ℤ), k + 1 ≤ 1 + (n : ℤ) → k ≤ P.rightRange →
    ∀ x y : ℤ, 0 ≤ x → x < P.X → 0 ≤ y →
      (Rgn P ex E x y →
        (intFold 1 k (seedLStep P) t (x + y * P.X)).verticalPathCost = (c x y).1 ∧
        (intFold 1 k (seedLStep P) t (x + y * P.X)).horizontalPathCost = (c x y).2.1 ∧
        (intFold 1 k (seedLStep P) t (x + y * P.X)).diagonalPathCost = (c x y).2.2) ∧
      ((x = 0 ∧ y = 0) → (intFold 1 k (seedLStep P) t (x + y * P.X)).cost = 0) ∧
      (y = 0 → 1 ≤ x → x ≤ P.leftRange → x ≤ ex →
        0 ≤ (intFold 1 k (seedLStep P) t (x + y * P.X)).cost ∧
        (intFold 1 k (seedLStep P) t (x + y * P.X)).cost ≤ (x : ℚ) * B ∧
        (intFold 1 k (seedLStep P) t (x + y * P.X)).selectedPathDir =
          PathDir.horizontal) ∧
      (x = 0 → 1 ≤ y → y ≤ k → y ≤ E →
        0 ≤ (intFold 1 k (seedLStep P) t (x + y * P.X)).cost ∧
        (intFold 1 k (seedLStep P) t (x + y * P.X)).cost ≤ (y : ℚ) * B ∧
        (intFold 1 k (seedLStep P) t (x + y * P.X)).selectedPathDir =
          PathDir.vertical) ∧
      (¬(y = 0 ∧ 1 ≤ x ∧ x ≤ P.leftRange) → ¬(x = 0 ∧ 1 ≤ y ∧ y ≤ k) →
        ¬(x = 0 ∧ y = 0) →
        (intFold 1 k (seedLStep P) t (x + y * P.X)).cost = MAX_COST ∧
        (intFold 1 k (seedLStep P) t (x + y * P.X)).selectedPathDir =
          PathDir.none) := by
  intro n
  induction n with
  | zero =>
    intro k hk hkrR x y hx0 hxX hy0
    rw [intFold_of_lt (by omega)]
    obtain ⟨hpc, hcost0, htrio, helse⟩ := hq x y hx0 hxX hy0
    refine ⟨hpc, hcost0, htrio, ?_, ?_⟩
    · intro _ _ hyk _; omega
    · intro hno1 _ h00
      exact helse hno1 h00
  | succ m ih =>
    intro k hk hkrR x y hx0 hxX hy0
    rcases lt_or_le k 1 with hk1 | hk1
    · rw [intFold_of_lt (by omega)]
      obtain ⟨hpc, hcost0, htrio, helse⟩ := hq x y hx0 hxX hy0
      refine ⟨hpc, hcost0, htrio, ?_, ?_⟩
      · intro _ _ hyk _; omega
      · intro hno1 _ h00
        exact helse hno1 h00
    · rw [intFold_last hk1]
      rw [show seedLStep P (intFold 1 (k - 1) (seedLStep P) t) k =
        upd (intFold 1 (k - 1) (seedLStep P) t) (0 + k * P.X)
          { intFold 1 (k - 1) (seedLStep P) t (0 + k * P.X) with
            cost := (intFold 1 (k - 1) (seedLStep P) t
                (0 + k * P.X)).verticalPathCost +
              (intFold 1 (k - 1) (seedLStep P) t (0 + (k - 1) * P.X)).cost
            selectedPathDir := PathDir.vertical } from rfl]
      have IH := ih (k - 1) (by omega) (by omega)
      by_cases hxy : x = 0 ∧ y = k
      · obtain ⟨hx', hy'⟩ := hxy
        subst hx'
        subst hy'
        rw [upd_self]
        have IHx := IH 0 y le_rfl hxX hy0
        obtain ⟨hpc, hcost0, htrio, hquad, helse⟩ := IHx
        refine ⟨?_, ?_, ?_, ?_, ?_⟩
        · intro hR
          obtain ⟨hv, hh, hd⟩ := hpc hR
          exact ⟨hv, hh, hd⟩
        · intro h00; omega
        · intro hy0' hx1 _ _; omega
        · intro _ hy1 _ hyE
          have hRy : Rgn P ex E 0 y := by
            unfold Rgn; omega
          obtain ⟨hv, -, -⟩ := hpc hRy
          have hprev : 0 ≤ (intFold 1 (y - 1) (seedLStep P) t (0 + (y - 1) * P.X)).cost ∧
              (intFold 1 (y - 1) (seedLStep P) t (0 + (y - 1) * P.X)).cost ≤
                ((y : ℚ) - 1) * B := by
            have IHp := IH 0 (y - 1) le_rfl (by omega) (by omega)
            obtain ⟨-, hcost0', -, hquad', -⟩ := IHp
            rcases lt_or_le (y - 1) 1 with hy1' | hy1' 
            · have h1 : y - 1 = 0 := by omega
              rw [hcost0' ⟨rfl, h1⟩]
              have hyq : (y : ℚ) = 1 := by
                have : y = 1 := by omega
                rw [this]; norm_num
              rw [hyq]
              norm_num
            · obtain ⟨hlo, hhi, -⟩ := hquad' rfl (by omega) (by omega) (by omega)
              refine ⟨hlo, le_trans hhi ?_⟩
              push_cast
              linarith
          obtain ⟨hc1, hc2, hc3, hc4, hc5, hc6⟩ := hcB 0 y
          refine ⟨?_, ?_, rfl⟩
          · show 0 ≤ (intFold 1 (y - 1) (seedLStep P) t
                (0 + y * P.X)).verticalPathCost +
              (intFold 1 (y - 1) (seedLStep P) t (0 + (y - 1) * P.X)).cost
            rw [hv]
            linarith [hprev.1]
          · show (intFold 1 (y - 1) (seedLStep P) t
                (0 + y * P.X)).verticalPathCost +
              (intFold 1 (y - 1) (seedLStep P) t (0 + (y - 1) * P.X)).cost ≤
                (y : ℚ) * B
            rw [hv]
            have h2 := hprev.2
            nlinarith
        · intro _ hno2 _
          exact absurd ⟨rfl, by omega, le_rfl⟩ hno2
      · have hne : x + y * P.X ≠ 0 + k * P.X := by
          intro hcon
          exact hxy (cellIndex_inj hx0 hxX le_rfl (by omega) hcon)
        rw [upd_other _ _ _ _ hne]
        obtain ⟨hpc, hcost0, htrio, hquad, helse⟩ := IH x y hx0 hxX hy0
        refine ⟨hpc, hcost0, htrio, ?_, ?_⟩
        · intro hx0' hy1 hyk hyE
          exact hquad hx0' hy1 (by omega) hyE
        · intro hno1 hno2 h00
          exact helse hno1 (by omega) h00

/-- After the two edge seeds, a full-table call satisfies the relaxation
invariant with no interior row processed yet. -/
theorem seeded_DState (P : Params) (c : Costs) (B : ℚ) (ex E : ℤ)
    (hex0 : 0 ≤ ex) (hexX : ex < P.X) (hE0 : 0 ≤ E)
    (hlR0 : 0 ≤ P.leftRange) (hrR0 : 0 ≤ P.rightRange)
    (t : Table)
    (hq : ∀ x y : ℤ, 0 ≤ x → x < P.X → 0 ≤ y →
      (Rgn P ex E x y →
        (t (x + y * P.X)).verticalPathCost = (c x y).1 ∧
        (t (x + y * P.X)).horizontalPathCost = (c x y).2.1 ∧
        (t (x + y * P.X)).diagonalPathCost = (c x y).2.2) ∧
      ((x = 0 ∧ y = 0) → (t (x + y * P.X)).cost = 0) ∧
      (y = 0 → 1 ≤ x → x ≤ P.leftRange → x ≤ ex →
        0 ≤ (t (x + y * P.X)).cost ∧
        (t (x + y * P.X)).cost ≤ (x : ℚ) * B ∧
        (t (x + y * P.X)).selectedPathDir = PathDir.horizontal) ∧
      (x = 0 → 1 ≤ y → y ≤ P.rightRange → y ≤ E →
        0 ≤ (t (x + y * P.X)).cost ∧
        (t (x + y * P.X)).cost ≤ (y : ℚ) * B ∧
        (t (x + y * P.X)).selectedPathDir = PathDir.vertical) ∧
      (¬(y = 0 ∧ 1 ≤ x ∧ x ≤ P.leftRange) → ¬(x = 0 ∧ 1 ≤ y ∧ y ≤ P.rightRange) →
        ¬(x = 0 ∧ y = 0) →
        (t (x + y * P.X)).cost = MAX_COST ∧
        (t (x + y * P.X)).selectedPathDir = PathDir.none)) :
    DState P c B ex E 0 0 t := by
  intro x y hx0 hxX hy0
  obtain ⟨hpc, hcost0, htrio, hquad, helse⟩ := hq x y hx0 hxX hy0
  refine ⟨hpc, hcost0, ?_, ?_⟩
  · intro hDn
    obtain ⟨hR, hne0, hdisj⟩ := hDn
    obtain ⟨h1, h2, h3, h4, h5, h6⟩ := hR
    have hcase : (y = 0 ∧ 1 ≤ x) ∨ (x = 0 ∧ 1 ≤ y) := by omega
    rcases hcase with ⟨hcy, hcx⟩ | ⟨hcx, hcy⟩
    · subst hcy
      obtain ⟨hlo, hhi, hdir⟩ := htrio rfl hcx (by omega) (by omega)
      refine ⟨hlo, ?_, ?_⟩
      · have hcast : ((x + 0 : ℤ) : ℚ) = (x : ℚ) := by push_cast; ring
        rw [hcast]
        exact hhi
      · right; left
        exact ⟨hdir, by unfold Rgn; omega⟩
    · subst hcx
      obtain ⟨hlo, hhi, hdir⟩ := hquad rfl hcy (by omega) (by omega)
      refine ⟨hlo, ?_, ?_⟩
      · have hcast : ((0 + y : ℤ) : ℚ) = (y : ℚ) := by push_cast; ring
        rw [hcast]
        exact hhi
      · left
        exact ⟨hdir, by unfold Rgn; omega⟩
  · intro hnD hne0 hxe hye
    have hnb : ¬(y = 0 ∧ 1 ≤ x ∧ x ≤ P.leftRange) := by
      rintro ⟨hb1, hb2, hb3⟩
      exact hnD ⟨by unfold Rgn; omega, hne0, by omega⟩
    have hnl : ¬(x = 0 ∧ 1 ≤ y ∧ y ≤ P.rightRange) := by
      rintro ⟨hl1, hl2, hl3⟩
      exact hnD ⟨by unfold Rgn; omega, hne0, by omega⟩
    exact (helse hnb hnl hne0).1

/-- The heart of the band invariant: relaxing one interior cell preserves the
invariant, extending the finalised prefix of its row by one column. -/
theorem relaxCell_step (P : Params) (c : Costs) (B : ℚ) (ex E r iX : ℤ)
    (hex0 : 0 ≤ ex) (hexX : ex < P.X)
    (hlR0 : 0 ≤ P.leftRange) (hrR0 : 0 ≤ P.rightRange)
    (hr0 : 0 ≤ r) (hrE : r + 1 ≤ E)
    (hiXlo : max 1 (r + 1 - P.rightRange) ≤ iX)
    (hiXhi : iX ≤ min ex (r + 1 + P.leftRange))
    (hcB : ∀ a b : ℤ, 0 ≤ (c a b).1 ∧ (c a b).1 ≤ B ∧ 0 ≤ (c a b).2.1 ∧
      (c a b).2.1 ≤ B ∧ 0 ≤ (c a b).2.2 ∧ (c a b).2.2 ≤ B)
    (hB0 : 0 ≤ B) (hMC : ((ex + E : ℤ) : ℚ) * B < MAX_COST)
    (tb : Table) (hD : DState P c B ex E r (iX - 1) tb) :
    DState P c B ex E r iX (relaxCell P (r + 1) tb iX) := by
  have hiX1 : 1 ≤ iX := by omega
  have hiXex : iX ≤ ex := by omega
  have hRcell : Rgn P ex E iX (r + 1) := by unfold Rgn; omega
  obtain ⟨hpcC, -, -, -⟩ := hD iX (r + 1) (by omega) (by omega) (by omega)
  obtain ⟨hvC, hhC, hdC⟩ := hpcC hRcell
  have e1 : (r + 1 : ℤ) - 1 = r := by ring
  have hv1 : vCand P (r + 1) tb iX =
      (c iX (r + 1)).1 + (tb (iX + r * P.X)).cost := by
    unfold vCand; rw [e1, hvC]
  have hh1 : hCand P (r + 1) tb iX =
      (c iX (r + 1)).2.1 + (tb ((iX - 1) + (r + 1) * P.X)).cost := by
    unfold hCand; rw [hhC]
  have hd1 : dCand P (r + 1) tb iX =
      (c iX (r + 1)).2.2 + (tb ((iX - 1) + r * P.X)).cost := by
    unfold dCand; rw [e1, hdC]
  -- every in-rectangle cell has nonnegative accumulated cost
  have hnn : ∀ a b : ℤ, 0 ≤ a → a < P.X → 0 ≤ b → a ≤ ex → b ≤ E →
      0 ≤ (tb (a + b * P.X)).cost := by
    intro a b ha0 haX hb0 hae hbE
    obtain ⟨-, hsrc, hdone, hnd⟩ := hD a b ha0 haX hb0
    by_cases h00 : a = 0 ∧ b = 0
    · rw [hsrc h00]
    · by_cases hDn : Done P ex E r (iX - 1) a b
      · exact (hdone hDn).1
      · rw [hnd hDn h00 hae hbE]
        exact le_of_lt MAX_COST_pos
  -- bound on the diagonal predecessor
  have hdpred : 0 ≤ (tb ((iX - 1) + r * P.X)).cost ∧
      (tb ((iX - 1) + r * P.X)).cost ≤ ((iX - 1 + r : ℤ) : ℚ) * B := by
    obtain ⟨-, hsrc, hdone, -⟩ := hD (iX - 1) r (by omega) (by omega) hr0
    by_cases h00 : iX - 1 = 0 ∧ r = 0
    · rw [hsrc h00]
      have hz : (iX - 1 + r : ℤ) = 0 := by omega
      rw [hz]
      norm_num
    · have hDn : Done P ex E r (iX - 1) (iX - 1) r :=
        ⟨by unfold Rgn; omega, h00, by omega⟩
      exact ⟨(hdone hDn).1, (hdone hDn).2.1⟩
  have hd_hi : dCand P (r + 1) tb iX ≤ ((iX + r + 1 : ℤ) : ℚ) * B := by
    rw [hd1]
    have hc := (hcB iX (r + 1)).2.2.2.2.2
    have h2 := hdpred.2
    push_cast at h2 ⊢
    nlinarith
  have hm_le_d : mVal P (r + 1) tb iX ≤ dCand P (r + 1) tb iX := min_le_right _ _
  have hm_hi : mVal P (r + 1) tb iX ≤ ((iX + r + 1 : ℤ) : ℚ) * B :=
    le_trans hm_le_d hd_hi
  have hm_ltM : mVal P (r + 1) tb iX < MAX_COST := by
    have hle : ((iX + r + 1 : ℤ) : ℚ) ≤ ((ex + E : ℤ) : ℚ) := by
      exact_mod_cast (by omega : iX + r + 1 ≤ ex + E)
    calc mVal P (r + 1) tb iX ≤ ((iX + r + 1 : ℤ) : ℚ) * B := hm_hi
      _ ≤ ((ex + E : ℤ) : ℚ) * B := mul_le_mul_of_nonneg_right hle hB0
      _ < MAX_COST := hMC
  have hm_lo : 0 ≤ mVal P (r + 1) tb iX := by
    refine le_min (le_min ?_ ?_) ?_
    · rw [hv1]
      exact add_nonneg (hcB iX (r + 1)).1 (hnn iX r (by omega) (by omega) hr0
        hiXex (by omega))
    · rw [hh1]
      exact add_nonneg (hcB iX (r + 1)).2.2.1 (hnn (iX - 1) (r + 1) (by omega)
        (by omega) (by omega) (by omega) (by omega))
    · rw [hd1]
      exact add_nonneg (hcB iX (r + 1)).2.2.2.2.1 (hdpred.1)
  have hDirOK : DirPredOK P ex E iX (r + 1) (mDir P (r + 1) tb iX) := by
    rcases mDir_spec P (r + 1) tb iX with ⟨hdir, hmeq⟩ | ⟨hdir, hmeq⟩ | ⟨hdir, hmeq⟩
    · right; right
      refine ⟨hdir, ?_⟩
      unfold Rgn; omega
    · left
      refine ⟨hdir, ?_⟩
      have hcv : (tb (iX + r * P.X)).cost < MAX_COST := by
        have h2 : 0 ≤ (c iX (r + 1)).1 := (hcB iX (r + 1)).1
        have h3 := hm_ltM
        rw [hmeq, hv1] at h3
        linarith
      obtain ⟨-, -, hdone, hnd⟩ := hD iX r (by omega) (by omega) hr0
      by_cases hDn : Done P ex E r (iX - 1) iX r
      · obtain ⟨hR, -, -⟩ := hDn
        show Rgn P ex E iX (r + 1 - 1)
        rw [e1]
        exact hR
      · by_cases h00 : iX = 0 ∧ r = 0
        · exact absurd h00.1 (by omega)
        · rw [hnd hDn h00 hiXex (by omega)] at hcv
          exact absurd hcv (lt_irrefl _)
    · right; left
      refine ⟨hdir, ?_⟩
      have hch : (tb ((iX - 1) + (r + 1) * P.X)).cost < MAX_COST := by
        have h2 : 0 ≤ (c iX (r + 1)).2.1 := (hcB iX (r + 1)).2.2.1
        have h3 := hm_ltM
        rw [hmeq, hh1] at h3
        linarith
      obtain ⟨-, -, hdone, hnd⟩ := hD (iX - 1) (r + 1) (by omega) (by omega)
        (by omega)
      by_cases hDn : Done P ex E r (iX - 1) (iX - 1) (r + 1)
      · obtain ⟨hR, -, -⟩ := hDn
        exact hR
      · by_cases h00 : iX - 1 = 0 ∧ r + 1 = 0
        · exact absurd h00.2 (by omega)
        · rw [hnd hDn h00 (by omega) (by omega)] at hch
          exact absurd hch (lt_irrefl _)
  rw [relaxCell_eq]
  intro x y hx0 hxX hy0
  by_cases hxy : x = iX ∧ y = r + 1
  · obtain ⟨hx', hy'⟩ := hxy
    subst hx'
    subst hy'
    rw [upd_self]
    refine ⟨?_, ?_, ?_, ?_⟩
    · intro _
      exact ⟨hvC, hhC, hdC⟩
    · intro h00
      exact absurd h00.2 (by omega)
    · intro _
      refine ⟨hm_lo, ?_, hDirOK⟩
      push_cast at hm_hi ⊢
      linarith
    · intro hnDn
      exact absurd ⟨hRcell, by omega, by omega⟩ hnDn
  · have hne : x + y * P.X ≠ iX + (r + 1) * P.X := by
      intro hcon
      exact hxy (cellIndex_inj hx0 hxX (by omega) (by omega) hcon)
    rw [upd_other _ _ _ _ hne]
    obtain ⟨hpc, hsrc, hdone, hnd⟩ := hD x y hx0 hxX hy0
    refine ⟨hpc, hsrc, ?_, ?_⟩
    · intro hDn
      obtain ⟨hR, hne0, hdisj⟩ := hDn
      exact hdone ⟨hR, hne0, by omega⟩
    · intro hnDn h00 hxe hye
      refine hnd ?_ h00 hxe hye
      intro hDn'
      obtain ⟨hR, hne0, hdisj⟩ := hDn'
      exact hnDn ⟨hR, hne0, by omega⟩

/-- Relaxing one interior row up to column `k` preserves the invariant. -/
theorem relaxRow_est (P : Params) (c : Costs) (B : ℚ) (ex E iY r : ℤ)
    (hiYr : iY = r + 1)
    (hex0 : 0 ≤ ex) (hexX : ex < P.X)
    (hlR0 : 0 ≤ P.leftRange) (hrR0 : 0 ≤ P.rightRange)
    (hr0 : 0 ≤ r) (hrE : iY ≤ E)
    (hcB : ∀ a b : ℤ, 0 ≤ (c a b).1 ∧ (c a b).1 ≤ B ∧ 0 ≤ (c a b).2.1 ∧
      (c a b).2.1 ≤ B ∧ 0 ≤ (c a b).2.2 ∧ (c a b).2.2 ≤ B)
    (hB0 : 0 ≤ B) (hMC : ((ex + E : ℤ) : ℚ) * B < MAX_COST)
    (tb : Table) (hD : DState P c B ex E r 0 tb) :
    ∀ (n : ℕ) (k : ℤ), k + 1 ≤ max 1 (iY - P.rightRange) + (n : ℤ) →
      k ≤ min ex (iY + P.leftRange) →
      DState P c B ex E r k
        (intFold (max 1 (iY - P.rightRange)) k (relaxCell P iY) tb) := by
  subst hiYr
  intro n
  induction n with
  | zero =>
    intro k hk hkhi
    rw [intFold_of_lt (by omega)]
    exact DState_transfer P c B ex E r 0 r k tb hD
      (fun x y hx0 hxX hy0 => by unfold Done Rgn; omega)
  | succ m ih =>
    intro k hk hkhi
    rcases lt_or_le k (max 1 (r + 1 - P.rightRange)) with hklo | hklo
    · rw [intFold_of_lt (by omega)]
      exact DState_transfer P c B ex E r 0 r k tb hD
        (fun x y hx0 hxX hy0 => by unfold Done Rgn; omega)
    · rw [intFold_last hklo]
      exact relaxCell_step P c B ex E r k hex0 hexX hlR0 hrR0 hr0 (by omega)
        (by omega) (by omega) hcB hB0 hMC _ (ih (k - 1) (by omega) (by omega))

/-- The full relaxation loop establishes the invariant for all rows up to
`r`. -/
theorem relax_est (P : Params) (c : Costs) (B : ℚ) (ex E : ℤ)
    (hex0 : 0 ≤ ex) (hexX : ex < P.X)
    (hlR0 : 0 ≤ P.leftRange) (hrR0 : 0 ≤ P.rightRange) (hE0 : 0 ≤ E)
    (hcB : ∀ a b : ℤ, 0 ≤ (c a b).1 ∧ (c a b).1 ≤ B ∧ 0 ≤ (c a b).2.1 ∧
      (c a b).2.1 ≤ B ∧ 0 ≤ (c a b).2.2 ∧ (c a b).2.2 ≤ B)
    (hB0 : 0 ≤ B) (hMC : ((ex + E : ℤ) : ℚ) * B < MAX_COST)
    (t : Table) (hD0 : DState P c B ex E 0 0 t) :
    ∀ (n : ℕ) (r : ℤ), r + 1 ≤ 1 + (n : ℤ) → r ≤ E →
      DState P c B ex E r 0 (intFold 1 r (relaxRow P 0 ex) t) := by
  intro n
  induction n with
  | zero =>
    intro r hr hrE
    rw [intFold_of_lt (by omega)]
    exact DState_transfer P c B ex E 0 0 r 0 t hD0
      (fun x y hx0 hxX hy0 => by unfold Done Rgn; omega)
  | succ m ih =>
    intro r hr hrE
    rcases lt_or_le r 1 with hr1 | hr1
    · rw [intFold_of_lt (by omega)]
      exact DState_transfer P c B ex E 0 0 r 0 t hD0
        (fun x y hx0 hxX hy0 => by unfold Done Rgn; omega)
    · rw [intFold_last hr1]
      rw [show relaxRow P 0 ex (intFold 1 (r - 1) (relaxRow P 0 ex) t) r =
        intFold (max 1 (r - P.rightRange)) (min ex (r + P.leftRange))
          (relaxCell P r) (intFold 1 (r - 1) (relaxRow P 0 ex) t) from by
            unfold relaxRow; norm_num]
      have hrow := relaxRow_est P c B ex E r (r - 1) (by ring) hex0 hexX hlR0
        hrR0 (by omega) (by omega) hcB hB0 hMC
        (intFold 1 (r - 1) (relaxRow P 0 ex) t) (ih (r - 1) (by omega) (by omega))
        (min ex (r + P.leftRange) + 1 - max 1 (r - P.rightRange)).toNat
        (min ex (r + P.leftRange)) (by omega) le_rfl
      exact DState_transfer P c B ex E (r - 1) (min ex (r + P.leftRange)) r 0 _
        hrow (fun x y hx0 hxX hy0 => by unfold Done Rgn; omega)

/-- The DP table of a full-table call on a fresh table satisfies the band
invariant for all rows. -/
theorem matchingTable_DState (P : Params) (c : Costs) (B : ℚ) (ex ey E : ℤ)
    (hEdef : clampBand P ex ey = E)
    (hex0 : 0 ≤ ex) (hexX : ex < P.X)
    (hlR0 : 0 ≤ P.leftRange) (hlRX : P.leftRange < P.X) (hrR0 : 0 ≤ P.rightRange)
    (hey0 : 0 ≤ ey)
    (hcB : ∀ a b : ℤ, 0 ≤ (c a b).1 ∧ (c a b).1 ≤ B ∧ 0 ≤ (c a b).2.1 ∧
      (c a b).2.1 ≤ B ∧ 0 ≤ (c a b).2.2 ∧ (c a b).2.2 ≤ B)
    (hMC : ((ex + E : ℤ) : ℚ) * B < MAX_COST) :
    DState P c B ex E E 0 (MatchingTable P c 0 0 ex ey freshTable) := by
  have hB0 : 0 ≤ B := le_trans (hcB 0 0).1 (hcB 0 0).2.1
  have hE0 : 0 ≤ E := by
    have h := hEdef
    unfold clampBand at h
    omega
  have h00 : clampBand P 0 0 = 0 := by unfold clampBand; omega
  show DState P c B ex E E 0
    (relax P 0 ex (clampBand P 0 0) (clampBand P ex ey)
      (seedLeft P 0 (clampBand P 0 0)
        (seedBottom P 0
          (upd (initNodes P c 0 ex (clampBand P 0 0) (clampBand P ex ey) freshTable)
            (0 + clampBand P 0 0 * P.X)
            { initNodes P c 0 ex (clampBand P 0 0) (clampBand P ex ey) freshTable
                (0 + clampBand P 0 0 * P.X) with cost := 0 }))))
  rw [h00, hEdef]
  rw [seedBottom_zero_eq, seedLeft_zero_eq]
  have hpre := preSeed_facts P c ex E hex0 hexX hE0 _ rfl
  have hbot := seedBottom_facts P c B ex E hex0 hexX hE0 hlR0 hlRX hrR0 hcB _
    hpre P.leftRange.toNat P.leftRange (by omega) le_rfl
  have hleft := seedLeft_facts P c B ex E hex0 hexX hlR0 hcB _ hbot
    P.rightRange.toNat P.rightRange (by omega) le_rfl
  have hseed := seeded_DState P c B ex E hex0 hexX hE0 hlR0 hrR0 _ hleft
  rw [show relax P 0 ex 0 E
      (intFold 1 P.rightRange (seedLStep P)
        (intFold 1 P.leftRange seedBStep
          (upd (initNodes P c 0 ex 0 E freshTable) (0 + 0 * P.X)
            { initNodes P c 0 ex 0 E freshTable (0 + 0 * P.X) with cost := 0 }))) =
    intFold 1 E (relaxRow P 0 ex)
      (intFold 1 P.rightRange (seedLStep P)
        (intFold 1 P.leftRange seedBStep
          (upd (initNodes P c 0 ex 0 E freshTable) (0 + 0 * P.X)
            { initNodes P c 0 ex 0 E freshTable (0 + 0 * P.X) with cost := 0 })))
    from by unfold relax; norm_num]
  exact relax_est P c B ex E hex0 hexX hlR0 hrR0 hE0 hcB hB0 hMC _ hseed
    E.toNat E (by omega) le_rfl

/-- If every region cell's recorded direction points to a predecessor inside
the region, the backtrace of a full-table call never leaves the region. -/
theorem backtraceWrites_in_region (P : Params) (t : Table) (ex E : ℤ)
    (hexX : ex < P.X)
    (hdir : ∀ a b : ℤ, 0 ≤ a → a < P.X → 0 ≤ b → Rgn P ex E a b →
      ¬(a = 0 ∧ b = 0) →
      DirPredOK P ex E a b ((t (a + b * P.X)).selectedPathDir)) :
    ∀ (fuel : ℕ) (iX iY : ℤ), Rgn P ex E iX iY →
      ∀ p ∈ backtraceWrites P t 0 0 fuel iX iY, Rgn P ex E p.1 p.2 := by
  intro fuel
  induction fuel with
  | zero => intro iX iY hR p hp; simp [backtraceWrites] at hp
  | succ f ih =>
    intro iX iY hR p hp
    by_cases hg : (0 : ℤ) < iX ∨ (0 : ℤ) < iY
    · rw [backtraceWrites, if_pos hg] at hp
      have hne : ¬(iX = 0 ∧ iY = 0) := by omega
      have hd := hdir iX iY hR.1 (by have := hR.2.1; omega) hR.2.2.1 hR hne
      rcases List.mem_cons.mp hp with hphead | hptail
      · subst hphead
        exact hR
      · rcases hd with ⟨hdv, hRv⟩ | ⟨hdh, hRh⟩ | ⟨hdd, hRd⟩
        · rw [hdv] at hptail
          exact ih iX (iY - 1) hRv p hptail
        · rw [hdh] at hptail
          exact ih (iX - 1) iY hRh p hptail
        · rw [hdd] at hptail
          exact ih (iX - 1) (iY - 1) hRd p hptail
    · rw [backtraceWrites_guard_false P t 0 0 _ iX iY hg] at hp
      simp at hp


/-! ## C5: the identity case of the stereo variant -/

/-- In a `DState`, every cell of the clipped rectangle has a nonnegative
accumulated cost. -/
theorem DState_cost_nonneg (P : Params) (c : Costs) (B : ℚ) (ex E r k : ℤ)
    (tb : Table) (hD : DState P c B ex E r k tb) :
    ∀ a b : ℤ, 0 ≤ a → a < P.X → 0 ≤ b → a ≤ ex → b ≤ E →
      0 ≤ (tb (a + b * P.X)).cost := by
  intro a b ha0 haX hb0 hae hbE
  obtain ⟨-, hsrc, hdone, hnd⟩ := hD a b ha0 haX hb0
  by_cases h00 : a = 0 ∧ b = 0
  · rw [hsrc h00]
  · by_cases hDn : Done P ex E r k a b
    · exact (hdone hDn).1
    · rw [hnd hDn h00 hae hbE]
      exact le_of_lt MAX_COST_pos

/-- With `rightRange = 0` every relaxed row starts at its diagonal cell,
whose diagonal candidate is exactly the diagonal path cost plus the previous
diagonal cell; if the cost function vanishes on the diagonal, the minimum is
`0` and the diagonal direction is recorded (the `if` tests the diagonal
first).  The relaxation therefore keeps, next to the band invariant, the
invariant that every processed diagonal cell has accumulated cost `0` and
direction `DIAGONAL`. -/
theorem relax_diag_est (P : Params) (c : Costs) (B : ℚ) (ex : ℤ)
    (hrR : P.rightRange = 0)
    (hex0 : 0 ≤ ex) (hexX : ex < P.X) (hlR0 : 0 ≤ P.leftRange)
    (hcB : ∀ a b : ℤ, 0 ≤ (c a b).1 ∧ (c a b).1 ≤ B ∧ 0 ≤ (c a b).2.1 ∧
      (c a b).2.1 ≤ B ∧ 0 ≤ (c a b).2.2 ∧ (c a b).2.2 ≤ B)
    (hB0 : 0 ≤ B) (hMC : ((ex + ex : ℤ) : ℚ) * B < MAX_COST)
    (hdiagc : ∀ k : ℤ, (c k k).2.2 = 0)
    (t : Table) (hD0 : DState P c B ex ex 0 0 t) :
    ∀ (n : ℕ) (r : ℤ), r + 1 ≤ 1 + (n : ℤ) → r ≤ ex →
      DState P c B ex ex r 0 (intFold 1 r (relaxRow P 0 ex) t) ∧
      (∀ k : ℤ, 0 ≤ k → k ≤ r →
        (intFold 1 r (relaxRow P 0 ex) t (k + k * P.X)).cost = 0 ∧
        (1 ≤ k → (intFold 1 r (relaxRow P 0 ex) t
          (k + k * P.X)).selectedPathDir = PathDir.diagonal)) := by
  intro n
  induction n with
  | zero =>
    intro r hr hrE
    rw [intFold_of_lt (by omega)]
    refine ⟨DState_transfer P c B ex ex 0 0 r 0 t hD0
      (fun x y hx0 hxX hy0 => by unfold Done Rgn; omega), ?_⟩
    intro k hk0 hkr
    have hk : k = 0 := by omega
    subst hk
    obtain ⟨-, hsrc, -, -⟩ := hD0 0 0 le_rfl (by omega) le_rfl
    exact ⟨hsrc ⟨rfl, rfl⟩, fun h1 => absurd h1 (by omega)⟩
  | succ m ih =>
    intro r hr hrE
    rcases lt_or_le r 1 with hr1 | hr1
    · rw [intFold_of_lt (by omega)]
      refine ⟨DState_transfer P c B ex ex 0 0 r 0 t hD0
        (fun x y hx0 hxX hy0 => by unfold Done Rgn; omega), ?_⟩
      intro k hk0 hkr
      have hk : k = 0 := by omega
      subst hk
      obtain ⟨-, hsrc, -, -⟩ := hD0 0 0 le_rfl (by omega) le_rfl
      exact ⟨hsrc ⟨rfl, rfl⟩, fun h1 => absurd h1 (by omega)⟩
    · rw [intFold_last hr1]
      obtain ⟨hDS', hdiag'⟩ := ih (r - 1) (by omega) (by omega)
      constructor
      · -- the band invariant, exactly as in the main relaxation lemma
        rw [show relaxRow P 0 ex (intFold 1 (r - 1) (relaxRow P 0 ex) t) r =
          intFold (max 1 (r - P.rightRange)) (min ex (r + P.leftRange))
            (relaxCell P r) (intFold 1 (r - 1) (relaxRow P 0 ex) t) from by
              unfold relaxRow; norm_num]
        have hrow := relaxRow_est P c B ex ex r (r - 1) (by ring) hex0 hexX hlR0
          (by omega) (by omega) (by omega) hcB hB0 hMC
          (intFold 1 (r - 1) (relaxRow P 0 ex) t) hDS'
          (min ex (r + P.leftRange) + 1 - max 1 (r - P.rightRange)).toNat
          (min ex (r + P.leftRange)) (by omega) le_rfl
        exact DState_transfer P c B ex ex (r - 1) (min ex (r + P.leftRange)) r 0 _
          hrow (fun x y hx0 hxX hy0 => by unfold Done Rgn; omega)
      · -- the diagonal invariant
        intro k hk0 hkr
        rcases lt_or_le k r with hklt | hkge
        · -- cells below the new row are untouched by it
          have hframe : relaxRow P 0 ex (intFold 1 (r - 1) (relaxRow P 0 ex) t) r
              (k + k * P.X) =
              intFold 1 (r - 1) (relaxRow P 0 ex) t (k + k * P.X) := by
            unfold relaxRow
            refine @intFold_invariant Table
              (fun tb => tb (k + k * P.X) =
                intFold 1 (r - 1) (relaxRow P 0 ex) t (k + k * P.X))
              (max (0 + 1) (r - P.rightRange)) (min ex (r + P.leftRange))
              (relaxCell P r) _ rfl ?_
            intro st i hi1 hi2 hst
            rw [relaxCell_eq]
            rw [upd_other]
            · exact hst
            · intro hcon
              have := cellIndex_inj (by omega) (by omega) (by omega) (by omega) hcon
              omega
          rw [hframe]
          exact hdiag' k hk0 (by omega)
        · -- the new diagonal cell: first cell of the row
          have hkr' : k = r := by omega
          subst hkr'
          rw [show relaxRow P 0 ex (intFold 1 (k - 1) (relaxRow P 0 ex) t) k =
            intFold k (min ex (k + P.leftRange)) (relaxCell P k)
              (intFold 1 (k - 1) (relaxRow P 0 ex) t) from by
                unfold relaxRow
                rw [show max (0 + 1) (k - P.rightRange) = k from by omega]]
          rw [intFold_head (show k ≤ min ex (k + P.leftRange) from by omega)]
          -- the rest of the row does not touch the diagonal cell
          have hframe2 : intFold (k + 1) (min ex (k + P.leftRange)) (relaxCell P k)
              (relaxCell P k (intFold 1 (k - 1) (relaxRow P 0 ex) t) k)
              (k + k * P.X) =
              relaxCell P k (intFold 1 (k - 1) (relaxRow P 0 ex) t) k
                (k + k * P.X) := by
            refine @intFold_invariant Table
              (fun tb => tb (k + k * P.X) =
                relaxCell P k (intFold 1 (k - 1) (relaxRow P 0 ex) t) k
                  (k + k * P.X))
              (k + 1) (min ex (k + P.leftRange)) (relaxCell P k) _ rfl ?_
            intro st i hi1 hi2 hst
            rw [relaxCell_eq]
            rw [upd_other]
            · exact hst
            · intro hcon
              have := cellIndex_inj (by omega) (by omega) (by omega) (by omega) hcon
              omega
          rw [hframe2]
          -- evaluate the cell
          have hRkk : Rgn P ex ex k k := by unfold Rgn; omega
          obtain ⟨hpcK, -, -, -⟩ := hDS' k k (by omega) (by omega) (by omega)
          obtain ⟨hvK, hhK, hdK⟩ := hpcK hRkk
          have hdprev : (intFold 1 (k - 1) (relaxRow P 0 ex) t
              ((k - 1) + (k - 1) * P.X)).cost = 0 :=
            (hdiag' (k - 1) (by omega) le_rfl).1
          have hd0 : dCand P k (intFold 1 (k - 1) (relaxRow P 0 ex) t) k = 0 := by
            unfold dCand
            rw [hdK, hdiagc, hdprev]
            norm_num
          have hnn := DState_cost_nonneg P c B ex ex (k - 1) 0 _ hDS'
          have hv0 : 0 ≤ vCand P k (intFold 1 (k - 1) (relaxRow P 0 ex) t) k := by
            unfold vCand
            rw [hvK]
            exact add_nonneg (hcB k k).1
              (hnn k (k - 1) (by omega) (by omega) (by omega) (by omega) (by omega))
          have hh0 : 0 ≤ hCand P k (intFold 1 (k - 1) (relaxRow P 0 ex) t) k := by
            unfold hCand
            rw [hhK]
            exact add_nonneg (hcB k k).2.2.1
              (hnn (k - 1) k (by omega) (by omega) (by omega) (by omega) (by omega))
          have hmeq : mVal P k (intFold 1 (k - 1) (relaxRow P 0 ex) t) k =
              dCand P k (intFold 1 (k - 1) (relaxRow P 0 ex) t) k := by
            have hle : mVal P k (intFold 1 (k - 1) (relaxRow P 0 ex) t) k ≤
                dCand P k (intFold 1 (k - 1) (relaxRow P 0 ex) t) k :=
              min_le_right _ _
            have hge : 0 ≤ mVal P k (intFold 1 (k - 1) (relaxRow P 0 ex) t) k :=
              le_min (le_min hv0 hh0) (by rw [hd0])
            rw [hd0] at hle ⊢
            exact le_antisymm hle hge
          have hdirD : mDir P k (intFold 1 (k - 1) (relaxRow P 0 ex) t) k =
              PathDir.diagonal := by
            unfold mDir
            rw [if_pos hmeq]
          rw [relaxCell_eq, upd_self]
          refine ⟨?_, fun _ => hdirD⟩
          show mVal P k (intFold 1 (k - 1) (relaxRow P 0 ex) t) k = 0
          rw [hmeq, hd0]

/-- On a fresh table, a full-table call with `rightRange = 0` and a cost
function vanishing on the diagonal records the DIAGONAL direction at every
diagonal cell `(k, k)`, `k ≥ 1`. -/
theorem matchingTable_diag (P : Params) (c : Costs) (B : ℚ) (ex : ℤ)
    (hrR : P.rightRange = 0)
    (hex0 : 0 ≤ ex) (hexX : ex < P.X)
    (hlR0 : 0 ≤ P.leftRange) (hlRX : P.leftRange < P.X)
    (hcB : ∀ a b : ℤ, 0 ≤ (c a b).1 ∧ (c a b).1 ≤ B ∧ 0 ≤ (c a b).2.1 ∧
      (c a b).2.1 ≤ B ∧ 0 ≤ (c a b).2.2 ∧ (c a b).2.2 ≤ B)
    (hMC : ((ex + ex : ℤ) : ℚ) * B < MAX_COST)
    (hdiagc : ∀ k : ℤ, (c k k).2.2 = 0) :
    ∀ k : ℤ, 1 ≤ k → k ≤ ex →
      (MatchingTable P c 0 0 ex ex freshTable (k + k * P.X)).selectedPathDir =
        PathDir.diagonal := by
  have hB0 : 0 ≤ B := le_trans (hcB 0 0).1 (hcB 0 0).2.1
  have h00 : clampBand P 0 0 = 0 := by unfold clampBand; omega
  have hE : clampBand P ex ex = ex := by unfold clampBand; omega
  intro k hk1 hke
  show (relax P 0 ex (clampBand P 0 0) (clampBand P ex ex)
      (seedLeft P 0 (clampBand P 0 0)
        (seedBottom P 0
          (upd (initNodes P c 0 ex (clampBand P 0 0) (clampBand P ex ex) freshTable)
            (0 + clampBand P 0 0 * P.X)
            { initNodes P c 0 ex (clampBand P 0 0) (clampBand P ex ex) freshTable
                (0 + clampBand P 0 0 * P.X) with cost := 0 })))
      (k + k * P.X)).selectedPathDir = PathDir.diagonal
  rw [h00, hE]
  rw [seedBottom_zero_eq, seedLeft_zero_eq]
  have hpre := preSeed_facts P c ex ex hex0 hexX hex0 _ rfl
  have hbot := seedBottom_facts P c B ex ex hex0 hexX hex0 hlR0 hlRX (by omega)
    hcB _ hpre P.leftRange.toNat P.leftRange (by omega) le_rfl
  have hleft := seedLeft_facts P c B ex ex hex0 hexX hlR0 hcB _ hbot
    P.rightRange.toNat P.rightRange (by omega) le_rfl
  have hseed := seeded_DState P c B ex ex hex0 hexX hex0 hlR0 (by omega) _ hleft
  rw [show relax P 0 ex 0 ex
      (intFold 1 P.rightRange (seedLStep P)
        (intFold 1 P.leftRange seedBStep
          (upd (initNodes P c 0 ex 0 ex freshTable) (0 + 0 * P.X)
            { initNodes P c 0 ex 0 ex freshTable (0 + 0 * P.X) with cost := 0 }))) =
    intFold 1 ex (relaxRow P 0 ex)
      (intFold 1 P.rightRange (seedLStep P)
        (intFold 1 P.leftRange seedBStep
          (upd (initNodes P c 0 ex 0 ex freshTable) (0 + 0 * P.X)
            { initNodes P c 0 ex 0 ex freshTable (0 + 0 * P.X) with cost := 0 })))
    from by unfold relax; norm_num]
  exact ((relax_diag_est P c B ex hrR hex0 hexX hlR0 hcB hB0 hMC hdiagc _ hseed
    ex.toNat ex (by omega) le_rfl).2 k (by omega) hke).2 hk1

/-- Replaying the backtrace of a table whose diagonal directions are all
DIAGONAL, starting on the diagonal, writes exactly `mp[j] = j` for
`1 ≤ j ≤ k` and nothing else. -/
theorem diag_backtrace_apply (P : Params) (t : Table) (ex : ℤ)
    (hdiag : ∀ k : ℤ, 1 ≤ k → k ≤ ex →
      (t (k + k * P.X)).selectedPathDir = PathDir.diagonal) :
    ∀ (f : ℕ) (k : ℤ), 0 ≤ k → k ≤ ex → k < (f : ℤ) →
      ∀ (mp : ℤ → ℤ) (j : ℤ),
        applyWrites (backtraceWrites P t 0 0 f k k) mp j =
          if 1 ≤ j ∧ j ≤ k then j else mp j := by
  intro f
  induction f with
  | zero =>
    intro k hk0 hke hkf
    exact absurd hkf (by omega)
  | succ m ih =>
    intro k hk0 hke hkf mp j
    rcases lt_or_le 0 k with hk1 | hk1'
    · rw [backtraceWrites, if_pos (Or.inl hk1)]
      rw [hdiag k hk1 hke]
      rw [applyWrites_cons]
      show applyWrites (backtraceWrites P t 0 0 m (k - 1) (k - 1))
        (fun j' => if j' = k then k else mp j') j =
          if 1 ≤ j ∧ j ≤ k then j else mp j
      rw [ih (k - 1) (by omega) (by omega) (by omega)
        (fun j' => if j' = k then k else mp j') j]
      split_ifs <;> first | rfl | omega
    · have hk0' : k = 0 := by omega
      subst hk0'
      rw [backtraceWrites_guard_false P t 0 0 _ 0 0 (by omega)]
      rw [applyWrites_nil]
      rw [if_neg (by omega)]

/-- C5: identity case.  For a full-table call of the stereo engine shape
(`rightRange = 0`, `leftRange = maxDisparity ≥ 0`) on a fresh table, with
nonnegative bounded path costs whose diagonal component vanishes on the
diagonal (as when input = reference, where the local distance at `(k, k)` is
`0`), the backtrace follows the zero-cost diagonal: `MatchPattern[x] = x` for
every `1 ≤ x ≤ X - 1`, while `MatchPattern[0]` is never written and keeps its
previous value (`-1` in the engine) — the identity does NOT extend to
`x = 0`. -/
theorem matchPattern_identity (P : Params) (c : Costs) (B : ℚ) (fuel : ℕ)
    (mp : ℤ → ℤ) (x : ℤ)
    (hrR : P.rightRange = 0) (hlR0 : 0 ≤ P.leftRange) (hlRX : P.leftRange < P.X)
    (hX1 : 1 ≤ P.X)
    (hcB : ∀ a b : ℤ, 0 ≤ (c a b).1 ∧ (c a b).1 ≤ B ∧ 0 ≤ (c a b).2.1 ∧
      (c a b).2.1 ≤ B ∧ 0 ≤ (c a b).2.2 ∧ (c a b).2.2 ≤ B)
    (hdiagc : ∀ k : ℤ, (c k k).2.2 = 0)
    (hMC : ((P.X - 1 + (P.X - 1) : ℤ) : ℚ) * B < MAX_COST)
    (hfuel : P.X - 1 < (fuel : ℤ))
    (hx1 : 1 ≤ x) (hxe : x ≤ P.X - 1) :
    (Matching P c 0 0 (P.X - 1) (P.X - 1) fuel freshTable mp).2 x = x ∧
    (Matching P c 0 0 (P.X - 1) (P.X - 1) fuel freshTable mp).2 0 = mp 0 := by
  have hdiagT := matchingTable_diag P c B (P.X - 1) hrR (by omega) (by omega)
    hlR0 hlRX hcB hMC hdiagc
  have h00 : clampBand P 0 0 = 0 := by unfold clampBand; omega
  have hEE : clampBand P (P.X - 1) (P.X - 1) = P.X - 1 := by
    unfold clampBand; omega
  have hM2 : (Matching P c 0 0 (P.X - 1) (P.X - 1) fuel freshTable mp).2 =
      applyWrites (MatchingWrites P c 0 0 (P.X - 1) (P.X - 1) fuel freshTable)
        mp := rfl
  have hW : MatchingWrites P c 0 0 (P.X - 1) (P.X - 1) fuel freshTable =
      backtraceWrites P (MatchingTable P c 0 0 (P.X - 1) (P.X - 1) freshTable)
        0 0 fuel (P.X - 1) (P.X - 1) := by
    unfold MatchingWrites
    rw [h00, hEE]
  have happ := diag_backtrace_apply P
    (MatchingTable P c 0 0 (P.X - 1) (P.X - 1) freshTable) (P.X - 1) hdiagT
    fuel (P.X - 1) (by omega) le_rfl hfuel mp
  constructor
  · rw [hM2, hW, happ x, if_pos ⟨hx1, hxe⟩]
  · rw [hM2, hW, happ 0, if_neg (by omega)]

theorem matchPattern_identity_witness :
    (Matching P22 zeroCosts 0 0 (P22.X - 1) (P22.X - 1) 8 freshTable
      (fun _ => -1)).2 1 = 1 ∧
    (Matching P22 zeroCosts 0 0 (P22.X - 1) (P22.X - 1) 8 freshTable
      (fun _ => -1)).2 0 = (fun _ => (-1 : ℤ)) 0 :=
  matchPattern_identity P22 zeroCosts 0 8 (fun _ => -1) 1 (by decide) (by decide)
    (by decide) (by decide)
    (fun _ _ => ⟨le_rfl, le_rfl, le_rfl, le_rfl, le_rfl, le_rfl⟩)
    (fun _ => rfl)
    (by rw [mul_zero]; exact MAX_COST_pos)
    (by decide) (by decide) (by decide)

/-- C5 counterexample: the claim's own 2×2 identity check fails at `x = 0`.
With the all-black 2×2 pair the stereo costs are identically `0` and the
engine parameters are `X = 2`, `leftRange = maxDisparity = 1`,
`rightRange = 0`; the full-table call writes only `MatchPattern[1] = 1` and
leaves `MatchPattern[0] = -1`, not the claimed `MatchPattern[0] = [0, 1]`. -/
theorem matchPattern_identity_cex :
    (Matching P22 zeroCosts 0 0 1 1 8 freshTable (fun _ => -1)).2 0 = -1 ∧
    (Matching P22 zeroCosts 0 0 1 1 8 freshTable (fun _ => -1)).2 1 = 1 ∧
    ((-1 : ℤ) ≠ 0) := by
  refine ⟨?_, ?_, by decide⟩
  · with_unfolding_all rfl
  · with_unfolding_all rfl

/-! ## C2: scheduling of the coarse and refine passes

`DPM::DP` (lines 83-93) enqueues the coarse `Matching` tasks and calls
`SkipDP(skip/2)` immediately — there is no `ThreadPool::Join` between the
passes, so a refine task and the coarse task it reads from can execute in
either order.  We model executions of the pool at task granularity: a run is
a fold of the tasks over the shared `matchPatterns` state. -/

/-- The `sqrt(r*r+g*g+b*b)/255.0` of `DPMS::CalcCost`'s local `norm` lambda
(lines 77-82); `sqrtf` is the square-root oracle. -/
def DPMS.norm (sqrtf : ℚ → ℚ) (input refer : Image) (x y column : ℤ) : ℚ :=
  let r : ℚ := (((input x column).r - (refer y column).r : ℤ) : ℚ)
  let g : ℚ := (((input x column).g - (refer y column).g : ℤ) : ℚ)
  let b : ℚ := (((input x column).b - (refer y column).b : ℤ) : ℚ)
  sqrtf (r * r + g * g + b * b) / 255

/-- The downward edge-growing loop of `DPMS::CalcCost` (lines 91-95):
accumulates `(sum of norms, number of rows added)` while the guard holds. -/
def DPMS.sumDown (sqrtf : ℚ → ℚ) (input refer edge : Image) (H rw : ℤ)
    (x y column : ℤ) : ℕ → ℤ → ℚ × ℤ
  | 0, _ => (0, 0)
  | n + 1, i =>
    if column + i < H ∧ (edge x (column + i)).g ≠ 0 ∧ i < rw then
      let rest := DPMS.sumDown sqrtf input refer edge H rw x y column n (i + 1)
      (DPMS.norm sqrtf input refer x y (column + i) + rest.1, 1 + rest.2)
    else (0, 0)

/-- The upward edge-growing loop of `DPMS::CalcCost` (lines 98-102). -/
def DPMS.sumUp (sqrtf : ℚ → ℚ) (input refer edge : Image) (rw : ℤ)
    (x y column : ℤ) : ℕ → ℤ → ℚ × ℤ
  | 0, _ => (0, 0)
  | n + 1, i =>
    if 0 ≤ column - i ∧ (edge x (column - i)).g ≠ 0 ∧ i < rw then
      let rest := DPMS.sumUp sqrtf input refer edge rw x y column n (i + 1)
      (DPMS.norm sqrtf input refer x y (column - i) + rest.1, 1 + rest.2)
    else (0, 0)

/-- `DPMS::CalcCost` (lines 75-106): the mean of the norms over the target
row and the edge-grown window (`row_width` bounds each direction). -/
def DPMS.CalcCost (sqrtf : ℚ → ℚ) (input refer edge : Image) (H rw : ℤ)
    (x y column skip : ℤ) : ℚ :=
  let down := DPMS.sumDown sqrtf input refer edge H rw x y column rw.toNat 1
  let up := DPMS.sumUp sqrtf input refer edge rw x y column rw.toNat 1
  (DPMS.norm sqrtf input refer x y column + down.1 + up.1) /
    ((1 + down.2 + up.2 : ℤ) : ℚ)

/-- `DPMS::diagonalCost` (lines 115-118): `weight * cost * cost`. -/
def DPMS.diagonalCost (weight cost : ℚ) : ℚ := weight * cost * cost

/-- The per-cell cost triple a stereo `Matching` call uses: the base class's
identity vertical/horizontal costs and the stereo diagonal cost. -/
def stereoCosts (sqrtf : ℚ → ℚ) (input refer edge : Image) (H rw : ℤ)
    (weight : ℚ) (column skip : ℤ) : Costs :=
  fun x y =>
    (DPM.verticalCost x y column
        (DPMS.CalcCost sqrtf input refer edge H rw x y column skip),
     DPM.horizontalCost x y column
        (DPMS.CalcCost sqrtf input refer edge H rw x y column skip),
     DPMS.diagonalCost weight
        (DPMS.CalcCost sqrtf input refer edge H rw x y column skip))

theorem stereoCosts_black (sqrtf : ℚ → ℚ) (hsq : sqrtf 0 = 0) (H rw : ℤ)
    (weight : ℚ) (column skip : ℤ) :
    stereoCosts sqrtf blackImg blackImg blackImg H rw weight column skip =
      zeroCosts := by
  have hnorm : ∀ x y c : ℤ, DPMS.norm sqrtf blackImg blackImg x y c = 0 := by
    intro x y c
    unfold DPMS.norm blackImg
    norm_num [hsq]
  have hdown : ∀ (x y : ℤ) (n : ℕ) (i : ℤ),
      DPMS.sumDown sqrtf blackImg blackImg blackImg H rw x y column n i =
        (0, 0) := by
    intro x y n i
    cases n with
    | zero => rfl
    | succ m =>
      rw [DPMS.sumDown, if_neg]
      rintro ⟨-, hg, -⟩
      exact hg rfl
  have hup : ∀ (x y : ℤ) (n : ℕ) (i : ℤ),
      DPMS.sumUp sqrtf blackImg blackImg blackImg rw x y column n i =
        (0, 0) := by
    intro x y n i
    cases n with
    | zero => rfl
    | succ m =>
      rw [DPMS.sumUp, if_neg]
      rintro ⟨-, hg, -⟩
      exact hg rfl
  funext x y
  unfold stereoCosts DPMS.CalcCost DPM.verticalCost DPM.horizontalCost
    DPMS.diagonalCost zeroCosts
  rw [hdown, hup, hnorm]
  norm_num

/-- The shared `matchPatterns` state: `mps column iX`. -/
def MPS := ℤ → ℤ → ℤ

def updMPS (mps : MPS) (c x v : ℤ) : MPS :=
  fun c2 x2 => if c2 = c ∧ x2 = x then v else mps c2 x2

/-- One sequentially consistent execution of a set of pool tasks: the tasks
run one after the other in the given order (any order is realisable since
`DPM::DP` performs no join between enqueuing the passes). -/
def runTasks (ts : List (MPS → MPS)) (mps : MPS) : MPS :=
  ts.foldl (fun m t => t m) mps

/-- A coarse-pass task of `DPM::DP` (lines 85-90): a full-table `Matching`
on `matchPatterns[column]`, on the worker's own (fresh) table. -/
def coarseTask (P : Params) (c : Costs) (ex ey : ℤ) (fuel : ℕ) (column : ℤ)
    (mps : MPS) : MPS :=
  fun col => if col = column then
    (Matching P c 0 0 ex ey fuel freshTable (mps column)).2
  else mps col

/-- The `ex` lambda of `DPM::SkipDP` (lines 168-177): the first `jX > iX`
where the two neighbour patterns agree, else `X - 1`. -/
def findEx (mps : MPS) (prevC nextC X : ℤ) : ℕ → ℤ → ℤ
  | 0, _ => X - 1
  | n + 1, jX =>
    if jX < X then
      if mps prevC jX = mps nextC jX then jX
      else findEx mps prevC nextC X n (jX + 1)
    else X - 1

/-- The per-column loop of a refine task of `DPM::SkipDP` (lines 157-182),
reading `prev`/`next`/`current` live (they are references into
`matchPatterns`; `next` aliases `current` at the top edge).  The interior
`Matching` call runs on the worker's current table and jumps `iX` to `ex`. -/
def refineSteps (P : Params) (c : Costs) (ey : ℤ) (fuel : ℕ) (H X i skip : ℤ) :
    ℕ → ℤ → Table × MPS → Table × MPS
  | 0, _, st => st
  | n + 1, iX, st =>
    if iX < X then
      let prevC := max (i - skip) 0
      let nextC := min (i + skip) (H - 1)
      if |(|st.2 prevC iX - iX|) - (|st.2 nextC iX - iX|)| < 5 then
        refineSteps P c ey fuel H X i skip n (iX + 1)
          (st.1, updMPS st.2 i iX (st.2 prevC iX))
      else
        let sx := max 0 (iX - 1)
        let ex := findEx st.2 prevC nextC X X.toNat (iX + 1)
        let res := Matching P c sx 0 ex ey fuel st.1 (st.2 i)
        refineSteps P c ey fuel H X i skip n (ex + 1)
          (res.1, fun col => if col = i then res.2 else st.2 col)
    else st

/-- A refine-pass task of `DPM::SkipDP` for scanline `i`, run on a worker
whose table is `t0`. -/
def refineTask (P : Params) (c : Costs) (ey : ℤ) (fuel : ℕ) (H X i skip : ℤ)
    (t0 : Table) (mps : MPS) : MPS :=
  (refineSteps P c ey fuel H X i skip (X.toNat + 1) 0 (t0, mps)).2

/-- The 2×2 all-black stereo run `DP(2, 1)`: the coarse pass handles
scanline 0, the refine pass `SkipDP(1)` handles scanline 1. -/
def cexSchedA (sqrtf : ℚ → ℚ) : MPS :=
  runTasks
    [coarseTask P22 (stereoCosts sqrtf blackImg blackImg blackImg 2 4 13 0 2)
      1 1 8 0,
     refineTask P22 (stereoCosts sqrtf blackImg blackImg blackImg 2 4 13 1 1)
      1 8 2 2 1 1 freshTable]
    (fun _ _ => -1)

/-- The same two tasks executed in the other order (the pool may run the
refine task first: nothing orders it after the coarse task). -/
def cexSchedB (sqrtf : ℚ → ℚ) : MPS :=
  runTasks
    [refineTask P22 (stereoCosts sqrtf blackImg blackImg blackImg 2 4 13 1 1)
      1 8 2 2 1 1 freshTable,
     coarseTask P22 (stereoCosts sqrtf blackImg blackImg blackImg 2 4 13 0 2)
      1 1 8 0]
    (fun _ _ => -1)

/-- C2: the matcher is NOT schedule-independent.  On the 2×2 all-black
stereo input with `DP(skip = 2, maxDisparity = 1)`, running the coarse task
before the refine task yields `MatchPattern[1][1] = 1`, while running the
refine task first (possible, since `DPM::DP` enqueues `SkipDP`'s tasks with
no intervening join) yields `MatchPattern[1][1] = -1`: the refine pass reads
neighbour scanlines that the coarse pass has not yet written. -/
theorem dp_missing_join_divergence (sqrtf : ℚ → ℚ) (hsq : sqrtf 0 = 0) :
    cexSchedA sqrtf 1 1 = 1 ∧ cexSchedB sqrtf 1 1 = -1 ∧ ((1 : ℤ) ≠ -1) := by
  have hc : ∀ column skip : ℤ,
      stereoCosts sqrtf blackImg blackImg blackImg 2 4 13 column skip =
        zeroCosts := fun column skip => stereoCosts_black sqrtf hsq 2 4 13 column skip
  unfold cexSchedA cexSchedB
  rw [hc, hc]
  refine ⟨?_, ?_, by decide⟩
  · with_unfolding_all rfl
  · with_unfolding_all rfl

theorem dp_missing_join_divergence_witness :
    cexSchedA (fun _ => 0) 1 1 = 1 ∧ cexSchedB (fun _ => 0) 1 1 = -1 ∧
      ((1 : ℤ) ≠ -1) :=
  dp_missing_join_divergence (fun _ => 0) rfl

/-! ## C3 (general): the band invariant for arbitrary calls on reused tables

`DPM::DP` and `DPM::SkipDP` always call `Matching` with `sy = 0`; the call
clamps it to `sy' = max(sx - leftRange, 0)`.  We show that the *strip
invariant* below holds for a fresh table, is preserved by every call
(arbitrary `sx`, on an arbitrary table satisfying it), and forces every
match-pattern write of every call to satisfy the band constraint. -/

/-- Accumulated costs of cells outside the strip `-leftRange ≤ y - x ≤
rightRange` are still `MAX_COST` and their directions are still unset. -/
def OutBandMax (P : Params) (t : Table) : Prop :=
  ∀ x y : ℤ, 0 ≤ x → x < P.X → 0 ≤ y →
    ¬(-P.leftRange ≤ y - x ∧ y - x ≤ P.rightRange) →
    (t (x + y * P.X)).cost = MAX_COST ∧
    (t (x + y * P.X)).selectedPathDir = PathDir.none

/-- Every set direction points at a cell inside the strip with nonnegative
coordinates. -/
def DirOK (P : Params) (t : Table) : Prop :=
  ∀ x y : ℤ, 0 ≤ x → x < P.X → 0 ≤ y →
    ((t (x + y * P.X)).selectedPathDir = PathDir.vertical →
      1 ≤ y ∧ -P.leftRange ≤ y - 1 - x ∧ y - 1 - x ≤ P.rightRange) ∧
    ((t (x + y * P.X)).selectedPathDir = PathDir.horizontal →
      1 ≤ x ∧ -P.leftRange ≤ y - (x - 1) ∧ y - (x - 1) ≤ P.rightRange) ∧
    ((t (x + y * P.X)).selectedPathDir = PathDir.diagonal →
      1 ≤ x ∧ 1 ≤ y ∧ -P.leftRange ≤ y - x ∧ y - x ≤ P.rightRange)

/-- The strip invariant of a worker's DP table between `Matching` calls. -/
def StripOK (P : Params) (t : Table) : Prop :=
  OutBandMax P t ∧ DirOK P t

theorem StripOK_fresh (P : Params) : StripOK P freshTable := by
  constructor
  · intro x y _ _ _ _
    exact ⟨rfl, rfl⟩
  · intro x y _ _ _
    refine ⟨?_, ?_, ?_⟩ <;> (intro h; exact PathDir.noConfusion h)

/-- General-`sx` characterisation of the node-initialisation loop. -/
theorem initNodes_char_gen (P : Params) (c : Costs) (sx ex : ℤ)
    (hsx0 : 0 ≤ sx) (hex : ex < P.X) :
    ∀ (n : ℕ) (ya yb : ℤ), yb + 1 ≤ ya + (n : ℤ) → 0 ≤ ya →
    ∀ (t : Table) (x y : ℤ), 0 ≤ x → x < P.X → 0 ≤ y →
      intFold ya yb (initRow P c sx ex) t (x + y * P.X) =
        if ya ≤ y ∧ y ≤ yb ∧ max sx (y - P.rightRange) ≤ x ∧
            x ≤ min ex (y + P.leftRange) then
          { t (x + y * P.X) with
            verticalPathCost := (c x y).1
            horizontalPathCost := (c x y).2.1
            diagonalPathCost := (c x y).2.2 }
        else t (x + y * P.X) := by
  intro n
  induction n with
  | zero =>
    intro ya yb hn hya t x y hx0 hxX hy0
    rw [intFold_of_lt (by omega), if_neg (by omega)]
  | succ m ih =>
    intro ya yb hn hya t x y hx0 hxX hy0
    rcases lt_or_le yb ya with hba | hab
    · rw [intFold_of_lt hba, if_neg (by omega)]
    · rw [intFold_last hab]
      show intFold (max sx (yb - P.rightRange)) (min ex (yb + P.leftRange))
        (initCell P c yb) (intFold ya (yb - 1) (initRow P c sx ex) t)
        (x + y * P.X) = _
      have hrow := initFold_char P c yb (by omega)
        (min ex (yb + P.leftRange) + 1 - max sx (yb - P.rightRange)).toNat
        (max sx (yb - P.rightRange)) (min ex (yb + P.leftRange)) (by omega)
        (by omega) (by omega)
        (intFold ya (yb - 1) (initRow P c sx ex) t) x y hx0 hxX hy0
      rw [hrow]
      have hmid := ih ya (yb - 1) (by omega) hya t x y hx0 hxX hy0
      by_cases hyb : y = yb
      · subst hyb
        rw [if_neg (by omega)] at hmid
        by_cases hc : max sx (y - P.rightRange) ≤ x ∧ x ≤ min ex (y + P.leftRange)
        · rw [if_pos (by omega), hmid, if_pos (by omega)]
        · rw [if_neg (by omega), hmid, if_neg (by omega)]
      · rw [if_neg (by omega), hmid]
        by_cases hc : ya ≤ y ∧ y ≤ yb - 1 ∧ max sx (y - P.rightRange) ≤ x ∧
            x ≤ min ex (y + P.leftRange)
        · rw [if_pos hc, if_pos (by omega)]
        · rw [if_neg hc, if_neg (by omega)]

/-- Node initialisation touches no accumulated cost and no direction. -/
theorem initNodes_cost_dir (P : Params) (c : Costs) (sx ex ya yb : ℤ)
    (t : Table) :
    ∀ j : ℤ, (intFold ya yb (initRow P c sx ex) t j).cost = (t j).cost ∧
      (intFold ya yb (initRow P c sx ex) t j).selectedPathDir =
        (t j).selectedPathDir := by
  refine @intFold_invariant Table
    (fun tb => ∀ j : ℤ, (tb j).cost = (t j).cost ∧
      (tb j).selectedPathDir = (t j).selectedPathDir) ya yb _ t
    (fun j => ⟨rfl, rfl⟩) ?_
  intro st i _ _ hst
  unfold initRow
  refine @intFold_invariant Table
    (fun tb => ∀ j : ℤ, (tb j).cost = (t j).cost ∧
      (tb j).selectedPathDir = (t j).selectedPathDir) _ _ _ st hst ?_
  intro st2 i2 _ _ hst2 j
  have hic : initCell P c i st2 i2 = upd st2 (i2 + i * P.X)
    { st2 (i2 + i * P.X) with
      verticalPathCost := (c i2 i).1
      horizontalPathCost := (c i2 i).2.1
      diagonalPathCost := (c i2 i).2.2 } := rfl
  rw [hic]
  by_cases hj : j = i2 + i * P.X
  · subst hj
    rw [upd_self]
    exact ⟨(hst2 _).1, (hst2 _).2⟩
  · rw [upd_other _ _ _ _ hj]
    exact hst2 j

theorem seedBottom_eq_gen (P : Params) (sx : ℤ) (t : Table) :
    seedBottom P sx t = intFold (sx + 1) P.leftRange seedBStep t := rfl

/-- The body of the left-edge seed loop for a general `sx`. -/
def seedLStepG (P : Params) (sx : ℤ) (t : Table) (iY : ℤ) : Table :=
  upd t (sx + iY * P.X) { t (sx + iY * P.X) with
    cost := (t (sx + iY * P.X)).verticalPathCost + (t (sx + (iY - 1) * P.X)).cost
    selectedPathDir := PathDir.vertical }

theorem seedLeft_eq_gen (P : Params) (sx sy : ℤ) (t : Table) :
    seedLeft P sx sy t = intFold (sy + 1) P.rightRange (seedLStepG P sx) t := rfl

/-- Splitting an inclusive integer fold at a midpoint. -/
theorem intFold_split {σ : Type _} (a m : ℤ) (f : σ → ℤ → σ) (s : σ)
    (ham : a - 1 ≤ m) :
    ∀ (n : ℕ) (b : ℤ), b ≤ m + (n : ℤ) → m ≤ b →
      intFold a b f s = intFold (m + 1) b f (intFold a m f s) := by
  intro n
  induction n with
  | zero =>
    intro b hn hmb
    have hbm : b = m := by omega
    subst hbm
    rw [intFold_of_lt (show b < b + 1 by omega)]
  | succ k ih =>
    intro b hn hmb
    rcases eq_or_lt_of_le hmb with hbm | hbm
    · subst hbm
      rw [intFold_of_lt (show m < m + 1 by omega)]
    · have h1 : intFold a b f s = f (intFold a (b - 1) f s) b :=
        intFold_last (by omega) f s
      have h2 : intFold (m + 1) b f (intFold a m f s) =
          f (intFold (m + 1) (b - 1) f (intFold a m f s)) b :=
        intFold_last (by omega) f _
      rw [h1, h2, ih (b - 1) (by omega) (by omega)]

/-- A fold of `relaxCell` over part of a row leaves every cell of a
different row, and every cell of the same row outside the column range,
untouched. -/
theorem relaxFold_frame (P : Params) (iY a b : ℤ) (t : Table)
    (j jy : ℤ) (hj : 0 ≤ j) (hjX : j < P.X)
    (ha0 : 0 ≤ a) (hbX : b < P.X)
    (hne : ∀ i : ℤ, a ≤ i → i ≤ b → ¬(j = i ∧ jy = iY)) :
    intFold a b (relaxCell P iY) t (j + jy * P.X) = t (j + jy * P.X) := by
  refine @intFold_invariant Table
    (fun tb => tb (j + jy * P.X) = t (j + jy * P.X)) a b _ t rfl ?_
  intro st i hi1 hi2 hst
  rw [relaxCell_eq, upd_other, hst]
  intro hcon
  exact hne i hi1 hi2 (cellIndex_inj hj hjX (by omega) (by omega) hcon)

/-- A fold of `relaxCell` touches no path cost. -/
theorem relaxFold_pathcosts (P : Params) (iY a b : ℤ) (t : Table) :
    ∀ j : ℤ,
      (intFold a b (relaxCell P iY) t j).verticalPathCost =
        (t j).verticalPathCost ∧
      (intFold a b (relaxCell P iY) t j).horizontalPathCost =
        (t j).horizontalPathCost ∧
      (intFold a b (relaxCell P iY) t j).diagonalPathCost =
        (t j).diagonalPathCost := by
  refine @intFold_invariant Table
    (fun tb => ∀ j : ℤ, (tb j).verticalPathCost = (t j).verticalPathCost ∧
      (tb j).horizontalPathCost = (t j).horizontalPathCost ∧
      (tb j).diagonalPathCost = (t j).diagonalPathCost) a b _ t
    (fun j => ⟨rfl, rfl, rfl⟩) ?_
  intro st i _ _ hst j
  rw [relaxCell_eq]
  by_cases hj : j = i + iY * P.X
  · subst hj
    rw [upd_self]
    exact ⟨(hst _).1, (hst _).2.1, (hst _).2.2⟩
  · rw [upd_other _ _ _ _ hj]
    exact hst j

/-- Evaluating a row fold of `relaxCell` at one of its own cells: the cell's
final node is the one computed when the loop reached it. -/
theorem relaxRow_single (P : Params) (iY a b xs : ℤ) (t : Table)
    (hax : a ≤ xs) (hxb : xs ≤ b) (ha0 : 0 ≤ a) (hbX : b < P.X) :
    intFold a b (relaxCell P iY) t (xs + iY * P.X) =
      relaxCell P iY (intFold a (xs - 1) (relaxCell P iY) t) xs
        (xs + iY * P.X) := by
  rw [intFold_split a (xs - 1) (relaxCell P iY) t (by omega)
    (b - (xs - 1)).toNat b (by omega) (by omega)]
  rw [show xs - 1 + 1 = xs from by ring]
  rw [intFold_head (show xs ≤ b from hxb)]
  refine @intFold_invariant Table
    (fun tb => tb (xs + iY * P.X) =
      relaxCell P iY (intFold a (xs - 1) (relaxCell P iY) t) xs
        (xs + iY * P.X)) (xs + 1) b _ _ rfl ?_
  intro st i hi1 hi2 hst
  rw [relaxCell_eq, upd_other, hst]
  intro hcon
  have := cellIndex_inj (by omega) (by omega) (by omega) (by omega) hcon
  omega

/-- Bound along the bottom edge of the band: cells `(x, y)` with
`y - x = -leftRange` relaxed so far have cost at most `(x + y) * B`. -/
def LowEdgeBound (P : Params) (B : ℚ) (sx ex S r : ℤ) (tb : Table) : Prop :=
  ∀ x y : ℤ, y - x = -P.leftRange → sx + 1 ≤ x → x ≤ ex → S + 1 ≤ y → y ≤ r →
    (tb (x + y * P.X)).cost ≤ ((x + y : ℚ)) * B

/-- Bound along the top edge of the band: cells `(x, y)` with
`y - x = rightRange` relaxed so far have cost at most `(x + y) * B`. -/
def TopEdgeBound (P : Params) (B : ℚ) (sx ex S r : ℤ) (tb : Table) : Prop :=
  ∀ x y : ℤ, y - x = P.rightRange → sx + 1 ≤ x → x ≤ ex → S + 1 ≤ y → y ≤ r →
    (tb (x + y * P.X)).cost ≤ ((x + y : ℚ)) * B

/-- Bound along the column `sx + 1`: relaxed cells `(sx+1, k)` still inside
the band have cost at most `(sx + 1 + k) * B`. -/
def ColEdgeBound (P : Params) (B : ℚ) (sx ex S r : ℤ) (tb : Table) : Prop :=
  ∀ k : ℤ, S + 1 ≤ k → k ≤ r → k ≤ sx + 1 + P.rightRange → sx + 1 ≤ ex →
    (tb (sx + 1 + k * P.X)).cost ≤ ((sx + 1 + k : ℚ)) * B

/-- Bound along the seeded part of row `0`: the bottom-edge seed loop gives
`(iX, 0)` cost at most `iX * B` whenever its chain stays left of `ex`. -/
def SeedRowBound (P : Params) (B : ℚ) (sx ex : ℤ) (tb : Table) : Prop :=
  ∀ iX : ℤ, sx + 1 ≤ iX → iX ≤ P.leftRange → iX ≤ ex →
    (tb iX).cost ≤ ((iX : ℚ)) * B

/-- The initialisation characterisation: inside the call's band rectangle the
three path costs of a cell are the call's cost values. -/
def BandPathChar (P : Params) (c : Costs) (sx ex S E : ℤ) (tb : Table) : Prop :=
  ∀ x y : ℤ, 0 ≤ x → x < P.X → S ≤ y → y ≤ E →
    max sx (y - P.rightRange) ≤ x → x ≤ min ex (y + P.leftRange) →
    (tb (x + y * P.X)).verticalPathCost = (c x y).1 ∧
    (tb (x + y * P.X)).horizontalPathCost = (c x y).2.1 ∧
    (tb (x + y * P.X)).diagonalPathCost = (c x y).2.2

/-- Effect of the bottom-edge seed loop (general `sx`), run up to column `k`:
path costs and all other cells untouched, seeded cells horizontal with the
chain bound. -/
theorem seedBottom_gen_facts (P : Params) (c : Costs) (B : ℚ) (sx ex S E : ℤ)
    (hsx0 : 0 ≤ sx) (hsxex : sx ≤ ex) (hexX : ex < P.X)
    (hlRX : P.leftRange < P.X) (hrR0 : 0 ≤ P.rightRange)
    (hS0 : 0 ≤ S) (hSor : S = sx - P.leftRange ∨ S = 0) (hE0 : 0 ≤ E)
    (hcB : ∀ a b : ℤ, 0 ≤ (c a b).1 ∧ (c a b).1 ≤ B ∧ 0 ≤ (c a b).2.1 ∧
      (c a b).2.1 ≤ B ∧ 0 ≤ (c a b).2.2 ∧ (c a b).2.2 ≤ B)
    (t2 : Table)
    (ht2char : BandPathChar P c sx ex S E t2)
    (ht2src : (t2 (sx + S * P.X)).cost = 0) :
    ∀ (n : ℕ) (k : ℤ), k ≤ sx + (n : ℤ) → sx ≤ k → k ≤ P.leftRange →
      (∀ j : ℤ,
        (intFold (sx + 1) k seedBStep t2 j).verticalPathCost =
          (t2 j).verticalPathCost ∧
        (intFold (sx + 1) k seedBStep t2 j).horizontalPathCost =
          (t2 j).horizontalPathCost ∧
        (intFold (sx + 1) k seedBStep t2 j).diagonalPathCost =
          (t2 j).diagonalPathCost) ∧
      (∀ x y : ℤ, 0 ≤ x → x < P.X → ¬(y = 0 ∧ sx + 1 ≤ x ∧ x ≤ k) →
        intFold (sx + 1) k seedBStep t2 (x + y * P.X) = t2 (x + y * P.X)) ∧
      (∀ x : ℤ, sx + 1 ≤ x → x ≤ k →
        (intFold (sx + 1) k seedBStep t2 x).selectedPathDir =
          PathDir.horizontal) ∧
      (∀ x : ℤ, sx + 1 ≤ x → x ≤ k → x ≤ ex →
        (intFold (sx + 1) k seedBStep t2 x).cost ≤ ((x : ℚ)) * B) := by
  have hsxX : sx < P.X := by omega
  have hB0 : 0 ≤ B := le_trans (hcB 0 0).1 (hcB 0 0).2.1
  intro n
  induction n with
  | zero =>
    intro k hkn hk1 hk2
    have hke : k = sx := by omega
    subst hke
    rw [intFold_of_lt (show k < k + 1 by omega)]
    refine ⟨fun j => ⟨rfl, rfl, rfl⟩, fun x y _ _ _ => rfl, ?_, ?_⟩
    · intro x h1 h2
      exfalso
      omega
    · intro x h1 h2 _
      exfalso
      omega
  | succ m ih =>
    intro k hkn hk1 hk2
    rcases eq_or_lt_of_le hk1 with hke | hke
    · rw [intFold_of_lt (show k < sx + 1 by omega)]
      refine ⟨fun j => ⟨rfl, rfl, rfl⟩, fun x y _ _ _ => rfl, ?_, ?_⟩
      · intro x h1 h2
        exfalso
        omega
      · intro x h1 h2 _
        exfalso
        omega
    · obtain ⟨ih0, ih1, ih2, ih3⟩ := ih (k - 1) (by omega) (by omega) (by omega)
      have hpeel : intFold (sx + 1) k seedBStep t2 =
          seedBStep (intFold (sx + 1) (k - 1) seedBStep t2) k :=
        intFold_last (by omega) _ _
      rw [hpeel]
      have hk0 : 0 ≤ k := by omega
      have hkX : k < P.X := by omega
      have hstep : seedBStep (intFold (sx + 1) (k - 1) seedBStep t2) k =
          upd (intFold (sx + 1) (k - 1) seedBStep t2) k
            { intFold (sx + 1) (k - 1) seedBStep t2 k with
              cost := (intFold (sx + 1) (k - 1) seedBStep t2 k).horizontalPathCost +
                (intFold (sx + 1) (k - 1) seedBStep t2 (k - 1)).cost
              selectedPathDir := PathDir.horizontal } := rfl
      rw [hstep]
      refine ⟨?_, ?_, ?_, ?_⟩
      · intro j
        by_cases hj : j = k
        · subst hj
          rw [upd_self]
          exact ⟨(ih0 j).1, (ih0 j).2.1, (ih0 j).2.2⟩
        · rw [upd_other _ _ _ _ hj]
          exact ih0 j
      · intro x y hx hxX hne
        have hj : x + y * P.X ≠ k := by
          intro hc
          have hc2 : x + y * P.X = k + 0 * P.X := by rw [hc]; ring
          have := cellIndex_inj hx hxX hk0 hkX hc2
          exact hne ⟨this.2, by omega, by omega⟩
        rw [upd_other _ _ _ _ hj]
        exact ih1 x y hx hxX (fun h => hne ⟨h.1, h.2.1, by omega⟩)
      · intro x h1 h2
        by_cases hx : x = k
        · subst hx
          rw [upd_self]
        · rw [upd_other _ _ _ _ hx]
          exact ih2 x h1 (by omega)
      · intro x h1 h2 h3
        by_cases hx : x = k
        · subst hx
          rw [upd_self]
          show (intFold (sx + 1) (x - 1) seedBStep t2 x).horizontalPathCost +
            (intFold (sx + 1) (x - 1) seedBStep t2 (x - 1)).cost ≤ ((x : ℚ)) * B
          have hSz : S = 0 := by rcases hSor with h | h <;> omega
          have hhp : (intFold (sx + 1) (x - 1) seedBStep t2 x).horizontalPathCost =
              (t2 x).horizontalPathCost := (ih0 x).2.1
          have hchar := ht2char x 0 hk0 hkX (by omega) (by omega) (by omega) (by omega)
          rw [show x + (0 : ℤ) * P.X = x from by ring] at hchar
          have hhpB : (t2 x).horizontalPathCost ≤ B := by
            rw [hchar.2.1]
            exact (hcB x 0).2.2.2.1
          have hx1 : (1 : ℚ) ≤ ((x : ℚ)) := by
            exact_mod_cast (show (1 : ℤ) ≤ x by omega)
          by_cases hks : x - 1 = sx
          · have hfr := ih1 sx 0 hsx0 hsxX (by omega)
            rw [show sx + (0 : ℤ) * P.X = sx from by ring] at hfr
            have hsrc' := ht2src
            rw [hSz, show sx + (0 : ℤ) * P.X = sx from by ring] at hsrc'
            have hbridge : intFold (sx + 1) (x - 1) seedBStep t2 (x - 1) =
                intFold (sx + 1) (x - 1) seedBStep t2 sx := by rw [hks]
            rw [hhp, hbridge, hfr, hsrc']
            have := mul_le_mul_of_nonneg_right hx1 hB0
            linarith
          · have hprev := ih3 (x - 1) (by omega) (by omega) (by omega)
            rw [hhp]
            have hcast : (((x - 1 : ℤ) : ℚ)) = ((x : ℚ)) - 1 := by push_cast; ring
            rw [hcast] at hprev
            nlinarith
        · rw [upd_other _ _ _ _ hx]
          exact ih3 x h1 (by omega) h3

/-- Effect of the left-edge seed loop (general `sx`), run up to row `k`:
path costs and all other cells untouched, seeded cells vertical. -/
theorem seedLeft_gen_facts (P : Params) (sx S : ℤ)
    (hsx0 : 0 ≤ sx) (hsxX : sx < P.X) (t3 : Table) :
    ∀ (n : ℕ) (k : ℤ), k ≤ S + (n : ℤ) → S ≤ k →
      (∀ j : ℤ,
        (intFold (S + 1) k (seedLStepG P sx) t3 j).verticalPathCost =
          (t3 j).verticalPathCost ∧
        (intFold (S + 1) k (seedLStepG P sx) t3 j).horizontalPathCost =
          (t3 j).horizontalPathCost ∧
        (intFold (S + 1) k (seedLStepG P sx) t3 j).diagonalPathCost =
          (t3 j).diagonalPathCost) ∧
      (∀ x y : ℤ, 0 ≤ x → x < P.X → ¬(x = sx ∧ S + 1 ≤ y ∧ y ≤ k) →
        intFold (S + 1) k (seedLStepG P sx) t3 (x + y * P.X) =
          t3 (x + y * P.X)) ∧
      (∀ y : ℤ, S + 1 ≤ y → y ≤ k →
        (intFold (S + 1) k (seedLStepG P sx) t3 (sx + y * P.X)).selectedPathDir =
          PathDir.vertical) := by
  intro n
  induction n with
  | zero =>
    intro k hkn hk1
    have hke : k = S := by omega
    subst hke
    rw [intFold_of_lt (show k < k + 1 by omega)]
    refine ⟨fun j => ⟨rfl, rfl, rfl⟩, fun x y _ _ _ => rfl, ?_⟩
    intro y h1 h2
    exfalso
    omega
  | succ m ih =>
    intro k hkn hk1
    rcases eq_or_lt_of_le hk1 with hke | hke
    · rw [← hke, intFold_of_lt (show S < S + 1 by omega)]
      refine ⟨fun j => ⟨rfl, rfl, rfl⟩, fun x y _ _ _ => rfl, ?_⟩
      intro y h1 h2
      exfalso
      omega
    · obtain ⟨ih0, ih1, ih2⟩ := ih (k - 1) (by omega) (by omega)
      have hpeel : intFold (S + 1) k (seedLStepG P sx) t3 =
          seedLStepG P sx (intFold (S + 1) (k - 1) (seedLStepG P sx) t3) k :=
        intFold_last (by omega) _ _
      rw [hpeel]
      have hstep : seedLStepG P sx (intFold (S + 1) (k - 1) (seedLStepG P sx) t3) k =
          upd (intFold (S + 1) (k - 1) (seedLStepG P sx) t3) (sx + k * P.X)
            { intFold (S + 1) (k - 1) (seedLStepG P sx) t3 (sx + k * P.X) with
              cost := (intFold (S + 1) (k - 1) (seedLStepG P sx) t3
                  (sx + k * P.X)).verticalPathCost +
                (intFold (S + 1) (k - 1) (seedLStepG P sx) t3
                  (sx + (k - 1) * P.X)).cost
              selectedPathDir := PathDir.vertical } := rfl
      rw [hstep]
      refine ⟨?_, ?_, ?_⟩
      · intro j
        by_cases hj : j = sx + k * P.X
        · subst hj
          rw [upd_self]
          exact ⟨(ih0 (sx + k * P.X)).1, (ih0 (sx + k * P.X)).2.1,
            (ih0 (sx + k * P.X)).2.2⟩
        · rw [upd_other _ _ _ _ hj]
          exact ih0 j
      · intro x y hx hxX hne
        have hj : x + y * P.X ≠ sx + k * P.X := by
          intro hc
          have := cellIndex_inj hx hxX hsx0 hsxX hc
          exact hne ⟨this.1, by omega, by omega⟩
        rw [upd_other _ _ _ _ hj]
        exact ih1 x y hx hxX (fun h => hne ⟨h.1, h.2.1, by omega⟩)
      · intro y h1 h2
        by_cases hy : y = k
        · subst hy
          rw [upd_self]
        · have hj : sx + y * P.X ≠ sx + k * P.X := by
            intro hc
            have := cellIndex_inj hsx0 hsxX hsx0 hsxX hc
            omega
          rw [upd_other _ _ _ _ hj]
          exact ih2 y h1 (by omega)

/-- State of the table just before the relaxation loop of a `Matching` call
with `sy = 0` on any table satisfying the strip invariant: the strip
invariant still holds, the source cell has cost `0`, the seeded part of
row `0` obeys the chain bound, and the band rectangle carries the call's
path costs. -/
theorem preRelax_facts (P : Params) (c : Costs) (B : ℚ) (sx ex S E : ℤ)
    (hsx0 : 0 ≤ sx) (hsxex : sx ≤ ex) (hexX : ex < P.X)
    (hlR0 : 0 ≤ P.leftRange) (hlRX : P.leftRange < P.X) (hrR0 : 0 ≤ P.rightRange)
    (hSdef : S = clampBand P sx 0) (hE0 : 0 ≤ E)
    (hcB : ∀ a b : ℤ, 0 ≤ (c a b).1 ∧ (c a b).1 ≤ B ∧ 0 ≤ (c a b).2.1 ∧
      (c a b).2.1 ≤ B ∧ 0 ≤ (c a b).2.2 ∧ (c a b).2.2 ≤ B)
    (t : Table) (hT : StripOK P t) (t4 : Table)
    (ht4 : t4 = seedLeft P sx S (seedBottom P sx
      (upd (initNodes P c sx ex S E t) (sx + S * P.X)
        { initNodes P c sx ex S E t (sx + S * P.X) with cost := 0 }))) :
    OutBandMax P t4 ∧ DirOK P t4 ∧ (t4 (sx + S * P.X)).cost = 0 ∧
    SeedRowBound P B sx ex t4 ∧ BandPathChar P c sx ex S E t4 := by
  have hsxX : sx < P.X := by omega
  have hSprops : 0 ≤ S ∧ S ≤ sx ∧ sx - P.leftRange ≤ S ∧
      (S = sx - P.leftRange ∨ S = 0) := by
    rw [hSdef]
    unfold clampBand
    omega
  obtain ⟨hS0, hSsx, hSlo, hSor⟩ := hSprops
  rw [seedLeft_eq_gen, seedBottom_eq_gen] at ht4
  set A := initNodes P c sx ex S E t with hAdef
  set t2 := upd A (sx + S * P.X) { A (sx + S * P.X) with cost := 0 } with ht2def
  set t3 := intFold (sx + 1) P.leftRange seedBStep t2 with ht3def
  subst ht4
  have hAcd : ∀ j : ℤ, (A j).cost = (t j).cost ∧
      (A j).selectedPathDir = (t j).selectedPathDir := by
    intro j
    rw [hAdef]
    exact initNodes_cost_dir P c sx ex S E t j
  have hAchar : ∀ x y : ℤ, 0 ≤ x → x < P.X → 0 ≤ y →
      A (x + y * P.X) = (if S ≤ y ∧ y ≤ E ∧ max sx (y - P.rightRange) ≤ x ∧
          x ≤ min ex (y + P.leftRange) then
        { t (x + y * P.X) with
          verticalPathCost := (c x y).1
          horizontalPathCost := (c x y).2.1
          diagonalPathCost := (c x y).2.2 }
      else t (x + y * P.X)) := by
    intro x y hx hxX hy
    rw [hAdef]
    exact initNodes_char_gen P c sx ex hsx0 hexX (E + 1 - S).toNat S E
      (by omega) hS0 t x y hx hxX hy
  have ht2pc : ∀ j : ℤ,
      (t2 j).verticalPathCost = (A j).verticalPathCost ∧
      (t2 j).horizontalPathCost = (A j).horizontalPathCost ∧
      (t2 j).diagonalPathCost = (A j).diagonalPathCost := by
    intro j
    rw [ht2def]
    by_cases hj : j = sx + S * P.X
    · subst hj
      rw [upd_self]
      exact ⟨rfl, rfl, rfl⟩
    · rw [upd_other _ _ _ _ hj]
      exact ⟨rfl, rfl, rfl⟩
  have ht2src : (t2 (sx + S * P.X)).cost = 0 := by rw [ht2def, upd_self]
  have ht2dirsrc : (t2 (sx + S * P.X)).selectedPathDir =
      (A (sx + S * P.X)).selectedPathDir := by rw [ht2def, upd_self]
  have ht2cd : ∀ x y : ℤ, 0 ≤ x → x < P.X → ¬(x = sx ∧ y = S) →
      (t2 (x + y * P.X)).cost = (t (x + y * P.X)).cost ∧
      (t2 (x + y * P.X)).selectedPathDir = (t (x + y * P.X)).selectedPathDir := by
    intro x y hx hxX hne
    have hj : x + y * P.X ≠ sx + S * P.X := by
      intro hc
      have := cellIndex_inj hx hxX hsx0 hsxX hc
      exact hne ⟨this.1, this.2⟩
    rw [ht2def, upd_other _ _ _ _ hj]
    exact hAcd _
  have ht2char : BandPathChar P c sx ex S E t2 := by
    intro x y hx hxX hSy hyE hlo hhi
    have h2 := hAchar x y hx hxX (by omega)
    rw [if_pos ⟨hSy, hyE, hlo, hhi⟩] at h2
    obtain ⟨p1, p2, p3⟩ := ht2pc (x + y * P.X)
    rw [p1, p2, p3, h2]
    exact ⟨rfl, rfl, rfl⟩
  obtain ⟨hq0, hq1, hq2, hq3⟩ :
      (∀ j : ℤ,
        (t3 j).verticalPathCost = (t2 j).verticalPathCost ∧
        (t3 j).horizontalPathCost = (t2 j).horizontalPathCost ∧
        (t3 j).diagonalPathCost = (t2 j).diagonalPathCost) ∧
      (∀ x y : ℤ, 0 ≤ x → x < P.X → ¬(y = 0 ∧ sx + 1 ≤ x ∧ x ≤ P.leftRange) →
        t3 (x + y * P.X) = t2 (x + y * P.X)) ∧
      (∀ x : ℤ, sx + 1 ≤ x → x ≤ P.leftRange →
        (t3 x).selectedPathDir = PathDir.horizontal) ∧
      (∀ x : ℤ, sx + 1 ≤ x → x ≤ P.leftRange → x ≤ ex →
        (t3 x).cost ≤ ((x : ℚ)) * B) := by
    rw [ht3def]
    rcases le_or_lt sx P.leftRange with h | h
    · exact seedBottom_gen_facts P c B sx ex S E hsx0 hsxex hexX hlRX hrR0
        hS0 hSor hE0 hcB t2 ht2char ht2src (P.leftRange - sx).toNat
        P.leftRange (by omega) h le_rfl
    · have he : intFold (sx + 1) P.leftRange seedBStep t2 = t2 :=
        intFold_of_lt (by omega) _ _
      rw [he]
      refine ⟨fun j => ⟨rfl, rfl, rfl⟩, fun x y _ _ _ => rfl, ?_, ?_⟩
      · intro x h1 h2
        exfalso
        omega
      · intro x h1 h2 _
        exfalso
        omega
  obtain ⟨hr0, hr1, hr2⟩ :
      (∀ j : ℤ,
        (intFold (S + 1) P.rightRange (seedLStepG P sx) t3 j).verticalPathCost =
          (t3 j).verticalPathCost ∧
        (intFold (S + 1) P.rightRange (seedLStepG P sx) t3 j).horizontalPathCost =
          (t3 j).horizontalPathCost ∧
        (intFold (S + 1) P.rightRange (seedLStepG P sx) t3 j).diagonalPathCost =
          (t3 j).diagonalPathCost) ∧
      (∀ x y : ℤ, 0 ≤ x → x < P.X → ¬(x = sx ∧ S + 1 ≤ y ∧ y ≤ P.rightRange) →
        intFold (S + 1) P.rightRange (seedLStepG P sx) t3 (x + y * P.X) =
          t3 (x + y * P.X)) ∧
      (∀ y : ℤ, S + 1 ≤ y → y ≤ P.rightRange →
        (intFold (S + 1) P.rightRange (seedLStepG P sx) t3
          (sx + y * P.X)).selectedPathDir = PathDir.vertical) := by
    rcases le_or_lt S P.rightRange with h | h
    · exact seedLeft_gen_facts P sx S hsx0 hsxX t3 (P.rightRange - S).toNat
        P.rightRange (by omega) h
    · have he : intFold (S + 1) P.rightRange (seedLStepG P sx) t3 = t3 :=
        intFold_of_lt (by omega) _ _
      rw [he]
      refine ⟨fun j => ⟨rfl, rfl, rfl⟩, fun x y _ _ _ => rfl, ?_⟩
      intro y h1 h2
      exfalso
      omega
  refine ⟨?_, ?_, ?_, ?_, ?_⟩
  · -- the strip stays MAX/none outside the band
    intro x y hx hxX hy hout
    have hfr1 := hr1 x y hx hxX (by
      intro hcon
      obtain ⟨he, h1, h2⟩ := hcon
      exact hout ⟨by omega, by omega⟩)
    have hfr2 := hq1 x y hx hxX (by
      intro hcon
      obtain ⟨he, h1, h2⟩ := hcon
      exact hout ⟨by omega, by omega⟩)
    have hfr3 := ht2cd x y hx hxX (by
      intro hcon
      obtain ⟨he1, he2⟩ := hcon
      exact hout ⟨by omega, by omega⟩)
    rw [hfr1, hfr2, hfr3.1, hfr3.2]
    exact hT.1 x y hx hxX hy hout
  · -- directions still point into the strip
    intro x y hx hxX hy
    by_cases hseedL : x = sx ∧ S + 1 ≤ y ∧ y ≤ P.rightRange
    · obtain ⟨hxe, h1, h2⟩ := hseedL
      subst hxe
      have hd := hr2 y h1 h2
      refine ⟨fun _ => by omega, ?_, ?_⟩
      · intro hcon
        rw [hd] at hcon
        exact PathDir.noConfusion hcon
      · intro hcon
        rw [hd] at hcon
        exact PathDir.noConfusion hcon
    · by_cases hseedB : y = 0 ∧ sx + 1 ≤ x ∧ x ≤ P.leftRange
      · obtain ⟨hye, h1, h2⟩ := hseedB
        subst hye
        have hfr1 := hr1 x 0 hx hxX (fun hcon => absurd hcon.1 (by omega))
        have hb : x + (0 : ℤ) * P.X = x := by ring
        rw [hb] at hfr1
        have hd := hq2 x h1 h2
        rw [hb, hfr1]
        refine ⟨?_, fun _ => by omega, ?_⟩
        · intro hcon
          rw [hd] at hcon
          exact PathDir.noConfusion hcon
        · intro hcon
          rw [hd] at hcon
          exact PathDir.noConfusion hcon
      · by_cases hsrc : x = sx ∧ y = S
        · obtain ⟨hxe, hye⟩ := hsrc
          rw [hxe, hye]
          have hfr1 := hr1 sx S hsx0 hsxX (fun hcon => by omega)
          have hfr2 := hq1 sx S hsx0 hsxX (fun hcon => by omega)
          rw [hfr1, hfr2, ht2dirsrc, (hAcd (sx + S * P.X)).2]
          exact hT.2 sx S hsx0 hsxX hS0
        · have hfr1 := hr1 x y hx hxX (fun hcon => hseedL hcon)
          have hfr2 := hq1 x y hx hxX (fun hcon => hseedB hcon)
          have hfr3 := (ht2cd x y hx hxX (fun hcon => hsrc hcon)).2
          rw [hfr1, hfr2, hfr3]
          exact hT.2 x y hx hxX hy
  · -- the source has cost zero
    have hfr1 := hr1 sx S hsx0 hsxX (fun hcon => by omega)
    have hfr2 := hq1 sx S hsx0 hsxX (fun hcon => by omega)
    rw [hfr1, hfr2]
    exact ht2src
  · -- the seeded part of row 0 obeys the chain bound
    intro iX h1 h2 h3
    have hfr1 := hr1 iX 0 (by omega) (by omega) (fun hcon => by omega)
    have hb : iX + (0 : ℤ) * P.X = iX := by ring
    rw [hb] at hfr1
    rw [hfr1]
    exact hq3 iX h1 h2 h3
  · -- the band rectangle carries the call's path costs
    intro x y hx hxX hSy hyE hlo hhi
    obtain ⟨a1, a2, a3⟩ := hr0 (x + y * P.X)
    obtain ⟨b1, b2, b3⟩ := hq0 (x + y * P.X)
    rw [a1, b1, a2, b2, a3, b3]
    exact ht2char x y hx hxX hSy hyE hlo hhi

/-- Diagonal-candidate bound at a bottom-edge cell `(x, r+1)` with
`x = r+1+leftRange`: the diagonal predecessor is the source, an earlier
bottom-edge cell, or a seeded row-0 cell, so the candidate obeys the chain
bound. -/
theorem lowEdge_dCand_bound (P : Params) (c : Costs) (B : ℚ) (sx ex S E r x : ℤ)
    (hsx0 : 0 ≤ sx) (hsxex : sx ≤ ex) (hexX : ex < P.X)
    (hlR0 : 0 ≤ P.leftRange) (hrR0 : 0 ≤ P.rightRange)
    (hS0 : 0 ≤ S) (hSsx : S ≤ sx) (hSlo : sx - P.leftRange ≤ S)
    (hSor : S = sx - P.leftRange ∨ S = 0)
    (hr : S ≤ r) (hrE : r + 1 ≤ E)
    (hcB : ∀ a b : ℤ, 0 ≤ (c a b).1 ∧ (c a b).1 ≤ B ∧ 0 ≤ (c a b).2.1 ∧
      (c a b).2.1 ≤ B ∧ 0 ≤ (c a b).2.2 ∧ (c a b).2.2 ≤ B)
    (hedge : x = r + 1 + P.leftRange) (hx1 : sx + 1 ≤ x) (hx2 : x ≤ ex)
    (tbPre : Table)
    (hPath : BandPathChar P c sx ex S E tbPre)
    (hLow : LowEdgeBound P B sx ex S r tbPre)
    (hSrc : (tbPre (sx + S * P.X)).cost = 0)
    (hSeed : SeedRowBound P B sx ex tbPre) :
    dCand P (r + 1) tbPre x ≤ ((x + r + 1 : ℚ)) * B := by
  have hB0 : 0 ≤ B := le_trans (hcB 0 0).1 (hcB 0 0).2.1
  have hdP := hPath x (r + 1) (by omega) (by omega) (by omega) (by omega)
    (by omega) (by omega)
  unfold dCand
  rw [hdP.2.2]
  have hdB := (hcB x (r + 1)).2.2.2.2.2
  have hr0Q : (0 : ℚ) ≤ ((r : ℚ)) := by exact_mod_cast (show (0 : ℤ) ≤ r by omega)
  have hx1Q : (1 : ℚ) ≤ ((x : ℚ)) := by exact_mod_cast (show (1 : ℤ) ≤ x by omega)
  by_cases hc1 : x - 1 = sx
  · have hrS : r = S := by rcases hSor with h | h <;> omega
    have hidx : (x - 1) + ((r + 1) - 1) * P.X = sx + S * P.X := by
      rw [hc1, hrS]; ring
    rw [hidx, hSrc]
    nlinarith [mul_le_mul_of_nonneg_right hx1Q hB0]
  · rcases eq_or_lt_of_le hr with hrS | hrS
    · have hSz : S = 0 := by rcases hSor with h | h <;> omega
      have hseed := hSeed (x - 1) (by omega) (by omega) (by omega)
      have hidx : (x - 1) + ((r + 1) - 1) * P.X = x - 1 := by
        have hrz : r = 0 := by omega
        rw [hrz]; ring
      rw [hidx]
      push_cast at hseed
      nlinarith [mul_nonneg (by linarith : (0 : ℚ) ≤ ((r : ℚ)) + 1) hB0]
    · have hlow := hLow (x - 1) r (by omega) (by omega) (by omega) (by omega)
        (by omega)
      have hidx : (x - 1) + ((r + 1) - 1) * P.X = (x - 1) + r * P.X := by ring
      rw [hidx]
      push_cast at hlow
      nlinarith [hdB, hlow, hB0]

/-- Diagonal-candidate bound at a top-edge cell `(x, r+1)` with
`x = r+1-rightRange` and `x ≥ sx+2`: the diagonal predecessor is the
previous top-edge cell. -/
theorem topEdge_dCand_bound (P : Params) (c : Costs) (B : ℚ) (sx ex S E r x : ℤ)
    (hsx0 : 0 ≤ sx) (hsxex : sx ≤ ex) (hexX : ex < P.X)
    (hlR0 : 0 ≤ P.leftRange) (hrR0 : 0 ≤ P.rightRange)
    (hS0 : 0 ≤ S) (hSsx : S ≤ sx)
    (hr : S ≤ r) (hrE : r + 1 ≤ E)
    (hcB : ∀ a b : ℤ, 0 ≤ (c a b).1 ∧ (c a b).1 ≤ B ∧ 0 ≤ (c a b).2.1 ∧
      (c a b).2.1 ≤ B ∧ 0 ≤ (c a b).2.2 ∧ (c a b).2.2 ≤ B)
    (hedge : x = r + 1 - P.rightRange) (hx1 : sx + 2 ≤ x) (hx2 : x ≤ ex)
    (tbPre : Table)
    (hPath : BandPathChar P c sx ex S E tbPre)
    (hTop : TopEdgeBound P B sx ex S r tbPre) :
    dCand P (r + 1) tbPre x ≤ ((x + r + 1 : ℚ)) * B := by
  have hB0 : 0 ≤ B := le_trans (hcB 0 0).1 (hcB 0 0).2.1
  have hdP := hPath x (r + 1) (by omega) (by omega) (by omega) (by omega)
    (by omega) (by omega)
  unfold dCand
  rw [hdP.2.2]
  have hdB := (hcB x (r + 1)).2.2.2.2.2
  have htop := hTop (x - 1) r (by omega) (by omega) (by omega) (by omega)
    (by omega)
  have hidx : (x - 1) + ((r + 1) - 1) * P.X = (x - 1) + r * P.X := by ring
  rw [hidx]
  push_cast at htop
  nlinarith [hdB, htop, hB0]

/-- Minimum-candidate bound at the column cell `(sx+1, r+1)` while it is
still inside the band: through the vertical predecessor on the same column,
or the source when `r = S`. -/
theorem colEdge_mVal_bound (P : Params) (c : Costs) (B : ℚ) (sx ex S E r : ℤ)
    (hsx0 : 0 ≤ sx) (hsxex : sx ≤ ex) (hexX : ex < P.X)
    (hlR0 : 0 ≤ P.leftRange) (hrR0 : 0 ≤ P.rightRange)
    (hS0 : 0 ≤ S) (hSsx : S ≤ sx) (hSlo : sx - P.leftRange ≤ S)
    (hr : S ≤ r) (hrE : r + 1 ≤ E)
    (hcB : ∀ a b : ℤ, 0 ≤ (c a b).1 ∧ (c a b).1 ≤ B ∧ 0 ≤ (c a b).2.1 ∧
      (c a b).2.1 ≤ B ∧ 0 ≤ (c a b).2.2 ∧ (c a b).2.2 ≤ B)
    (hcol : r + 1 ≤ sx + 1 + P.rightRange) (hex1 : sx + 1 ≤ ex)
    (tbPre : Table)
    (hPath : BandPathChar P c sx ex S E tbPre)
    (hCol : ColEdgeBound P B sx ex S r tbPre)
    (hSrc : (tbPre (sx + S * P.X)).cost = 0) :
    mVal P (r + 1) tbPre (sx + 1) ≤ ((sx + r + 2 : ℚ)) * B := by
  have hB0 : 0 ≤ B := le_trans (hcB 0 0).1 (hcB 0 0).2.1
  have hPathc := hPath (sx + 1) (r + 1) (by omega) (by omega) (by omega)
    (by omega) (by omega) (by omega)
  have hsx0Q : (0 : ℚ) ≤ ((sx : ℚ)) := by exact_mod_cast hsx0
  have hr0Q : (0 : ℚ) ≤ ((r : ℚ)) := by exact_mod_cast (show (0 : ℤ) ≤ r by omega)
  rcases eq_or_lt_of_le hr with hrS | hrS
  · have hd : dCand P (r + 1) tbPre (sx + 1) =
        (tbPre ((sx + 1) + (r + 1) * P.X)).diagonalPathCost +
          (tbPre (sx + S * P.X)).cost := by
      unfold dCand
      rw [show ((sx + 1) - 1) + ((r + 1) - 1) * P.X = sx + S * P.X from by
        rw [← hrS]; ring]
    have hm : mVal P (r + 1) tbPre (sx + 1) ≤ dCand P (r + 1) tbPre (sx + 1) :=
      min_le_right _ _
    rw [hd, hSrc, hPathc.2.2] at hm
    have hdB := (hcB (sx + 1) (r + 1)).2.2.2.2.2
    nlinarith [mul_le_mul_of_nonneg_right
      (show (1 : ℚ) ≤ ((sx : ℚ)) + ((r : ℚ)) + 2 by linarith) hB0]
  · have hm : mVal P (r + 1) tbPre (sx + 1) ≤ vCand P (r + 1) tbPre (sx + 1) :=
      le_trans (min_le_left _ _) (min_le_left _ _)
    have hv : vCand P (r + 1) tbPre (sx + 1) =
        (tbPre ((sx + 1) + (r + 1) * P.X)).verticalPathCost +
          (tbPre (sx + 1 + r * P.X)).cost := by
      unfold vCand
      rw [show (sx + 1) + ((r + 1) - 1) * P.X = sx + 1 + r * P.X from by ring]
    have hcolb := hCol r (by omega) (by omega) (by omega) hex1
    rw [hv, hPathc.1] at hm
    have hvB := (hcB (sx + 1) (r + 1)).2.1
    push_cast at hcolb
    nlinarith [hvB, hcolb, hB0]

/-- The state of the relaxation row loop for row `r+1` just before it
processes column `x`. -/
def relaxPrefix (P : Params) (sx r x : ℤ) (t : Table) : Table :=
  intFold (max (sx + 1) (r + 1 - P.rightRange)) (x - 1) (relaxCell P (r + 1)) t

/-- One row of the relaxation preserves all invariants of the strip
development and extends the three edge-chain bounds to row `r+1`. -/
theorem relaxRowG_facts (P : Params) (c : Costs) (B : ℚ) (sx ex S E r : ℤ)
    (hsx0 : 0 ≤ sx) (hsxex : sx ≤ ex) (hexX : ex < P.X)
    (hlR0 : 0 ≤ P.leftRange) (hrR0 : 0 ≤ P.rightRange)
    (hS0 : 0 ≤ S) (hSsx : S ≤ sx) (hSlo : sx - P.leftRange ≤ S)
    (hSor : S = sx - P.leftRange ∨ S = 0)
    (hr : S ≤ r) (hrE : r + 1 ≤ E)
    (hMC : ((ex + E + 2 : ℚ)) * B < MAX_COST)
    (hcB : ∀ a b : ℤ, 0 ≤ (c a b).1 ∧ (c a b).1 ≤ B ∧ 0 ≤ (c a b).2.1 ∧
      (c a b).2.1 ≤ B ∧ 0 ≤ (c a b).2.2 ∧ (c a b).2.2 ≤ B)
    (tbPre : Table)
    (hOut : OutBandMax P tbPre) (hDir : DirOK P tbPre)
    (hPath : BandPathChar P c sx ex S E tbPre)
    (hLow : LowEdgeBound P B sx ex S r tbPre)
    (hTop : TopEdgeBound P B sx ex S r tbPre)
    (hCol : ColEdgeBound P B sx ex S r tbPre)
    (hSrc : (tbPre (sx + S * P.X)).cost = 0)
    (hSeed : SeedRowBound P B sx ex tbPre) :
    OutBandMax P (relaxRow P sx ex tbPre (r + 1)) ∧
    DirOK P (relaxRow P sx ex tbPre (r + 1)) ∧
    BandPathChar P c sx ex S E (relaxRow P sx ex tbPre (r + 1)) ∧
    LowEdgeBound P B sx ex S (r + 1) (relaxRow P sx ex tbPre (r + 1)) ∧
    TopEdgeBound P B sx ex S (r + 1) (relaxRow P sx ex tbPre (r + 1)) ∧
    ColEdgeBound P B sx ex S (r + 1) (relaxRow P sx ex tbPre (r + 1)) ∧
    ((relaxRow P sx ex tbPre (r + 1)) (sx + S * P.X)).cost = 0 ∧
    SeedRowBound P B sx ex (relaxRow P sx ex tbPre (r + 1)) := by
  have hB0 : 0 ≤ B := le_trans (hcB 0 0).1 (hcB 0 0).2.1
  have hrow : relaxRow P sx ex tbPre (r + 1) =
      intFold (max (sx + 1) (r + 1 - P.rightRange)) (min ex (r + 1 + P.leftRange))
        (relaxCell P (r + 1)) tbPre := rfl
  rw [hrow]
  have hframe : ∀ j jy : ℤ, 0 ≤ j → j < P.X →
      (jy ≠ r + 1 ∨ j < max (sx + 1) (r + 1 - P.rightRange) ∨
        min ex (r + 1 + P.leftRange) < j) →
      intFold (max (sx + 1) (r + 1 - P.rightRange)) (min ex (r + 1 + P.leftRange))
        (relaxCell P (r + 1)) tbPre (j + jy * P.X) = tbPre (j + jy * P.X) := by
    intro j jy hj hjX hcase
    refine relaxFold_frame P (r + 1) _ _ tbPre j jy hj hjX (by omega) (by omega) ?_
    intro i hi1 hi2 hcon
    rcases hcase with h | h | h
    · exact h hcon.2
    · omega
    · omega
  have hpcall := relaxFold_pathcosts P (r + 1)
    (max (sx + 1) (r + 1 - P.rightRange)) (min ex (r + 1 + P.leftRange)) tbPre
  have hcost : ∀ x : ℤ, max (sx + 1) (r + 1 - P.rightRange) ≤ x →
      x ≤ min ex (r + 1 + P.leftRange) →
      (intFold (max (sx + 1) (r + 1 - P.rightRange)) (min ex (r + 1 + P.leftRange))
        (relaxCell P (r + 1)) tbPre (x + (r + 1) * P.X)).cost =
        mVal P (r + 1) (relaxPrefix P sx r x tbPre) x := by
    intro x h1 h2
    rw [relaxRow_single P (r + 1) _ _ x tbPre h1 h2 (by omega) (by omega),
      relaxCell_eq, upd_self]
    rfl
  have hdirx : ∀ x : ℤ, max (sx + 1) (r + 1 - P.rightRange) ≤ x →
      x ≤ min ex (r + 1 + P.leftRange) →
      (intFold (max (sx + 1) (r + 1 - P.rightRange)) (min ex (r + 1 + P.leftRange))
        (relaxCell P (r + 1)) tbPre (x + (r + 1) * P.X)).selectedPathDir =
        mDir P (r + 1) (relaxPrefix P sx r x tbPre) x := by
    intro x h1 h2
    rw [relaxRow_single P (r + 1) _ _ x tbPre h1 h2 (by omega) (by omega),
      relaxCell_eq, upd_self]
    rfl
  have hvtrans : ∀ x : ℤ, max (sx + 1) (r + 1 - P.rightRange) ≤ x →
      x ≤ min ex (r + 1 + P.leftRange) →
      vCand P (r + 1) (relaxPrefix P sx r x tbPre) x = vCand P (r + 1) tbPre x := by
    intro x h1 h2
    unfold vCand relaxPrefix
    rw [(relaxFold_pathcosts P (r + 1) (max (sx + 1) (r + 1 - P.rightRange))
      (x - 1) tbPre (x + (r + 1) * P.X)).1]
    rw [show x + ((r + 1) - 1) * P.X = x + r * P.X from by ring]
    rw [relaxFold_frame P (r + 1) (max (sx + 1) (r + 1 - P.rightRange)) (x - 1)
      tbPre x r (by omega) (by omega) (by omega) (by omega)
      (fun i _ _ hcon => by omega)]
  have hdtrans : ∀ x : ℤ, max (sx + 1) (r + 1 - P.rightRange) ≤ x →
      x ≤ min ex (r + 1 + P.leftRange) →
      dCand P (r + 1) (relaxPrefix P sx r x tbPre) x = dCand P (r + 1) tbPre x := by
    intro x h1 h2
    unfold dCand relaxPrefix
    rw [(relaxFold_pathcosts P (r + 1) (max (sx + 1) (r + 1 - P.rightRange))
      (x - 1) tbPre (x + (r + 1) * P.X)).2.2]
    rw [show (x - 1) + ((r + 1) - 1) * P.X = (x - 1) + r * P.X from by ring]
    rw [relaxFold_frame P (r + 1) (max (sx + 1) (r + 1 - P.rightRange)) (x - 1)
      tbPre (x - 1) r (by omega) (by omega) (by omega) (by omega)
      (fun i _ _ hcon => by omega)]
  refine ⟨?_, ?_, ?_, ?_, ?_, ?_, ?_, ?_⟩
  · -- cells outside the strip are untouched, so still MAX/none
    intro x y hx hxX hy hout
    have hfr := hframe x y hx hxX (by
      by_cases hyr : y = r + 1
      · right
        subst hyr
        by_contra hcon
        push_neg at hcon
        exact hout ⟨by omega, by omega⟩
      · left
        exact hyr)
    rw [hfr]
    exact hOut x y hx hxX hy hout
  · -- every recorded direction still points into the strip
    intro x y hx hxX hy
    by_cases hrel : y = r + 1 ∧ max (sx + 1) (r + 1 - P.rightRange) ≤ x ∧
        x ≤ min ex (r + 1 + P.leftRange)
    · obtain ⟨hyr, hxa, hxb⟩ := hrel
      rw [hyr]
      rw [hdirx x hxa hxb]
      refine ⟨?_, ?_, ?_⟩
      · -- vertical: the predecessor row r is in-band unless we sit on the
        -- bottom edge, where the vertical candidate is MAX and loses
        intro hdv
        refine ⟨by omega, ?_, by omega⟩
        by_contra hlow'
        have hxe : x = r + 1 + P.leftRange := by omega
        have hmv : mVal P (r + 1) (relaxPrefix P sx r x tbPre) x =
            vCand P (r + 1) (relaxPrefix P sx r x tbPre) x := by
          rcases mDir_spec P (r + 1) (relaxPrefix P sx r x tbPre) x with
            ⟨hD, _⟩ | ⟨hV, hm⟩ | ⟨hH, _⟩
          · rw [hdv] at hD
            exact PathDir.noConfusion hD
          · exact hm
          · rw [hdv] at hH
            exact PathDir.noConfusion hH
        have hnv : (tbPre (x + r * P.X)).cost = MAX_COST :=
          (hOut x r (by omega) (by omega) (by omega)
            (by intro hcon; omega)).1
        have hvge : MAX_COST ≤ vCand P (r + 1) tbPre x := by
          unfold vCand
          rw [show x + ((r + 1) - 1) * P.X = x + r * P.X from by ring, hnv,
            (hPath x (r + 1) (by omega) (by omega) (by omega) (by omega)
              (by omega) (by omega)).1]
          linarith [(hcB x (r + 1)).1]
        have h1 : vCand P (r + 1) tbPre x ≤ dCand P (r + 1) tbPre x := by
          rw [← hvtrans x hxa hxb, ← hmv, ← hdtrans x hxa hxb]
          exact min_le_right _ _
        have hbound := lowEdge_dCand_bound P c B sx ex S E r x hsx0 hsxex hexX
          hlR0 hrR0 hS0 hSsx hSlo hSor hr hrE hcB hxe (by omega) (by omega)
          tbPre hPath hLow hSrc hSeed
        have hle : ((x : ℚ)) + ((r : ℚ)) + 1 ≤ ((ex : ℚ)) + ((E : ℚ)) + 2 := by
          exact_mod_cast (show (x : ℤ) + r + 1 ≤ ex + E + 2 by omega)
        have hlt : ((x + r + 1 : ℚ)) * B < MAX_COST := by
          have := mul_le_mul_of_nonneg_right hle hB0
          push_cast at this ⊢
          linarith [hMC]
        linarith [hvge, h1, hbound, hlt]
      · -- horizontal: in-band unless on the top edge, where the horizontal
        -- candidate is MAX and loses
        intro hdh
        refine ⟨by omega, by omega, ?_⟩
        by_contra htop'
        have hxe : x = r + 1 - P.rightRange := by omega
        have hamax : max (sx + 1) (r + 1 - P.rightRange) = x := by omega
        have hpe : relaxPrefix P sx r x tbPre = tbPre := by
          unfold relaxPrefix
          rw [hamax]
          exact intFold_of_lt (by omega) _ _
        have hmh : mVal P (r + 1) (relaxPrefix P sx r x tbPre) x =
            hCand P (r + 1) (relaxPrefix P sx r x tbPre) x := by
          rcases mDir_spec P (r + 1) (relaxPrefix P sx r x tbPre) x with
            ⟨hD, _⟩ | ⟨hV, _⟩ | ⟨hH, hm⟩
          · rw [hdh] at hD
            exact PathDir.noConfusion hD
          · rw [hdh] at hV
            exact PathDir.noConfusion hV
          · exact hm
        rw [hpe] at hmh
        have hnh : (tbPre ((x - 1) + (r + 1) * P.X)).cost = MAX_COST :=
          (hOut (x - 1) (r + 1) (by omega) (by omega) (by omega)
            (by intro hcon; omega)).1
        have hge : MAX_COST ≤ hCand P (r + 1) tbPre x := by
          unfold hCand
          rw [hnh, (hPath x (r + 1) (by omega) (by omega) (by omega) (by omega)
            (by omega) (by omega)).2.1]
          linarith [(hcB x (r + 1)).2.2.1]
        have hsx1x : sx + 1 ≤ x := by omega
        rcases eq_or_lt_of_le hsx1x with hxs | hxs
        · have hbound := colEdge_mVal_bound P c B sx ex S E r hsx0 hsxex hexX
            hlR0 hrR0 hS0 hSsx hSlo hr hrE hcB (by omega) (by omega) tbPre
            hPath hCol hSrc
          rw [hxs] at hbound
          rw [hmh] at hbound
          have hle : ((sx : ℚ)) + ((r : ℚ)) + 2 ≤ ((ex : ℚ)) + ((E : ℚ)) + 2 := by
            exact_mod_cast (show (sx : ℤ) + r + 2 ≤ ex + E + 2 by omega)
          have hlt : ((sx + r + 2 : ℚ)) * B < MAX_COST := by
            have := mul_le_mul_of_nonneg_right hle hB0
            push_cast at this ⊢
            linarith [hMC]
          linarith [hge, hbound, hlt]
        · have hbound := topEdge_dCand_bound P c B sx ex S E r x hsx0 hsxex
            hexX hlR0 hrR0 hS0 hSsx hr hrE hcB hxe (by omega) (by omega)
            tbPre hPath hTop
          have hmd : mVal P (r + 1) tbPre x ≤ dCand P (r + 1) tbPre x :=
            min_le_right _ _
          rw [hmh] at hmd
          have hle : ((x : ℚ)) + ((r : ℚ)) + 1 ≤ ((ex : ℚ)) + ((E : ℚ)) + 2 := by
            exact_mod_cast (show (x : ℤ) + r + 1 ≤ ex + E + 2 by omega)
          have hlt : ((x + r + 1 : ℚ)) * B < MAX_COST := by
            have := mul_le_mul_of_nonneg_right hle hB0
            push_cast at this ⊢
            linarith [hMC]
          linarith [hge, hmd, hbound, hlt]
      · -- diagonal: the predecessor is in-band by the loop bounds alone
        intro _
        omega
    · have hfr := hframe x y hx hxX (by
        by_cases hyr : y = r + 1
        · right
          by_contra hcon
          push_neg at hcon
          exact hrel ⟨hyr, by omega, by omega⟩
        · left
          exact hyr)
      rw [hfr]
      exact hDir x y hx hxX hy
  · -- path costs untouched
    intro x y hx hxX hSy hyE hlo hhi
    obtain ⟨a1, a2, a3⟩ := hpcall (x + y * P.X)
    rw [a1, a2, a3]
    exact hPath x y hx hxX hSy hyE hlo hhi
  · -- bottom-edge chain extended to row r+1
    intro x y hyx hx1 hx2 hy1 hy2
    rcases eq_or_lt_of_le hy2 with hye | hye
    · subst hye
      have hxa : max (sx + 1) (r + 1 - P.rightRange) ≤ x := by omega
      have hxb : x ≤ min ex (r + 1 + P.leftRange) := by omega
      rw [hcost x hxa hxb]
      have hmd : mVal P (r + 1) (relaxPrefix P sx r x tbPre) x ≤
          dCand P (r + 1) (relaxPrefix P sx r x tbPre) x := min_le_right _ _
      rw [hdtrans x hxa hxb] at hmd
      have hbound := lowEdge_dCand_bound P c B sx ex S E r x hsx0 hsxex hexX
        hlR0 hrR0 hS0 hSsx hSlo hSor hr hrE hcB (by omega) hx1 hx2
        tbPre hPath hLow hSrc hSeed
      push_cast
      push_cast at hbound
      linarith [hmd, hbound]
    · have hfr := hframe x y (by omega) (by omega) (Or.inl (by omega))
      rw [hfr]
      exact hLow x y hyx hx1 hx2 hy1 (by omega)
  · -- top-edge chain extended to row r+1
    intro x y hyx hx1 hx2 hy1 hy2
    rcases eq_or_lt_of_le hy2 with hye | hye
    · subst hye
      have hxa : max (sx + 1) (r + 1 - P.rightRange) ≤ x := by omega
      have hxb : x ≤ min ex (r + 1 + P.leftRange) := by omega
      rw [hcost x hxa hxb]
      have hamax : max (sx + 1) (r + 1 - P.rightRange) = x := by omega
      have hpe : relaxPrefix P sx r x tbPre = tbPre := by
        unfold relaxPrefix
        rw [hamax]
        exact intFold_of_lt (by omega) _ _
      rw [hpe]
      rcases eq_or_lt_of_le hx1 with hxs | hxs
      · have hbound := colEdge_mVal_bound P c B sx ex S E r hsx0 hsxex hexX
          hlR0 hrR0 hS0 hSsx hSlo hr hrE hcB (by omega) (by omega) tbPre
          hPath hCol hSrc
        rw [hxs] at hbound
        have hxsQ : ((x : ℚ)) = ((sx : ℚ)) + 1 := by exact_mod_cast hxs.symm
        have heq : (((x : ℚ)) + (((r : ℚ)) + 1)) * B =
            (((sx : ℚ)) + ((r : ℚ)) + 2) * B := by rw [hxsQ]; ring
        push_cast
        push_cast at hbound
        linarith [hbound, heq]
      · have hbound := topEdge_dCand_bound P c B sx ex S E r x hsx0 hsxex
          hexX hlR0 hrR0 hS0 hSsx hr hrE hcB (by omega) (by omega) (by omega)
          tbPre hPath hTop
        have hmd : mVal P (r + 1) tbPre x ≤ dCand P (r + 1) tbPre x :=
          min_le_right _ _
        push_cast
        push_cast at hbound
        linarith [hmd, hbound]
    · have hfr := hframe x y (by omega) (by omega) (Or.inl (by omega))
      rw [hfr]
      exact hTop x y hyx hx1 hx2 hy1 (by omega)
  · -- column chain extended to row r+1
    intro k hk1 hk2 hk3 hex1
    rcases eq_or_lt_of_le hk2 with hke | hke
    · subst hke
      have hxa : max (sx + 1) (r + 1 - P.rightRange) ≤ sx + 1 := by omega
      have hxb : sx + 1 ≤ min ex (r + 1 + P.leftRange) := by omega
      rw [hcost (sx + 1) hxa hxb]
      have hamax : max (sx + 1) (r + 1 - P.rightRange) = sx + 1 := by omega
      have hpe : relaxPrefix P sx r (sx + 1) tbPre = tbPre := by
        unfold relaxPrefix
        rw [hamax]
        exact intFold_of_lt (by omega) _ _
      rw [hpe]
      have hbound := colEdge_mVal_bound P c B sx ex S E r hsx0 hsxex hexX
        hlR0 hrR0 hS0 hSsx hSlo hr hrE hcB (by omega) hex1 tbPre hPath hCol hSrc
      push_cast
      push_cast at hbound
      linarith [hbound]
    · have hfr := hframe (sx + 1) k (by omega) (by omega) (Or.inl (by omega))
      rw [hfr]
      exact hCol k hk1 (by omega) hk3 hex1
  · -- the source cell is untouched
    have hfr := hframe sx S hsx0 (by omega) (Or.inl (by omega))
    rw [hfr]
    exact hSrc
  · -- the seeded part of row 0 is untouched
    intro iX h1 h2 h3
    have hfr := hframe iX 0 (by omega) (by omega) (Or.inl (by omega))
    rw [show iX + (0 : ℤ) * P.X = iX from by ring] at hfr
    rw [hfr]
    exact hSeed iX h1 h2 h3

/-- The whole relaxation loop, run up to row `r`, preserves the strip
development invariants. -/
theorem relaxG_facts (P : Params) (c : Costs) (B : ℚ) (sx ex S E : ℤ)
    (hsx0 : 0 ≤ sx) (hsxex : sx ≤ ex) (hexX : ex < P.X)
    (hlR0 : 0 ≤ P.leftRange) (hrR0 : 0 ≤ P.rightRange)
    (hS0 : 0 ≤ S) (hSsx : S ≤ sx) (hSlo : sx - P.leftRange ≤ S)
    (hSor : S = sx - P.leftRange ∨ S = 0)
    (hMC : ((ex + E + 2 : ℚ)) * B < MAX_COST)
    (hcB : ∀ a b : ℤ, 0 ≤ (c a b).1 ∧ (c a b).1 ≤ B ∧ 0 ≤ (c a b).2.1 ∧
      (c a b).2.1 ≤ B ∧ 0 ≤ (c a b).2.2 ∧ (c a b).2.2 ≤ B)
    (t4 : Table)
    (h0Out : OutBandMax P t4) (h0Dir : DirOK P t4)
    (h0Path : BandPathChar P c sx ex S E t4)
    (h0Src : (t4 (sx + S * P.X)).cost = 0)
    (h0Seed : SeedRowBound P B sx ex t4) :
    ∀ (n : ℕ) (r : ℤ), r ≤ S + (n : ℤ) → S ≤ r → r ≤ E →
      OutBandMax P (intFold (S + 1) r (relaxRow P sx ex) t4) ∧
      DirOK P (intFold (S + 1) r (relaxRow P sx ex) t4) ∧
      BandPathChar P c sx ex S E (intFold (S + 1) r (relaxRow P sx ex) t4) ∧
      LowEdgeBound P B sx ex S r (intFold (S + 1) r (relaxRow P sx ex) t4) ∧
      TopEdgeBound P B sx ex S r (intFold (S + 1) r (relaxRow P sx ex) t4) ∧
      ColEdgeBound P B sx ex S r (intFold (S + 1) r (relaxRow P sx ex) t4) ∧
      ((intFold (S + 1) r (relaxRow P sx ex) t4) (sx + S * P.X)).cost = 0 ∧
      SeedRowBound P B sx ex (intFold (S + 1) r (relaxRow P sx ex) t4) := by
  intro n
  induction n with
  | zero =>
    intro r hn h1 h2
    have hre : r = S := by omega
    subst hre
    rw [intFold_of_lt (show r < r + 1 by omega)]
    refine ⟨h0Out, h0Dir, h0Path, ?_, ?_, ?_, h0Src, h0Seed⟩
    · intro x y _ _ _ h1' h2'
      exfalso
      omega
    · intro x y _ _ _ h1' h2'
      exfalso
      omega
    · intro k h1' h2' _ _
      exfalso
      omega
  | succ m ih =>
    intro r hn h1 h2
    rcases eq_or_lt_of_le h1 with hre | hre
    · rw [← hre, intFold_of_lt (show S < S + 1 by omega)]
      refine ⟨h0Out, h0Dir, h0Path, ?_, ?_, ?_, h0Src, h0Seed⟩
      · intro x y _ _ _ h1' h2'
        exfalso
        omega
      · intro x y _ _ _ h1' h2'
        exfalso
        omega
      · intro k h1' h2' _ _
        exfalso
        omega
    · have hpeel : intFold (S + 1) r (relaxRow P sx ex) t4 =
          relaxRow P sx ex (intFold (S + 1) (r - 1) (relaxRow P sx ex) t4) r :=
        intFold_last (by omega) _ _
      obtain ⟨i1, i2, i3, i4, i5, i6, i7, i8⟩ :=
        ih (r - 1) (by omega) (by omega) (by omega)
      have hrw := relaxRowG_facts P c B sx ex S E (r - 1) hsx0 hsxex hexX hlR0
        hrR0 hS0 hSsx hSlo hSor (by omega) (by omega) hMC hcB
        (intFold (S + 1) (r - 1) (relaxRow P sx ex) t4) i1 i2 i3 i4 i5 i6 i7 i8
      rw [show r - 1 + 1 = r from by ring] at hrw
      rw [hpeel]
      exact ⟨hrw.1, hrw.2.1, hrw.2.2.1, hrw.2.2.2.1, hrw.2.2.2.2.1,
        hrw.2.2.2.2.2.1, hrw.2.2.2.2.2.2.1, hrw.2.2.2.2.2.2.2⟩

/-- Any `Matching` call with `sy = 0` (as every call in `DPM::DP` and
`DPM::SkipDP` is) preserves the strip invariant of the worker's table. -/
theorem matchingTable_StripOK (P : Params) (c : Costs) (B : ℚ) (sx ex ey : ℤ)
    (hsx0 : 0 ≤ sx) (hsxex : sx ≤ ex) (hexX : ex < P.X)
    (hlR0 : 0 ≤ P.leftRange) (hlRX : P.leftRange < P.X) (hrR0 : 0 ≤ P.rightRange)
    (hey0 : 0 ≤ ey)
    (hcB : ∀ a b : ℤ, 0 ≤ (c a b).1 ∧ (c a b).1 ≤ B ∧ 0 ≤ (c a b).2.1 ∧
      (c a b).2.1 ≤ B ∧ 0 ≤ (c a b).2.2 ∧ (c a b).2.2 ≤ B)
    (hMC : ((ex + clampBand P ex ey + 2 : ℚ)) * B < MAX_COST)
    (t : Table) (hT : StripOK P t) :
    StripOK P (MatchingTable P c sx 0 ex ey t) := by
  have hSprops : 0 ≤ clampBand P sx 0 ∧ clampBand P sx 0 ≤ sx ∧
      sx - P.leftRange ≤ clampBand P sx 0 ∧
      (clampBand P sx 0 = sx - P.leftRange ∨ clampBand P sx 0 = 0) := by
    unfold clampBand
    omega
  have hE0 : 0 ≤ clampBand P ex ey := by
    unfold clampBand
    omega
  obtain ⟨t4, ht4⟩ : ∃ t4 : Table, t4 = seedLeft P sx (clampBand P sx 0)
      (seedBottom P sx
        (upd (initNodes P c sx ex (clampBand P sx 0) (clampBand P ex ey) t)
          (sx + clampBand P sx 0 * P.X)
          { initNodes P c sx ex (clampBand P sx 0) (clampBand P ex ey) t
              (sx + clampBand P sx 0 * P.X) with cost := 0 })) := ⟨_, rfl⟩
  have hMT : MatchingTable P c sx 0 ex ey t =
      relax P sx ex (clampBand P sx 0) (clampBand P ex ey) t4 := by
    rw [ht4]
    rfl
  obtain ⟨p1, p2, p3, p4, p5⟩ := preRelax_facts P c B sx ex (clampBand P sx 0)
    (clampBand P ex ey) hsx0 hsxex hexX hlR0 hlRX hrR0 rfl hE0 hcB t hT t4 ht4
  rw [hMT]
  rcases le_or_lt (clampBand P sx 0) (clampBand P ex ey) with hSE | hSE
  · have hrel : relax P sx ex (clampBand P sx 0) (clampBand P ex ey) t4 =
        intFold (clampBand P sx 0 + 1) (clampBand P ex ey) (relaxRow P sx ex)
          t4 := rfl
    rw [hrel]
    have hfin := relaxG_facts P c B sx ex (clampBand P sx 0) (clampBand P ex ey)
      hsx0 hsxex hexX hlR0 hrR0 hSprops.1 hSprops.2.1 hSprops.2.2.1
      hSprops.2.2.2 hMC hcB t4 p1 p2 p5 p3 p4
      ((clampBand P ex ey) - (clampBand P sx 0)).toNat (clampBand P ex ey)
      (by omega) hSE le_rfl
    exact ⟨hfin.1, hfin.2.1⟩
  · have hrel : relax P sx ex (clampBand P sx 0) (clampBand P ex ey) t4 = t4 :=
      intFold_of_lt (by omega) _ _
    rw [hrel]
    exact ⟨p1, p2⟩

/-- Under the direction part of the strip invariant, the backtrace from an
in-band start visits only in-band cells with nonnegative, nonincreasing row
coordinates; the fallthrough arm stays in-band thanks to its guards. -/
theorem backtraceWrites_in_band (P : Params) (T : Table) (sx sy : ℤ)
    (hsx0 : 0 ≤ sx) (hsy0 : 0 ≤ sy) (hsysx : sy ≤ sx)
    (hsylo : sx - P.leftRange ≤ sy) (hrR0 : 0 ≤ P.rightRange)
    (hdir : DirOK P T) :
    ∀ (fuel : ℕ) (iX iY : ℤ), 0 ≤ iX → iX < P.X → 0 ≤ iY →
      -P.leftRange ≤ iY - iX → iY - iX ≤ P.rightRange →
      ∀ p ∈ backtraceWrites P T sx sy fuel iX iY,
        0 ≤ p.2 ∧ p.2 ≤ iY ∧ -P.leftRange ≤ p.2 - p.1 ∧
          p.2 - p.1 ≤ P.rightRange := by
  intro fuel
  induction fuel with
  | zero =>
    intro iX iY _ _ _ _ _ p hp
    simp [backtraceWrites] at hp
  | succ f ih =>
    intro iX iY hx hxX hy hb1 hb2 p hp
    by_cases hg : sx < iX ∨ sy < iY
    · rw [backtraceWrites, if_pos hg] at hp
      rcases List.mem_cons.mp hp with hphead | hptail
      · subst hphead
        exact ⟨hy, le_rfl, hb1, hb2⟩
      · have hd := hdir iX iY hx hxX hy
        cases hdv : (T (iX + iY * P.X)).selectedPathDir with
        | vertical =>
          rw [hdv] at hptail
          obtain ⟨hy1, hc1, hc2⟩ := hd.1 hdv
          have hrec := ih iX (iY - 1) hx hxX (by omega) (by omega) (by omega)
            p hptail
          exact ⟨hrec.1, by omega, hrec.2.2.1, hrec.2.2.2⟩
        | horizontal =>
          rw [hdv] at hptail
          obtain ⟨hx1, hc1, hc2⟩ := hd.2.1 hdv
          have hrec := ih (iX - 1) iY (by omega) (by omega) hy (by omega)
            (by omega) p hptail
          exact ⟨hrec.1, hrec.2.1, hrec.2.2.1, hrec.2.2.2⟩
        | diagonal =>
          rw [hdv] at hptail
          obtain ⟨hx1, hy1, hc1, hc2⟩ := hd.2.2 hdv
          have hrec := ih (iX - 1) (iY - 1) (by omega) (by omega) (by omega)
            (by omega) (by omega) p hptail
          exact ⟨hrec.1, by omega, hrec.2.2.1, hrec.2.2.2⟩
        | none =>
          rw [hdv] at hptail
          have hrec := ih
            (if (if iX ≤ sx ∧ sy < iY then iY - 1 else iY) ≤ sy ∧ sx < iX
              then iX - 1 else iX)
            (if iX ≤ sx ∧ sy < iY then iY - 1 else iY)
            (by split_ifs <;> omega) (by split_ifs <;> omega)
            (by split_ifs <;> omega) (by split_ifs <;> omega)
            (by split_ifs <;> omega) p hptail
          refine ⟨hrec.1, ?_, hrec.2.2.1, hrec.2.2.2⟩
          have hmono : (if iX ≤ sx ∧ sy < iY then iY - 1 else iY) ≤ iY := by
            split_ifs <;> omega
          have := hrec.2.1
          omega
    · rw [backtraceWrites_guard_false P T sx sy _ iX iY hg] at hp
      simp at hp

/-- C3: for every `Matching` call the engine performs — the full-table calls
of `DPM::DP` and the refine-pass segment calls of `DPM::SkipDP` all pass
`sy = 0`, and the worker tables they reuse satisfy the strip invariant
`StripOK`, which holds for a fresh table (`StripOK_fresh`) and, by the first
conjunct here, is preserved by every call — every entry of the match pattern
after the call is either untouched (`-1` in the engine) or a value `iY` with
`0 ≤ iY ≤ clampBand ex ey` satisfying the band constraint
`-leftRange ≤ iY - x ≤ rightRange` at its own index.  The hypotheses are the
engine's geometry (`0 ≤ sx ≤ ex < X`, band half-widths in `[0, X)`), path
costs in `[0, B]`, and a table wide enough that accumulated band costs stay
below `MAX_COST`. -/
theorem matchPattern_in_band (P : Params) (c : Costs) (B : ℚ) (sx ex ey : ℤ)
    (fuel : ℕ) (t : Table) (mp : ℤ → ℤ) (x : ℤ)
    (hsx0 : 0 ≤ sx) (hsxex : sx ≤ ex) (hexX : ex < P.X)
    (hlR0 : 0 ≤ P.leftRange) (hlRX : P.leftRange < P.X) (hrR0 : 0 ≤ P.rightRange)
    (hey0 : 0 ≤ ey)
    (hcB : ∀ a b : ℤ, 0 ≤ (c a b).1 ∧ (c a b).1 ≤ B ∧ 0 ≤ (c a b).2.1 ∧
      (c a b).2.1 ≤ B ∧ 0 ≤ (c a b).2.2 ∧ (c a b).2.2 ≤ B)
    (hMC : ((ex + clampBand P ex ey + 2 : ℚ)) * B < MAX_COST)
    (hT : StripOK P t) :
    StripOK P (MatchingTable P c sx 0 ex ey t) ∧
    ((Matching P c sx 0 ex ey fuel t mp).2 x = mp x ∨
     (0 ≤ (Matching P c sx 0 ex ey fuel t mp).2 x ∧
      (Matching P c sx 0 ex ey fuel t mp).2 x ≤ clampBand P ex ey ∧
      -P.leftRange ≤ (Matching P c sx 0 ex ey fuel t mp).2 x - x ∧
      (Matching P c sx 0 ex ey fuel t mp).2 x - x ≤ P.rightRange)) := by
  have hMS := matchingTable_StripOK P c B sx ex ey hsx0 hsxex hexX hlR0 hlRX
    hrR0 hey0 hcB hMC t hT
  refine ⟨hMS, ?_⟩
  have hSprops : 0 ≤ clampBand P sx 0 ∧ clampBand P sx 0 ≤ sx ∧
      sx - P.leftRange ≤ clampBand P sx 0 := by
    unfold clampBand
    omega
  have hEprops : 0 ≤ clampBand P ex ey ∧
      -P.leftRange ≤ clampBand P ex ey - ex ∧
      clampBand P ex ey - ex ≤ P.rightRange := by
    unfold clampBand
    omega
  have hwalk := backtraceWrites_in_band P (MatchingTable P c sx 0 ex ey t) sx
    (clampBand P sx 0) hsx0 hSprops.1 hSprops.2.1 hSprops.2.2 hrR0 hMS.2 fuel
    ex (clampBand P ex ey) (by omega) hexX hEprops.1 (by omega) (by omega)
  have hM2 : (Matching P c sx 0 ex ey fuel t mp).2 =
      applyWrites (backtraceWrites P (MatchingTable P c sx 0 ex ey t) sx
        (clampBand P sx 0) fuel ex (clampBand P ex ey)) mp := rfl
  rw [hM2]
  by_cases hx : x ∈ (backtraceWrites P (MatchingTable P c sx 0 ex ey t) sx
      (clampBand P sx 0) fuel ex (clampBand P ex ey)).map Prod.fst
  · right
    obtain ⟨p, hpmem, hp1, hp2⟩ := applyWrites_mem _ mp x hx
    have hpb := hwalk p hpmem
    rw [hp2]
    subst hp1
    exact ⟨hpb.1, hpb.2.1, hpb.2.2.1, hpb.2.2.2⟩
  · left
    exact applyWrites_frame _ mp x hx

/-- Witness for C3: a refine-style call with `sx = 0` on a fresh `2 x 2`
table; the strip invariant hypothesis is discharged by `StripOK_fresh`. -/
theorem matchPattern_in_band_witness :
    StripOK P22 (MatchingTable P22 zeroCosts 0 0 1 1 freshTable) ∧
    ((Matching P22 zeroCosts 0 0 1 1 8 freshTable (fun _ => -1)).2 1 =
      (fun _ => (-1 : ℤ)) 1 ∨
     (0 ≤ (Matching P22 zeroCosts 0 0 1 1 8 freshTable (fun _ => -1)).2 1 ∧
      (Matching P22 zeroCosts 0 0 1 1 8 freshTable (fun _ => -1)).2 1 ≤
        clampBand P22 1 1 ∧
      -P22.leftRange ≤
        (Matching P22 zeroCosts 0 0 1 1 8 freshTable (fun _ => -1)).2 1 - 1 ∧
      (Matching P22 zeroCosts 0 0 1 1 8 freshTable (fun _ => -1)).2 1 - 1 ≤
        P22.rightRange)) :=
  matchPattern_in_band P22 zeroCosts 0 0 1 1 8 freshTable (fun _ => -1) 1
    (by decide) (by decide) (by decide) (by decide) (by decide) (by decide)
    (by decide)
    (fun _ _ => ⟨le_rfl, le_rfl, le_rfl, le_rfl, le_rfl, le_rfl⟩)
    (by rw [mul_zero]; exact MAX_COST_pos)
    (StripOK_fresh P22)
